import Mathlib

/-!
# Connector resolution (`src/engraving/libmscore/connector.cpp`)

A shallow embedding of `ConnectorInfo` / `ConnectorInfoReader`.

* Fragments live in an arena of `n` records; a pointer to a fragment is an
  index `Fin n`, a nullable pointer is `Option (Fin n)`.
* A member function `f()` called on `this` in state `h` becomes `f h this`.
* A `while` loop that may fail to stop is a function with a fuel argument;
  the outer `Option` of its result is `none` exactly when the fuel ran out.
* `int` arithmetic is arithmetic on `Int` followed by `wrap32`.
-/

namespace Ms

/-! ## Data model -/

/-- The tag of a spanning relation (`ElementType`). -/
abbrev ElementType := Nat

/-- Identity of the owning document (`const Score*`). -/
abbrev ScoreId := Nat

/-- Identity of a payload element (`EngravingItem*`). -/
abbrev EngravingItem := Nat

/-- Modelled from the spec: `location.h` is not among the sources. Whether
a location is an absolute address or an offset from a reference. -/
inductive LocationMode where
  | absolute
  | relative
deriving DecidableEq, Repr

/-- Modelled from the spec: `location.h` is not among the sources. The
address value of the spec's data model; equality is structural. -/
structure Location where
  measure : Int
  frac : ℚ
  track : Int
  note : Int
  graceIndex : Int
  mode : LocationMode
deriving DecidableEq

/-- The largest `int`, the "cannot be connected" value of
`connectionDistance`. -/
def INT_MAX : Int := 2147483647

/-- The value of an `int` computation whose exact result is `x`: reduction
modulo 2^32 into the range from -2^31 to 2^31 - 1. -/
def wrap32 (x : Int) : Int := (x + 2147483648) % 4294967296 - 2147483648

/-- `qAbs` on `int`: `t >= 0 ? t : -t`. -/
def qAbs (t : Int) : Int := if 0 ≤ t then t else wrap32 (-t)

/-- Modelled from the spec: `location.cpp` is not among the sources. The
sentinel/invalid Location that a failed conversion returns. -/
def Location.invalid : Location :=
  { measure := -2147483648, frac := 0, track := -1, note := -1, graceIndex := -1,
    mode := .relative }

/-- Modelled from the spec: `location.cpp` is not among the sources.
`toRelative(reference)` rewrites `frac` and the measure index as an offset
from the reference's absolute position, and fails with the invalid Location
if the reference is not absolute. -/
def Location.toRelative (l ref : Location) : Location :=
  if ref.mode = .absolute then
    { l with measure := l.measure - ref.measure, frac := l.frac - ref.frac, mode := .relative }
  else Location.invalid

/-- Modelled from the spec: `location.cpp` is not among the sources.
`toAbsolute(reference)` is the inverse of `toRelative(reference)`: it adds
the reference's position to `frac` and the measure index; it requires
`this.mode == Relative` and fails with the invalid Location otherwise. -/
def Location.toAbsolute (l ref : Location) : Location :=
  if l.mode = .relative then
    { l with measure := l.measure + ref.measure, frac := l.frac + ref.frac, mode := .absolute }
  else Location.invalid

/-- The fields of `ConnectorInfo` and `ConnectorInfoReader` that the
operations below read or write. `hasPrevious` / `hasNext` are declared in
`connector.h`, which is not among the sources; they are taken as given
fields, as in the spec's data model. -/
structure ConnectorInfo (n : Nat) where
  type : ElementType
  score : ScoreId
  currentLoc : Location
  prevLoc : Location
  nextLoc : Location
  hasPrevious : Bool
  hasNext : Bool
  prev : Option (Fin n) := none
  next : Option (Fin n) := none
  connector : Option EngravingItem := none
  connectorReceiver : Nat := 0
  current : Option EngravingItem := none
  currentUpdated : Bool := false
deriving DecidableEq

/-- The arena of all fragments: the program state seen by the operations. -/
abbrev Heap (n : Nat) := Fin n → ConnectorInfo n

/-- Assignment `i->_prev = v`. -/
def setPrev {n : Nat} (h : Heap n) (i : Fin n) (v : Option (Fin n)) : Heap n :=
  Function.update h i { h i with prev := v }

/-- Assignment `i->_next = v`. -/
def setNext {n : Nat} (h : Heap n) (i : Fin n) (v : Option (Fin n)) : Heap n :=
  Function.update h i { h i with next := v }

/-! ## Chain operations -/

/-- The guard and location test of the first branch of
`ConnectorInfo::connect`: `this` takes `other` as its previous. -/
def connectsAsPrev {n : Nat} (h : Heap n) (this o : Fin n) : Prop :=
  ((h this).hasPrevious = true ∧ (h this).prev = none
    ∧ (h o).hasNext = true ∧ (h o).next = none)
  ∧ ((h this).prevLoc = (h o).currentLoc ∧ (h this).currentLoc = (h o).nextLoc)

/-- The guard and location test of the second branch of
`ConnectorInfo::connect`: `this` takes `other` as its next. -/
def connectsAsNext {n : Nat} (h : Heap n) (this o : Fin n) : Prop :=
  ((h this).hasNext = true ∧ (h this).next = none
    ∧ (h o).hasPrevious = true ∧ (h o).prev = none)
  ∧ ((h this).nextLoc = (h o).currentLoc ∧ (h this).currentLoc = (h o).prevLoc)

instance {n : Nat} (h : Heap n) (a b : Fin n) : Decidable (connectsAsPrev h a b) := by
  unfold connectsAsPrev; infer_instance

instance {n : Nat} (h : Heap n) (a b : Fin n) : Decidable (connectsAsNext h a b) := by
  unfold connectsAsNext; infer_instance

/-- `ConnectorInfo::connect`: the returned flag and the state afterwards. -/
def connect {n : Nat} (h : Heap n) (this : Fin n) (other : Option (Fin n)) : Bool × Heap n :=
  match other with
  | none => (false, h)
  | some o =>
    if this = o then (false, h)
    else if (h this).type ≠ (h o).type ∨ (h this).score ≠ (h o).score then (false, h)
    else if connectsAsPrev h this o then
      (true, setNext (setPrev h this (some o)) o (some this))
    else if connectsAsNext h this o then
      (true, setPrev (setNext h this (some o)) o (some this))
    else (false, h)

/-- `ConnectorInfo::forceConnect`. -/
def forceConnect {n : Nat} (h : Heap n) (this : Fin n) (other : Option (Fin n)) : Heap n :=
  match other with
  | none => h
  | some o =>
    if this = o then h
    else setPrev (setNext h this (some o)) o (some this)

/-- The loop shared by `findFirst` (with `link = _prev`) and `findLast`
(with `link = _next`). One unit of fuel pays for one evaluation of the loop
condition. Result `some (some i)`: the loop ended at `i`; `some none`: the
walk came back to `this` and `nullptr` is returned; `none`: out of fuel. -/
def findLoop {n : Nat} (link : Fin n → Option (Fin n)) (this : Fin n) :
    Nat → Fin n → Option (Option (Fin n))
  | 0, _ => none
  | fuel + 1, i =>
    match link i with
    | none => some (some i)
    | some p => if p = this then some none else findLoop link this fuel p

/-- `ConnectorInfo::findFirst`, with as much fuel as there are fragments:
a loop that returns at all returns within `n` iterations
(`findFirst_of_loop`), so the result is `none` only if the loop never
returns. -/
def findFirst {n : Nat} (h : Heap n) (this : Fin n) : Option (Option (Fin n)) :=
  findLoop (fun i => (h i).prev) this n this

/-- `ConnectorInfo::findLast`, with as much fuel as there are fragments
(`findLast_of_loop`). -/
def findLast {n : Nat} (h : Heap n) (this : Fin n) : Option (Option (Fin n)) :=
  findLoop (fun i => (h i).next) this n this

/-- `ConnectorInfo::finishedLeft`. -/
def finishedLeft {n : Nat} (h : Heap n) (this : Fin n) : Option Bool :=
  (findFirst h this).map fun i =>
    match i with
    | none => false
    | some a => !(h a).hasPrevious

/-- `ConnectorInfo::finishedRight`. -/
def finishedRight {n : Nat} (h : Heap n) (this : Fin n) : Option Bool :=
  (findLast h this).map fun i =>
    match i with
    | none => false
    | some a => !(h a).hasNext

/-- `ConnectorInfo::finished`: `finishedLeft() && finishedRight()`, the
right operand being evaluated only when the left one is true. -/
def finished {n : Nat} (h : Heap n) (this : Fin n) : Option Bool :=
  match finishedLeft h this with
  | none => none
  | some false => some false
  | some true => finishedRight h this

/-- `ConnectorInfo::start`. -/
def start {n : Nat} (h : Heap n) (this : Fin n) : Option (Option (Fin n)) :=
  (findFirst h this).map fun i =>
    match i with
    | none => none
    | some a => if (h a).hasPrevious = true then none else some a

/-- `ConnectorInfo::end`. -/
def «end» {n : Nat} (h : Heap n) (this : Fin n) : Option (Option (Fin n)) :=
  (findLast h this).map fun i =>
    match i with
    | none => none
    | some a => if (h a).hasNext = true then none else some a

/-! ## Distance metric -/

/-- The static function `distance` of `connector.cpp`, in `int` arithmetic.
`Fraction` is not among the sources: the difference of the two `frac`
values is taken as an exact rational, `numerator()` and `denominator()` are
those of its absolute value in lowest terms. -/
def distance (l1 l2 : Location) : Int :=
  let dfrac : ℚ := |l2.frac - l1.frac|
  let dpos : Int := (wrap32 (dfrac.num * 1000)).tdiv dfrac.den
  let dpos : Int := wrap32 (dpos + wrap32 (10000 * qAbs (wrap32 (l2.measure - l1.measure))))
  wrap32 (wrap32 (wrap32 (wrap32 (1000 * dpos)
        + wrap32 (100 * qAbs (wrap32 (l2.track - l1.track))))
      + wrap32 (10 * qAbs (wrap32 (l2.note - l1.note))))
    + qAbs (wrap32 (l2.graceIndex - l1.graceIndex)))

/-- `ConnectorInfo::orderedConnectionDistance`. -/
def orderedConnectionDistance {n : Nat} (c1 c2 : ConnectorInfo n) : Int :=
  let c1Next := c1.nextLoc.toRelative c1.currentLoc
  let c2Prev := c2.currentLoc.toRelative c2.prevLoc
  if c1Next = c2Prev then distance c1.nextLoc c2.currentLoc else INT_MAX

/-- `ConnectorInfo::connectionDistance`. -/
def connectionDistance {n : Nat} (h : Heap n) (this other : Fin n) : Int :=
  if (h this).type ≠ (h other).type ∨ (h this).score ≠ (h other).score then INT_MAX
  else
    let distThisOther : Int :=
      if (h this).hasNext = true ∧ (h this).next = none
          ∧ (h other).hasPrevious = true ∧ (h other).prev = none then
        orderedConnectionDistance (h this) (h other)
      else INT_MAX
    let distOtherThis : Int :=
      if (h this).hasPrevious = true ∧ (h this).prev = none
          ∧ (h other).hasNext = true ∧ (h other).next = none then
        orderedConnectionDistance (h other) (h this)
      else INT_MAX
    if distOtherThis < distThisOther then wrap32 (-distOtherThis) else distThisOther

/-! ## Delivery and release of the payload -/

/-- One call `receiver->readAddConnector(fragment, pasteMode)`. -/
structure Delivery (n : Nat) where
  receiver : Nat
  fragment : Fin n
  pasteMode : Bool
deriving DecidableEq

/-- The call `r->_connectorReceiver->readAddConnector(r, pasteMode)`. -/
def deliveryOf {n : Nat} (h : Heap n) (pasteMode : Bool) (r : Fin n) : Delivery n :=
  { receiver := (h r).connectorReceiver, fragment := r, pasteMode := pasteMode }

/-- First loop of `ConnectorInfoReader::addToScore`:
`while (r->prev()) r = r->prev();`. Result `none`: out of fuel. -/
def rewind {n : Nat} (h : Heap n) : Nat → Fin n → Option (Fin n)
  | 0, _ => none
  | fuel + 1, r =>
    match (h r).prev with
    | none => some r
    | some p => rewind h fuel p

/-- Second loop of `ConnectorInfoReader::addToScore`: the calls of
`readAddConnector` in the order they are made. The receiver callback is
outside the sources; each call is recorded and taken to leave the links as
they are. Result `none`: out of fuel. -/
def deliver {n : Nat} (h : Heap n) (pasteMode : Bool) :
    Nat → Option (Fin n) → Option (List (Delivery n))
  | 0, _ => none
  | _ + 1, none => some []
  | fuel + 1, some r =>
    (deliver h pasteMode fuel (h r).next).map fun l => deliveryOf h pasteMode r :: l

/-- `ConnectorInfoReader::addToScore`; each of its two loops may evaluate
its condition `fuel` times. -/
def addToScore {n : Nat} (fuel : Nat) (h : Heap n) (this : Fin n) (pasteMode : Bool) :
    Option (List (Delivery n)) :=
  (rewind h fuel this).bind fun r => deliver h pasteMode fuel (some r)

/-- Assignment `i->_connector = v`. -/
def setConnector {n : Nat} (h : Heap n) (i : Fin n) (v : Option EngravingItem) : Heap n :=
  Function.update h i { h i with connector := v }

/-- `ConnectorInfoReader::connector`. -/
def connector {n : Nat} (h : Heap n) (this : Fin n) : Option (Option EngravingItem) :=
  (findFirst h this).map fun i =>
    match i with
    | none => none
    | some a => (h a).connector

/-- The loop of the circular branch of `ConnectorInfoReader::releaseConnector`,
at fragment `ii` with the payload `c` found so far. Result `none`: out of
fuel. -/
def releaseLoop {n : Nat} (this : Fin n) :
    Nat → Heap n → Fin n → Option EngravingItem → Option (Option EngravingItem × Heap n)
  | 0, _, _, _ => none
  | fuel + 1, h, ii, c =>
    match (h ii).prev with
    | none => some (c, h)
    | some p =>
      let c1 : Option EngravingItem := if (h ii).connector ≠ none then (h ii).connector else c
      let h1 : Heap n := if (h ii).connector ≠ none then setConnector h ii none else h
      if p = this then some (c1, h1) else releaseLoop this fuel h1 p c1

/-- `ConnectorInfoReader::releaseConnector`: the returned payload and the
state afterwards. The loop of the circular branch gets as much fuel as
there are fragments; it walks the prev links that `findFirst` has just
walked back to `this`. -/
def releaseConnector {n : Nat} (h : Heap n) (this : Fin n) :
    Option (Option EngravingItem × Heap n) :=
  match findFirst h this with
  | none => none
  | some none => releaseLoop this n h this none
  | some (some i) => some ((h i).connector, setConnector h i none)

/-! ## Reading and writing a fragment -/

/-- A child element of a connector element as the XML reader presents it:
its tag and, for a `prev` or `next` element, the locations that
`Location::read` yields for its `location` children, in order. -/
structure XmlChild where
  tag : String
  locations : List Location := []
deriving DecidableEq

/-- A connector element: the value of its `type` attribute and its child
elements in order. -/
structure ConnectorXml where
  typeName : String
  children : List XmlChild
deriving DecidableEq

/-- The collaborators of `ConnectorInfoReader` that are outside the sources:
`Factory::name2type`, `Factory::createItemByName` (null for a name it cannot
create), `ReadContext::fillLocation` and `Location::fillForElement`. -/
structure ReaderEnv where
  name2type : String → ElementType
  createItemByName : String → Option EngravingItem
  fillLocation : Location → Location
  fillForElement : EngravingItem → Bool → Location → Location

/-- `ConnectorInfoReader::readEndpointLocation`: every `location` child
overwrites `l` with the location read from it. -/
def readEndpointLocation (l : Location) (locations : List Location) : Location :=
  locations.foldl (fun _ x => x) l

/-- The loop of `ConnectorInfoReader::read` over the child elements, `name`
being the value of the `type` attribute. The payload's own `setTrack` and
`read` do not touch the fragment and are left out. -/
def readChildren {n : Nat} (env : ReaderEnv) (name : String) :
    List XmlChild → ConnectorInfo n → Bool × ConnectorInfo n
  | [], r => (true, r)
  | c :: cs, r =>
    if c.tag = "prev" then
      readChildren env name cs { r with prevLoc := readEndpointLocation r.prevLoc c.locations }
    else if c.tag = "next" then
      readChildren env name cs { r with nextLoc := readEndpointLocation r.nextLoc c.locations }
    else
      let r1 : ConnectorInfo n :=
        if c.tag = name then { r with connector := env.createItemByName c.tag } else r
      if r1.connector = none then (false, r1)
      else readChildren env name cs r1

/-- `ConnectorInfoReader::read`: the returned flag and the fragment
afterwards. -/
def read {n : Nat} (env : ReaderEnv) (x : ConnectorXml) (r : ConnectorInfo n) :
    Bool × ConnectorInfo n :=
  readChildren env x.typeName x.children
    { r with type := env.name2type x.typeName, currentLoc := env.fillLocation r.currentLoc }

/-- The part of `ReadContext` that connector reading uses. -/
structure ReadContext (n : Nat) where
  connectors : List (ConnectorInfo n) := []
  pendingConnectors : List (ConnectorInfo n) := []

/-- `ReadContext::addConnectorInfoLater`: `push_back` on the pending
connectors. -/
def addConnectorInfoLater {n : Nat} (ctx : ReadContext n) (c : ConnectorInfo n) :
    ReadContext n :=
  { ctx with pendingConnectors := ctx.pendingConnectors ++ [c] }

/-- `ConnectorInfoReader::readConnector`: the read context afterwards. When
`read` fails the reader skips the current element and the fragment, owned
by the call, is destroyed. -/
def readConnector {n : Nat} (env : ReaderEnv) (x : ConnectorXml) (info : ConnectorInfo n)
    (ctx : ReadContext n) : ReadContext n :=
  if (read env x info).1 = false then ctx
  else addConnectorInfoLater ctx (read env x info).2

/-- `ConnectorInfo::updateCurrentInfo`. -/
def updateCurrentInfo {n : Nat} (env : ReaderEnv) (clipboardmode : Bool)
    (r : ConnectorInfo n) : ConnectorInfo n :=
  let r1 : ConnectorInfo n :=
    match r.currentUpdated, r.current with
    | false, some e => { r with currentLoc := env.fillForElement e clipboardmode r.currentLoc }
    | _, _ => r
  { r1 with currentUpdated := true }

/-- `ConnectorInfoReader::update`. -/
def update {n : Nat} (env : ReaderEnv) (pasteMode : Bool) (r : ConnectorInfo n) :
    ConnectorInfo n :=
  let r1 : ConnectorInfo n := if r.currentUpdated = false then updateCurrentInfo env pasteMode r else r
  let r2 : ConnectorInfo n :=
    if r1.hasPrevious = true then { r1 with prevLoc := r1.prevLoc.toAbsolute r1.currentLoc } else r1
  if r2.hasNext = true then { r2 with nextLoc := r2.nextLoc.toAbsolute r2.currentLoc } else r2

/-- Modelled from the spec: `isStart()` is declared in `connector.h`, which
is not among the sources. The spec has the payload written "only on the
fragment that is chain-first", the first element of a chain being the one
that declares no previous. -/
def isStart {n : Nat} (r : ConnectorInfo n) : Bool := !r.hasPrevious

/-- What `XmlWriter` is asked to emit by `ConnectorInfoWriter::write`. -/
inductive XmlToken where
  | startConnector (type : ElementType)
  | payload (c : EngravingItem)
  | startObject (name : String)
  | location (l : Location)
  | endObject
deriving DecidableEq

/-- `ConnectorInfoWriter::write` for the payload `c` of the writer: the
tokens emitted and the writer afterwards (`toRelative` works on `_prevLoc`
and `_nextLoc` in place). `canWrite` is `WriteContext::canWrite`. -/
def write {n : Nat} (canWrite : EngravingItem → Bool) (c : EngravingItem)
    (r : ConnectorInfo n) : List XmlToken × ConnectorInfo n :=
  if canWrite c = false then ([], r)
  else
    let t0 : List XmlToken := [XmlToken.startConnector r.type]
    let t1 : List XmlToken := if isStart r = true then t0 ++ [XmlToken.payload c] else t0
    let r1 : ConnectorInfo n :=
      if r.hasPrevious = true then { r with prevLoc := r.prevLoc.toRelative r.currentLoc } else r
    let t2 : List XmlToken :=
      if r.hasPrevious = true then
        t1 ++ [XmlToken.startObject "prev", XmlToken.location r1.prevLoc, XmlToken.endObject]
      else t1
    let r2 : ConnectorInfo n :=
      if r1.hasNext = true then { r1 with nextLoc := r1.nextLoc.toRelative r1.currentLoc } else r1
    let t3 : List XmlToken :=
      if r1.hasNext = true then
        t2 ++ [XmlToken.startObject "next", XmlToken.location r2.nextLoc, XmlToken.endObject]
      else t2
    (t3 ++ [XmlToken.endObject], r2)

/-! ## Predicates used to state the properties -/

/-- The fragments from which the loop of `findFirst` / `findLast` returns
within `k` iterations. -/
def stopsWithin {n : Nat} (link : Fin n → Option (Fin n)) (t : Fin n) (k : Nat) :
    Finset (Fin n) :=
  Finset.univ.filter fun x => (findLoop link t k x).isSome = true


/-- Ordering (a) of the `connect` contract: `a` declares a previous, `b`
declares a next, and their locations point at each other. -/
def orderingPrev {n : Nat} (h : Heap n) (a b : Fin n) : Prop :=
  (h a).hasPrevious = true ∧ (h b).hasNext = true
    ∧ (h a).prevLoc = (h b).currentLoc ∧ (h a).currentLoc = (h b).nextLoc

/-- Ordering (b) of the `connect` contract, the mirror of (a). -/
def orderingNext {n : Nat} (h : Heap n) (a b : Fin n) : Prop :=
  (h a).hasNext = true ∧ (h b).hasPrevious = true
    ∧ (h a).nextLoc = (h b).currentLoc ∧ (h a).currentLoc = (h b).prevLoc

instance {n : Nat} (h : Heap n) (a b : Fin n) : Decidable (orderingPrev h a b) := by
  unfold orderingPrev; infer_instance

instance {n : Nat} (h : Heap n) (a b : Fin n) : Decidable (orderingNext h a b) := by
  unfold orderingNext; infer_instance

/-- The slots of the ordering "`a` before `b`" are declared and free: `a`
declares a next and has no next link, `b` declares a previous and has no
prev link. -/
def slotsOpen {n : Nat} (h : Heap n) (a b : Fin n) : Prop :=
  (h a).hasNext = true ∧ (h a).next = none ∧ (h b).hasPrevious = true ∧ (h b).prev = none

/-- The relative offsets of the ordering "`a` before `b`" agree: the next
location of `a` relative to `a` is the location of `b` relative to the
previous location of `b`. -/
def offsetsAgree {n : Nat} (h : Heap n) (a b : Fin n) : Prop :=
  (h a).nextLoc.toRelative (h a).currentLoc = (h b).currentLoc.toRelative (h b).prevLoc

/-- The ordering "`a` before `b`" is matched: slots declared and free,
relative offsets agree. -/
def orderMatched {n : Nat} (h : Heap n) (a b : Fin n) : Prop :=
  slotsOpen h a b ∧ offsetsAgree h a b

instance {n : Nat} (h : Heap n) (a b : Fin n) : Decidable (slotsOpen h a b) := by
  unfold slotsOpen; infer_instance

instance {n : Nat} (h : Heap n) (a b : Fin n) : Decidable (offsetsAgree h a b) := by
  unfold offsetsAgree; infer_instance

instance {n : Nat} (h : Heap n) (a b : Fin n) : Decidable (orderMatched h a b) := by
  unfold orderMatched; infer_instance

/-- The score of the ordering "`a` before `b`": the distance from the next
location of `a` to `b` when the ordering is matched, `INT_MAX` otherwise. -/
def matchedDistance {n : Nat} (h : Heap n) (a b : Fin n) : Int :=
  if orderMatched h a b then distance (h a).nextLoc (h b).currentLoc else INT_MAX

/-- The position term of the Distance Metric as the spec words it, in exact
arithmetic. -/
def posTerm (l1 l2 : Location) : Int :=
  ⌊(1000 : ℚ) * |l2.frac - l1.frac|⌋ + 10000 * |l2.measure - l1.measure|

/-- The Distance Metric as the spec words it, in exact arithmetic. -/
def distanceFormula (l1 l2 : Location) : Int :=
  1000 * posTerm l1 l2 + 100 * |l2.track - l1.track| + 10 * |l2.note - l1.note|
    + |l2.graceIndex - l1.graceIndex|

/-- The fragments `f 0, ..., f (N-1)` form a linear chain: consecutive ones
are linked both ways, the first has no prev link, the last no next link. -/
def IsChain {n N : Nat} (h : Heap n) (f : Fin N → Fin n) : Prop :=
  (∀ i j : Fin N, j.val = i.val + 1 →
      (h (f i)).next = some (f j) ∧ (h (f j)).prev = some (f i))
    ∧ (∀ i : Fin N, i.val = 0 → (h (f i)).prev = none)
    ∧ (∀ i : Fin N, i.val + 1 = N → (h (f i)).next = none)

/-- The `N` distinct fragments `f 0, ..., f (N-1)` form a ring: the next of
`f i` is `f ((i+1) mod N)`, whose prev is `f i`. -/
def IsRing {n N : Nat} (h : Heap n) (f : Fin N → Fin n) : Prop :=
  Function.Injective f
    ∧ ∀ i j : Fin N, j.val = (i.val + 1) % N →
      (h (f i)).next = some (f j) ∧ (h (f j)).prev = some (f i)

instance {n N : Nat} (h : Heap n) (f : Fin N → Fin n) : Decidable (IsChain h f) := by
  unfold IsChain; infer_instance

instance {n N : Nat} (h : Heap n) (f : Fin N → Fin n) : Decidable (IsRing h f) := by
  unfold IsRing; infer_instance

/-- A sequence of calls `a.connect(b)`, executed from left to right; the
returned flags are dropped. -/
def connectAll {n : Nat} (h : Heap n) : List (Fin n × Fin n) → Heap n
  | [] => h
  | c :: cs => connectAll (connect h c.1 (some c.2)).2 cs

/-- No fragment has a prev or a next link. -/
def Unlinked {n : Nat} (h : Heap n) : Prop :=
  ∀ i : Fin n, (h i).prev = none ∧ (h i).next = none

/-- The fragment reached from `x` by following `k` next links, if there
are that many. -/
def nextIter {n : Nat} (h : Heap n) : Nat → Fin n → Option (Fin n)
  | 0, x => some x
  | k + 1, x =>
    match (h x).next with
    | none => none
    | some y => nextIter h k y

/-- The fragment reached from `x` by following `k` prev links, if there
are that many. -/
def prevIter {n : Nat} (h : Heap n) : Nat → Fin n → Option (Fin n)
  | 0, x => some x
  | k + 1, x =>
    match (h x).prev with
    | none => none
    | some y => prevIter h k y

/-- The declarations of `x` and `y` match with `x` before `y`: distinct
fragments of one kind and one score, `x` declares a next where `y` is and `y`
declares a previous where `x` is. -/
def declaredPair {n : Nat} (h : Heap n) (x y : Fin n) : Prop :=
  x ≠ y ∧ (h x).type = (h y).type ∧ (h x).score = (h y).score ∧ orderingNext h x y

/-- The declarations of the fragments `0, ..., N-1` of one kind and one
score describe a linear chain in this order: the first declares no
previous, the last no next, every other one both, and consecutive
fragments point at each other. -/
def DeclaredChain {N : Nat} (h : Heap N) : Prop :=
  (∀ i j : Fin N, (h i).type = (h j).type ∧ (h i).score = (h j).score)
    ∧ (∀ i : Fin N, (h i).hasPrevious = true ↔ 0 < i.val)
    ∧ (∀ i : Fin N, (h i).hasNext = true ↔ i.val + 1 < N)
    ∧ (∀ i j : Fin N, j.val = i.val + 1 →
      (h i).nextLoc = (h j).currentLoc ∧ (h j).prevLoc = (h i).currentLoc)

/-- Only chain neighbours have matching declarations. -/
def OnlyNeighboursMatch {N : Nat} (h : Heap N) : Prop :=
  ∀ i j : Fin N, i ≠ j → orderingNext h i j → j.val = i.val + 1

/-- Every pair of distinct fragments occurs in the call sequence, in one
order or the other. -/
def CoversAllPairs {N : Nat} (calls : List (Fin N × Fin N)) : Prop :=
  ∀ i j : Fin N, i ≠ j → (i, j) ∈ calls ∨ (j, i) ∈ calls

/-- The links of the chain `0 -> 1 -> ... -> N-1` and no others. -/
def LinkedInOrder {N : Nat} (h : Heap N) : Prop :=
  ∀ i : Fin N,
    (h i).next = (if hi : i.val + 1 < N then some ⟨i.val + 1, hi⟩ else none)
      ∧ (h i).prev = (if 0 < i.val then some ⟨i.val - 1, by omega⟩ else none)

/-- What every state reached from `h0` by `connect` calls satisfies: only
link slots differ from `h0`, every link joins a pair with matching
declarations, and next and prev are mutually inverse. -/
structure LinkInv {n : Nat} (h0 h : Heap n) : Prop where
  static : ∀ i, h i = { h0 i with prev := (h i).prev, next := (h i).next }
  next_decl : ∀ x y, (h x).next = some y → declaredPair h0 x y
  prev_decl : ∀ x y, (h x).prev = some y → declaredPair h0 y x
  inverse : ∀ x y, (h x).next = some y ↔ (h y).prev = some x

instance {n : Nat} (h : Heap n) : Decidable (Unlinked h) := by
  unfold Unlinked; infer_instance

instance {n : Nat} (h : Heap n) (a b : Fin n) : Decidable (declaredPair h a b) := by
  unfold declaredPair; infer_instance

instance {N : Nat} (h : Heap N) : Decidable (DeclaredChain h) := by
  unfold DeclaredChain; infer_instance

instance {N : Nat} (h : Heap N) : Decidable (OnlyNeighboursMatch h) := by
  unfold OnlyNeighboursMatch; infer_instance

instance {N : Nat} (calls : List (Fin N × Fin N)) : Decidable (CoversAllPairs calls) := by
  unfold CoversAllPairs; infer_instance

instance {N : Nat} (h : Heap N) : Decidable (LinkedInOrder h) := by
  unfold LinkedInOrder; infer_instance

/-- One linking call made while fragments are reconciled: `a.connect(b)` or
`a.forceConnect(b)`, the argument possibly null. -/
inductive LinkCall (n : Nat) where
  | connect (a : Fin n) (b : Option (Fin n))
  | forceConnect (a : Fin n) (b : Option (Fin n))
deriving DecidableEq

/-- The state after one linking call; the flag of `connect` is dropped. -/
def linkStep {n : Nat} (h : Heap n) : LinkCall n → Heap n
  | .connect a b => (connect h a b).2
  | .forceConnect a b => forceConnect h a b

/-- A sequence of linking calls, executed from left to right. -/
def linkAll {n : Nat} (h : Heap n) : List (LinkCall n) → Heap n
  | [] => h
  | c :: cs => linkAll (linkStep h c) cs

/-- The call writes open slots only: `a.forceConnect(b)` is made when `a`
has no next link and `b` has no prev link. This is the condition under which
the resolution of broken chains is specified to force a link (both ends have
an open slot); the callers of `forceConnect` are not among the sources.
`connect` tests its slots itself. -/
def onOpenSlots {n : Nat} (h : Heap n) : LinkCall n → Prop
  | .connect _ _ => True
  | .forceConnect _ none => True
  | .forceConnect a (some b) => (h a).next = none ∧ (h b).prev = none

/-- Every `forceConnect` call of the sequence is made on open slots, in the
state in which it is made. -/
def ForcedOnOpenSlots {n : Nat} (h : Heap n) : List (LinkCall n) → Prop
  | [] => True
  | c :: cs => onOpenSlots h c ∧ ForcedOnOpenSlots (linkStep h c) cs

/-- The next and prev links are mutually inverse. -/
def LinksInverse {n : Nat} (h : Heap n) : Prop :=
  ∀ x y : Fin n, (h x).next = some y ↔ (h y).prev = some x

instance {n : Nat} (h : Heap n) (c : LinkCall n) : Decidable (onOpenSlots h c) := by
  cases c with
  | connect a b => exact isTrue trivial
  | forceConnect a b =>
    cases b with
    | none => exact isTrue trivial
    | some b => exact inferInstanceAs (Decidable ((h a).next = none ∧ (h b).prev = none))

/-- Decision procedure of `ForcedOnOpenSlots`, call by call. -/
def decideForced {n : Nat} :
    (h : Heap n) → (cs : List (LinkCall n)) → Decidable (ForcedOnOpenSlots h cs)
  | _, [] => isTrue trivial
  | h, c :: cs =>
    match decideForced (linkStep h c) cs with
    | isTrue t =>
      if o : onOpenSlots h c then isTrue ⟨o, t⟩ else isFalse fun q => o q.1
    | isFalse f => isFalse fun q => f q.2

instance {n : Nat} (h : Heap n) (cs : List (LinkCall n)) :
    Decidable (ForcedOnOpenSlots h cs) := decideForced h cs

instance {n : Nat} (h : Heap n) : Decidable (LinksInverse h) := by
  unfold LinksInverse; infer_instance

/-! ## Concrete states -/

/-- An absolute location in measure `m`, track 0, tick 0. -/
def locAt (m : Int) : Location :=
  { measure := m, frac := 0, track := 0, note := 0, graceIndex := 0, mode := .absolute }

/-- Two unlinked ties at the same location; each declares a previous and a
next at that location. -/
def twin : Heap 2 := fun _ =>
  { type := 1, score := 0, currentLoc := locAt 1, prevLoc := locAt 1, nextLoc := locAt 1,
    hasPrevious := true, hasNext := true }

/-- The location value used for an undeclared previous or next. -/
def noLoc : Location :=
  { measure := -2147483648, frac := 0, track := 0, note := 0, graceIndex := 0, mode := .absolute }

/-- A tie (kind 1) in measure 1 declaring a next in measure 2, and a slur
(kind 2) in measure 2 declaring a previous in measure 1. -/
def kindClash : Heap 2 := fun i =>
  if i = 0 then
    { type := 1, score := 0, currentLoc := locAt 1, prevLoc := noLoc, nextLoc := locAt 2,
      hasPrevious := false, hasNext := true }
  else
    { type := 2, score := 0, currentLoc := locAt 2, prevLoc := locAt 1, nextLoc := noLoc,
      hasPrevious := true, hasNext := false }

/-- A declared chain of two ties: the head in measure 1, the tail in
measure 2. -/
def pair : Heap 2 := fun i =>
  if i = 0 then
    { type := 1, score := 0, currentLoc := locAt 1, prevLoc := noLoc, nextLoc := locAt 2,
      hasPrevious := false, hasNext := true }
  else
    { type := 1, score := 0, currentLoc := locAt 2, prevLoc := locAt 1, nextLoc := noLoc,
      hasPrevious := true, hasNext := false }

/-- Three unlinked ties in measures 1, 2, 3, each declaring a previous and
a next in the neighbouring measures. -/
def loose3 : Heap 3 := fun i =>
  { type := 1, score := 0, currentLoc := locAt (i.val + 1), prevLoc := locAt i.val,
    nextLoc := locAt (i.val + 2), hasPrevious := true, hasNext := true }

/-- The three fragments forced into the cycle 0 -> 1 -> 2 -> 0. -/
def ring3 : Heap 3 :=
  forceConnect (forceConnect (forceConnect loose3 0 (some 1)) 1 (some 2)) 2 (some 0)

/-- The state after `f1.forceConnect(f0)`, `f2.forceConnect(f1)`,
`f1.forceConnect(f2)`: the prev link of 0 is 1, and 1 and 2 are each the
prev of the other. -/
def tailIntoCycle : Heap 3 :=
  forceConnect (forceConnect (forceConnect loose3 1 (some 0)) 2 (some 1)) 1 (some 2)

/-- The declared two-fragment chain after `f0.connect(f1)`. -/
def pairLinked : Heap 2 := (connect pair 0 (some 1)).2

/-- Three unlinked ties in measures 1, 2, 3 whose declarations go round:
each declares its next in the following measure and its previous in the
preceding one, measure 3 being followed by measure 1. -/
def declaredRing : Heap 3 := fun i =>
  { type := 1, score := 0, currentLoc := locAt (i.val + 1),
    prevLoc := locAt ((i.val + 2) % 3 + 1), nextLoc := locAt ((i.val + 1) % 3 + 1),
    hasPrevious := true, hasNext := true }

/-- A declared chain of three unlinked ties that all sit at the same
location: head, middle and tail. -/
def sameSpot : Heap 3 := fun i =>
  { type := 1, score := 0, currentLoc := locAt 1,
    prevLoc := if i = 0 then noLoc else locAt 1,
    nextLoc := if i = 2 then noLoc else locAt 1,
    hasPrevious := decide (i ≠ 0), hasNext := decide (i ≠ 2) }

/-- A declared chain of three unlinked ties in measures 1, 2, 3. -/
def triple : Heap 3 := fun i =>
  { type := 1, score := 0, currentLoc := locAt (i.val + 1),
    prevLoc := if i = 0 then noLoc else locAt i.val,
    nextLoc := if i = 2 then noLoc else locAt (i.val + 2),
    hasPrevious := decide (i ≠ 0), hasNext := decide (i ≠ 2) }

/-- A tie in measure 1 declaring a next one measure later, and a tie in
measure 5 declaring a previous two measures earlier. -/
def apart : Heap 2 := fun i =>
  if i = 0 then
    { type := 1, score := 0, currentLoc := locAt 1, prevLoc := noLoc, nextLoc := locAt 2,
      hasPrevious := false, hasNext := true }
  else
    { type := 1, score := 0, currentLoc := locAt 5, prevLoc := locAt 3, nextLoc := noLoc,
      hasPrevious := true, hasNext := false }

/-- A tie in measure 1 declaring a next one measure later, and a tie in
measure 4 declaring a previous one measure earlier. -/
def shifted : Heap 2 := fun i =>
  if i = 0 then
    { type := 1, score := 0, currentLoc := locAt 1, prevLoc := noLoc, nextLoc := locAt 2,
      hasPrevious := false, hasNext := true }
  else
    { type := 1, score := 0, currentLoc := locAt 4, prevLoc := locAt 3, nextLoc := noLoc,
      hasPrevious := true, hasNext := false }

/-- An absolute location in measure `m` and track `t`. -/
def locTrack (m t : Int) : Location :=
  { measure := m, frac := 0, track := t, note := 0, graceIndex := 0, mode := .absolute }

/-- The linked two-fragment chain whose head holds payload 7 and whose tail
holds payload 8. -/
def pairLoaded : Heap 2 := setConnector (setConnector pairLinked 0 (some 7)) 1 (some 8)

/-- Two ties holding the payloads 10 and 20, forced into the ring
0 -> 1 -> 0. -/
def ringLoaded : Heap 2 :=
  forceConnect (forceConnect
    (setConnector (setConnector twin 0 (some 10)) 1 (some 20)) 0 (some 1)) 1 (some 0)

/-- The forced three-fragment ring in which fragment 1 holds payload 5. -/
def ring3Loaded : Heap 3 := setConnector ring3 1 (some 5)

/-- A location in measure 3, three quarters into it, on track 2, note 1. -/
def locFine : Location :=
  { measure := 3, frac := 3 / 4, track := 2, note := 1, graceIndex := 0, mode := .absolute }

/-- One unlinked tie that declares neither a previous nor a next. -/
def solo : Heap 1 := fun _ =>
  { type := 1, score := 0, currentLoc := locAt 1, prevLoc := noLoc, nextLoc := noLoc,
    hasPrevious := false, hasNext := false }

/-- A tie in measure 1 declaring a next one measure later, and a tie in
measure 217 declaring a previous one measure earlier: the offsets agree, the
declared next of the first is 215 measures before the second. -/
def farApart : Heap 2 := fun i =>
  if i = 0 then
    { type := 1, score := 0, currentLoc := locAt 1, prevLoc := noLoc, nextLoc := locAt 2,
      hasPrevious := false, hasNext := true }
  else
    { type := 1, score := 0, currentLoc := locAt 217, prevLoc := locAt 216, nextLoc := noLoc,
      hasPrevious := true, hasNext := false }

/-- Two ties in measure 300. Fragment 0 declares its previous in measure 300
and its next in measure 515; fragment 1 declares its previous in measure 85
and its next in measure 300. -/
def zeroAndFar : Heap 2 := fun i =>
  if i = 0 then
    { type := 1, score := 0, currentLoc := locAt 300, prevLoc := locAt 300,
      nextLoc := locAt 515, hasPrevious := true, hasNext := true }
  else
    { type := 1, score := 0, currentLoc := locAt 300, prevLoc := locAt 85,
      nextLoc := locAt 300, hasPrevious := true, hasNext := true }

/-- A relative location: `m` measures and half a measure's ticks later. -/
def relLoc (m : Int) : Location :=
  { measure := m, frac := 1 / 2, track := 0, note := 0, graceIndex := 0, mode := .relative }

/-- A reader environment that knows the kind "Tie" only, creates payload 7
for it, and leaves locations as they are. -/
def tieEnv : ReaderEnv :=
  { name2type := fun s => if s = "Tie" then 1 else 0,
    createItemByName := fun s => if s = "Tie" then some 7 else none,
    fillLocation := fun l => l,
    fillForElement := fun _ _ l => l }

/-- A connector element of type "Tie" with a `next` block and the payload
element "Tie". -/
def tieXml : ConnectorXml :=
  { typeName := "Tie",
    children := [{ tag := "Tie" }, { tag := "next", locations := [relLoc 1] }] }

/-- A connector element of type "Tie" whose payload element is named
"Slur". -/
def mismatchedXml : ConnectorXml :=
  { typeName := "Tie",
    children := [{ tag := "next", locations := [relLoc 1] }, { tag := "Slur" }] }

/-- A fragment as `ConnectorInfoReader` is constructed for a score: at
measure 1, nothing declared, no payload. -/
def fresh : ConnectorInfo 1 :=
  { type := 0, score := 0, currentLoc := locAt 1, prevLoc := noLoc, nextLoc := noLoc,
    hasPrevious := false, hasNext := false, currentUpdated := true }

/-- A read context with one pending fragment. -/
def oneWaiting : ReadContext 1 := { pendingConnectors := [solo 0] }

/-- A fragment read from a file at measure 3: its previous is declared
relative to it (two measures back, half a measure on), its next one measure
and a half later, both still relative. -/
def asRead : ConnectorInfo 1 :=
  { type := 1, score := 0, currentLoc := locAt 3,
    prevLoc := relLoc (-2), nextLoc := relLoc 1,
    hasPrevious := true, hasNext := true, currentUpdated := true }

/-- Three forced links, each made on open slots, then a `connect` call:
`f1.forceConnect(f0)`, `f2.forceConnect(f1)`, `f0.forceConnect(f2)`,
`f0.connect(f1)`. -/
def forcedRing : List (LinkCall 3) :=
  [.forceConnect 1 (some 0), .forceConnect 2 (some 1), .forceConnect 0 (some 2),
    .connect 0 (some 1)]

/-- The calls behind `tailIntoCycle`; the third one overwrites the next
link of fragment 1 and the prev link of fragment 2. -/
def forcedOver : List (LinkCall 3) :=
  [.forceConnect 1 (some 0), .forceConnect 2 (some 1), .forceConnect 1 (some 2)]

end Ms

/-! ## Properties of `connect` -/

namespace Ms

theorem setPrev_same {n : Nat} (h : Heap n) (i : Fin n) (v : Option (Fin n)) :
    setPrev h i v i = { h i with prev := v } := by
  simp [setPrev]

theorem setPrev_other {n : Nat} (h : Heap n) (i j : Fin n) (v : Option (Fin n)) (hij : j ≠ i) :
    setPrev h i v j = h j := by
  simp [setPrev, Function.update_noteq hij]

theorem setNext_same {n : Nat} (h : Heap n) (i : Fin n) (v : Option (Fin n)) :
    setNext h i v i = { h i with next := v } := by
  simp [setNext]

theorem setNext_other {n : Nat} (h : Heap n) (i j : Fin n) (v : Option (Fin n)) (hij : j ≠ i) :
    setNext h i v j = h j := by
  simp [setNext, Function.update_noteq hij]

/-- The three outcomes of `connect` on a non-null argument. -/
theorem connect_cases {n : Nat} (h : Heap n) (a b : Fin n) :
    (connect h a (some b) = (false, h)
      ∧ (a = b ∨ (h a).type ≠ (h b).type ∨ (h a).score ≠ (h b).score
          ∨ (¬ connectsAsPrev h a b ∧ ¬ connectsAsNext h a b)))
    ∨ (a ≠ b ∧ (h a).type = (h b).type ∧ (h a).score = (h b).score ∧ connectsAsPrev h a b
        ∧ connect h a (some b) = (true, setNext (setPrev h a (some b)) b (some a)))
    ∨ (a ≠ b ∧ (h a).type = (h b).type ∧ (h a).score = (h b).score ∧ ¬ connectsAsPrev h a b
        ∧ connectsAsNext h a b
        ∧ connect h a (some b) = (true, setPrev (setNext h a (some b)) b (some a))) := by
  unfold connect
  by_cases hab : a = b
  · simp [hab]
  by_cases ht : (h a).type = (h b).type
  swap
  · simp [hab, ht]
  by_cases hs : (h a).score = (h b).score
  swap
  · simp [hab, hs]
  by_cases h1 : connectsAsPrev h a b
  · simp [hab, ht, hs, h1]
  by_cases h2 : connectsAsNext h a b
  · simp [hab, ht, hs, h1, h2]
  · simp [hab, ht, hs, h1, h2]

/-- C3 (no false connect): when the kinds of `a` and `b` differ, whatever
their link state and locations, `a.connect(b)` returns false and the state,
hence every prev/next link of every fragment, is unchanged. -/
theorem connect_kind_differs {n : Nat} (h : Heap n) (a b : Fin n)
    (hk : (h a).type ≠ (h b).type) :
    connect h a (some b) = (false, h) := by
  unfold connect
  by_cases hab : a = b
  · simp [hab]
  · simp [hab, hk]

/-- Witness for C3: a tie and a slur at the same location whose declared
locations match exactly. -/
theorem connect_kind_differs_witness :
    (kindClash 0).type ≠ (kindClash 1).type
      ∧ orderingNext kindClash 0 1
      ∧ connect kindClash 0 (some 1) = (false, kindClash) :=
  ⟨by decide, by decide, connect_kind_differs kindClash 0 1 (by decide)⟩

/-- C4 (link installation): for distinct `a`, `b` of equal kind and score,
if the first ordering applies with both slots empty then `a.connect(b)`
returns true, `a.prev = b` and `b.next = a`; if it does not apply but the
mirror does, it returns true with `a.next = b` and `b.prev = a`. In both
cases the records of `a` and `b` differ from the old ones in that one slot
only, and every other fragment is unchanged. -/
theorem connect_installs {n : Nat} (h : Heap n) (a b : Fin n) (hab : a ≠ b)
    (hk : (h a).type = (h b).type) (hs : (h a).score = (h b).score) :
    (connectsAsPrev h a b →
      (connect h a (some b)).1 = true
      ∧ (connect h a (some b)).2 a = { h a with prev := some b }
      ∧ (connect h a (some b)).2 b = { h b with next := some a }
      ∧ ∀ c, c ≠ a → c ≠ b → (connect h a (some b)).2 c = h c)
    ∧ (¬ connectsAsPrev h a b → connectsAsNext h a b →
      (connect h a (some b)).1 = true
      ∧ (connect h a (some b)).2 a = { h a with next := some b }
      ∧ (connect h a (some b)).2 b = { h b with prev := some a }
      ∧ ∀ c, c ≠ a → c ≠ b → (connect h a (some b)).2 c = h c) := by
  have hba : b ≠ a := fun e => hab e.symm
  constructor
  · intro h1
    have hc : connect h a (some b) = (true, setNext (setPrev h a (some b)) b (some a)) := by
      unfold connect; simp [hab, hk, hs, h1]
    rw [hc]
    refine ⟨rfl, ?_, ?_, ?_⟩
    · simp [setNext_other _ _ _ _ hab, setPrev_same]
    · simp [setNext_same, setPrev_other _ _ _ _ hba]
    · intro c hca hcb
      simp [setNext_other _ _ _ _ hcb, setPrev_other _ _ _ _ hca]
  · intro h1 h2
    have hc : connect h a (some b) = (true, setPrev (setNext h a (some b)) b (some a)) := by
      unfold connect; simp [hab, hk, hs, h1, h2]
    rw [hc]
    refine ⟨rfl, ?_, ?_, ?_⟩
    · simp [setPrev_other _ _ _ _ hab, setNext_same]
    · simp [setPrev_same, setNext_other _ _ _ _ hba]
    · intro c hca hcb
      simp [setPrev_other _ _ _ _ hcb, setNext_other _ _ _ _ hca]

/-- Witness for C4: the declared two-fragment chain. Called on the head
with the tail, the first ordering does not apply and the mirror does;
called on the tail with the head, the first ordering applies. -/
theorem connect_installs_witness :
    ((0 : Fin 2) ≠ 1 ∧ (pair 0).type = (pair 1).type ∧ (pair 0).score = (pair 1).score)
      ∧ (¬ connectsAsPrev pair 0 1 ∧ connectsAsNext pair 0 1)
      ∧ ((connect pair 0 (some 1)).1 = true
        ∧ (connect pair 0 (some 1)).2 0 = { pair 0 with next := some 1 }
        ∧ (connect pair 0 (some 1)).2 1 = { pair 1 with prev := some 0 })
      ∧ connectsAsPrev pair 1 0
      ∧ ((connect pair 1 (some 0)).1 = true
        ∧ (connect pair 1 (some 0)).2 1 = { pair 1 with prev := some 0 }
        ∧ (connect pair 1 (some 0)).2 0 = { pair 0 with next := some 1 }) :=
  have w := (connect_installs pair 0 1 (by decide) (by decide) (by decide)).2
    (by decide) (by decide)
  have v := (connect_installs pair 1 0 (by decide) (by decide) (by decide)).1 (by decide)
  ⟨by decide, by decide, ⟨w.1, w.2.1, w.2.2.1⟩, by decide, ⟨v.1, v.2.1, v.2.2.1⟩⟩

/-- C2, counterexample: on two fragments at one location that both declare a
previous and a next there, `connect` returns true although both orderings
hold (each with its two slots empty), not exactly one. -/
theorem connect_necessary_counterexample :
    (connect twin 0 (some 1)).1 = true
      ∧ ¬ Xor' (orderingPrev twin 0 1) (orderingNext twin 0 1)
      ∧ connectsAsPrev twin 0 1 ∧ connectsAsNext twin 0 1 := by
  decide

/-- C2, amended: if `a.connect(b)` returns true then `a` and `b` are
distinct, have the same kind and the same score, and at least one of the two
orderings holds (both may hold at once). -/
theorem connect_necessary {n : Nat} (h : Heap n) (a b : Fin n)
    (hc : (connect h a (some b)).1 = true) :
    a ≠ b ∧ (h a).type = (h b).type ∧ (h a).score = (h b).score
      ∧ (orderingPrev h a b ∨ orderingNext h a b) := by
  rcases connect_cases h a b with ⟨e, _⟩ | ⟨hab, ht, hs, h1, _⟩ | ⟨hab, ht, hs, _, h2, _⟩
  · rw [e] at hc; simp at hc
  · exact ⟨hab, ht, hs, Or.inl ⟨h1.1.1, h1.1.2.2.1, h1.2.1, h1.2.2⟩⟩
  · exact ⟨hab, ht, hs, Or.inr ⟨h2.1.1, h2.1.2.2.1, h2.2.1, h2.2.2⟩⟩

/-- Witness for C2 (amended): the declared two-fragment chain. -/
theorem connect_necessary_witness :
    (connect pair 0 (some 1)).1 = true
      ∧ ((0 : Fin 2) ≠ 1 ∧ (pair 0).type = (pair 1).type ∧ (pair 0).score = (pair 1).score
        ∧ (orderingPrev pair 0 1 ∨ orderingNext pair 0 1)) :=
  ⟨by decide, connect_necessary pair 0 1 (by decide)⟩

/-- C5, counterexample: on two fragments at one location that both declare a
previous and a next there, `a.connect(b)` returns true and the immediate
second `a.connect(b)` returns true again, installing the mirror link. -/
theorem connect_idempotent_counterexample :
    (connect twin 0 (some 1)).1 = true
      ∧ (connect (connect twin 0 (some 1)).2 0 (some 1)).1 = true
      ∧ ((connect (connect twin 0 (some 1)).2 0 (some 1)).2 0).next = some 1
      ∧ ((connect twin 0 (some 1)).2 0).next = none := by
  decide

/-- C5, amended: if `a.connect(b)` returns true and the pair was not
connectable in both orderings at once (each with its two slots empty), then
calling `a.connect(b)` again immediately afterwards returns false and
changes nothing. -/
theorem connect_idempotent {n : Nat} (h : Heap n) (a b : Fin n)
    (hc : (connect h a (some b)).1 = true)
    (hone : ¬ (connectsAsPrev h a b ∧ connectsAsNext h a b)) :
    connect (connect h a (some b)).2 a (some b) = (false, (connect h a (some b)).2) := by
  rcases connect_cases h a b with ⟨e, _⟩ | ⟨hab, ht, hs, h1, e⟩ | ⟨hab, ht, hs, h1, h2, e⟩
  · rw [e] at hc; simp at hc
  · have hba : b ≠ a := fun x => hab x.symm
    have h2 : ¬ connectsAsNext h a b := fun x => hone ⟨h1, x⟩
    rw [e]
    simp only
    have ea : setNext (setPrev h a (some b)) b (some a) a = { h a with prev := some b } := by
      simp [setNext_other _ _ _ _ hab, setPrev_same]
    have eb : setNext (setPrev h a (some b)) b (some a) b = { h b with next := some a } := by
      simp [setNext_same, setPrev_other _ _ _ _ hba]
    unfold connect
    have n1 : ¬ connectsAsPrev (setNext (setPrev h a (some b)) b (some a)) a b := by
      unfold connectsAsPrev; rw [ea]; simp
    have n2 : ¬ connectsAsNext (setNext (setPrev h a (some b)) b (some a)) a b := by
      unfold connectsAsNext at h2 ⊢; rw [ea, eb]; simpa using h2
    simp [hab, n1, n2]
  · have hba : b ≠ a := fun x => hab x.symm
    rw [e]
    simp only
    have ea : setPrev (setNext h a (some b)) b (some a) a = { h a with next := some b } := by
      simp [setPrev_other _ _ _ _ hab, setNext_same]
    have eb : setPrev (setNext h a (some b)) b (some a) b = { h b with prev := some a } := by
      simp [setPrev_same, setNext_other _ _ _ _ hba]
    unfold connect
    have n1 : ¬ connectsAsPrev (setPrev (setNext h a (some b)) b (some a)) a b := by
      unfold connectsAsPrev at h1 ⊢; rw [ea, eb]; simpa using h1
    have n2 : ¬ connectsAsNext (setPrev (setNext h a (some b)) b (some a)) a b := by
      unfold connectsAsNext; rw [ea]; simp
    simp [hab, n1, n2]

/-- Witness for C5 (amended): the declared two-fragment chain. -/
theorem connect_idempotent_witness :
    (connect pair 0 (some 1)).1 = true
      ∧ ¬ (connectsAsPrev pair 0 1 ∧ connectsAsNext pair 0 1)
      ∧ connect (connect pair 0 (some 1)).2 0 (some 1) = (false, (connect pair 0 (some 1)).2) :=
  ⟨by decide, by decide, connect_idempotent pair 0 1 (by decide) (by decide)⟩

/-! ## Walking a chain: `findFirst`, `findLast`, `finished` -/

/-- More fuel does not change a result already obtained. -/
theorem findLoop_mono {n : Nat} (link : Fin n → Option (Fin n)) (this : Fin n) :
    ∀ (k m : Nat) (x : Fin n) (r : Option (Fin n)),
      findLoop link this k x = some r → k ≤ m → findLoop link this m x = some r := by
  intro k
  induction k with
  | zero => intro m x r hk; simp [findLoop] at hk
  | succ k ih =>
    intro m x r hk hm
    obtain ⟨m, rfl⟩ : ∃ m', m = m' + 1 := ⟨m - 1, by omega⟩
    unfold findLoop at hk ⊢
    cases hl : link x with
    | none => simpa [hl] using hk
    | some p =>
      simp only [hl] at hk ⊢
      by_cases hp : p = this
      · simpa [hp] using hk
      · simp only [hp, if_false] at hk ⊢
        exact ih m p r hk (by omega)

/-- A walk `g 0, g 1, ..., g m` along `link` that comes back to `this` at
step `m` makes the loop return `nullptr` within `m` iterations. -/
theorem findLoop_cycle {n : Nat} (link : Fin n → Option (Fin n)) (this : Fin n)
    (g : Nat → Fin n) (m : Nat)
    (hstep : ∀ k, k < m → link (g k) = some (g (k + 1))) (hend : g m = this) :
    ∀ (r k : Nat), k + r = m → 1 ≤ r → findLoop link this r (g k) = some none := by
  intro r
  induction r with
  | zero => intro k _ h1; omega
  | succ r ih =>
    intro k hk _
    unfold findLoop
    rw [hstep k (by omega)]
    by_cases hp : g (k + 1) = this
    · simp [hp]
    · simp only [hp, if_false]
      by_cases hr : r = 0
      · subst hr
        exact absurd (by rw [← hend, ← hk]) hp
      · exact ih (k + 1) (by omega) (by omega)

/-- A walk `g 0, ..., g m` along `link` that never meets `this` again and
ends at a fragment without link makes the loop return `g m` within `m + 1`
iterations. -/
theorem findLoop_path {n : Nat} (link : Fin n → Option (Fin n)) (this : Fin n)
    (g : Nat → Fin n) (m : Nat)
    (hstep : ∀ k, k < m → link (g k) = some (g (k + 1)))
    (hne : ∀ k, 1 ≤ k → k ≤ m → g k ≠ this) (hend : link (g m) = none) :
    ∀ (r k : Nat), k + r = m → findLoop link this (r + 1) (g k) = some (some (g m)) := by
  intro r
  induction r with
  | zero =>
    intro k hk
    have : k = m := by omega
    subst this
    unfold findLoop
    simp [hend]
  | succ r ih =>
    intro k hk
    unfold findLoop
    rw [hstep k (by omega)]
    have hp : g (k + 1) ≠ this := hne (k + 1) (by omega) (by omega)
    simp only [hp, if_false]
    exact ih (k + 1) (by omega)

/-- Two members of a linear chain at different positions are different
fragments. -/
theorem IsChain.ne_of_lt {n N : Nat} {h : Heap n} {f : Fin N → Fin n} (hc : IsChain h f) :
    ∀ (a : Nat) (i j : Fin N), i.val = a → i.val < j.val → f i ≠ f j := by
  intro a
  induction a with
  | zero =>
    intro i j hi hij e
    have h0 := hc.2.1 i hi
    have hj := (hc.1 ⟨j.val - 1, by omega⟩ j (by simp; omega)).2
    rw [e, hj] at h0
    exact Option.some_ne_none _ h0
  | succ a ih =>
    intro i j hi hij e
    have h1 := (hc.1 ⟨a, by omega⟩ i (by simp; omega)).2
    have h2 := (hc.1 ⟨j.val - 1, by omega⟩ j (by simp; omega)).2
    rw [e, h2] at h1
    have e2 : f ⟨a, by omega⟩ = f ⟨j.val - 1, by omega⟩ := (Option.some.inj h1).symm
    exact ih ⟨a, by omega⟩ ⟨j.val - 1, by omega⟩ rfl (by simp; omega) e2

/-- The members of a linear chain are pairwise distinct fragments. -/
theorem IsChain.injective {n N : Nat} {h : Heap n} {f : Fin N → Fin n} (hc : IsChain h f) :
    Function.Injective f := by
  intro i j e
  by_contra hne
  rcases Nat.lt_or_gt_of_ne (fun x => hne (Fin.ext x)) with hlt | hgt
  · exact hc.ne_of_lt i.val i j rfl hlt e
  · exact hc.ne_of_lt j.val j i rfl hgt e.symm

/-- No more distinct fragments than the arena holds. -/
theorem card_le_of_injective {n N : Nat} {f : Fin N → Fin n} (hf : Function.Injective f) :
    N ≤ n := by
  simpa using Fintype.card_le_of_injective f hf

/-- On a linear chain the prev walk from `f i` ends at `f 0`. -/
theorem IsChain.findFirst_eq {n N : Nat} {h : Heap n} {f : Fin N → Fin n} (hc : IsChain h f)
    (i : Fin N) : findFirst h (f i) = some (some (f ⟨0, i.pos⟩)) := by
  have hN := card_le_of_injective hc.injective
  have key := findLoop_path (fun k => (h k).prev) (f i)
    (fun k => f ⟨i.val - k, by omega⟩) i.val
    (by
      intro k hk
      exact (hc.1 ⟨i.val - (k + 1), by omega⟩ ⟨i.val - k, by omega⟩ (by simp; omega)).2)
    (by
      intro k h1 h2 e
      exact hc.ne_of_lt (i.val - k) ⟨i.val - k, by omega⟩ i rfl (by simp; omega) e)
    (by
      exact hc.2.1 ⟨i.val - i.val, by omega⟩ (by simp))
    i.val 0 (by omega)
  have key2 := findLoop_mono _ _ _ n _ _ key (by omega)
  simpa [findFirst] using key2

/-- On a linear chain the next walk from `f i` ends at `f (N-1)`. -/
theorem IsChain.findLast_eq {n N : Nat} {h : Heap n} {f : Fin N → Fin n} (hc : IsChain h f)
    (i : Fin N) : findLast h (f i) = some (some (f ⟨N - 1, Nat.sub_one_lt_of_lt i.isLt⟩)) := by
  have hN := card_le_of_injective hc.injective
  have key := findLoop_path (fun k => (h k).next) (f i)
    (fun k => f ⟨min (i.val + k) (N - 1), by omega⟩) (N - 1 - i.val)
    (by
      intro k hk
      exact (hc.1 ⟨min (i.val + k) (N - 1), by omega⟩ ⟨min (i.val + (k + 1)) (N - 1), by omega⟩
        (by simp; omega)).1)
    (by
      intro k h1 h2 e
      exact hc.ne_of_lt i.val i ⟨min (i.val + k) (N - 1), by omega⟩ rfl (by simp; omega) e.symm)
    (by
      exact hc.2.2 ⟨min (i.val + (N - 1 - i.val)) (N - 1), by omega⟩ (by simp; omega))
    (N - 1 - i.val) 0 (by omega)
  have key2 := findLoop_mono _ _ _ n _ _ key (by omega)
  have e0 : min (i.val + 0) (N - 1) = i.val := by omega
  have e1 : min (i.val + (N - 1 - i.val)) (N - 1) = N - 1 := by omega
  simp only [e0, e1] at key2
  simpa [findLast] using key2

/-- On a ring of `N` fragments the prev walk from any member is back at
its start after at most `N` iterations. -/
theorem IsRing.findFirst_loop {n N : Nat} {h : Heap n} {f : Fin N → Fin n} (hr : IsRing h f)
    (i : Fin N) : findLoop (fun k => (h k).prev) (f i) N (f i) = some none := by
  have hN : 0 < N := i.pos
  have e0 : (⟨(i.val + 0 * (N - 1)) % N, Nat.mod_lt _ hN⟩ : Fin N) = i := by
    apply Fin.ext
    simp [Nat.mod_eq_of_lt i.isLt]
  have eN : (⟨(i.val + N * (N - 1)) % N, Nat.mod_lt _ hN⟩ : Fin N) = i := by
    apply Fin.ext
    simp [Nat.add_mul_mod_self_left, Nat.mod_eq_of_lt i.isLt]
  have key := findLoop_cycle (fun k => (h k).prev) (f i)
    (fun k => f ⟨(i.val + k * (N - 1)) % N, Nat.mod_lt _ hN⟩) N
    (by
      intro k _
      refine (hr.2 ⟨(i.val + (k + 1) * (N - 1)) % N, Nat.mod_lt _ hN⟩
        ⟨(i.val + k * (N - 1)) % N, Nat.mod_lt _ hN⟩ ?_).2
      simp only [Nat.mod_add_mod]
      have e : i.val + (k + 1) * (N - 1) + 1 = i.val + k * (N - 1) + N := by
        rw [Nat.succ_mul]; omega
      rw [e, Nat.add_mod_right])
    (by simp only [eN])
    N 0 (by omega) hN
  simpa only [e0] using key

/-- On a ring of `N` fragments the next walk from any member is back at
its start after at most `N` iterations. -/
theorem IsRing.findLast_loop {n N : Nat} {h : Heap n} {f : Fin N → Fin n} (hr : IsRing h f)
    (i : Fin N) : findLoop (fun k => (h k).next) (f i) N (f i) = some none := by
  have hN : 0 < N := i.pos
  have e0 : (⟨(i.val + 0) % N, Nat.mod_lt _ hN⟩ : Fin N) = i := by
    apply Fin.ext
    simp [Nat.mod_eq_of_lt i.isLt]
  have eN : (⟨(i.val + N) % N, Nat.mod_lt _ hN⟩ : Fin N) = i := by
    apply Fin.ext
    simp [Nat.mod_eq_of_lt i.isLt]
  have key := findLoop_cycle (fun k => (h k).next) (f i)
    (fun k => f ⟨(i.val + k) % N, Nat.mod_lt _ hN⟩) N
    (by
      intro k _
      refine (hr.2 ⟨(i.val + k) % N, Nat.mod_lt _ hN⟩
        ⟨(i.val + (k + 1)) % N, Nat.mod_lt _ hN⟩ ?_).1
      simp only [Nat.mod_add_mod]
      rfl)
    (by simp only [eN])
    N 0 (by omega) hN
  simpa only [e0] using key

/-- On a ring `findFirst` returns `nullptr`. -/
theorem IsRing.findFirst_none {n N : Nat} {h : Heap n} {f : Fin N → Fin n} (hr : IsRing h f)
    (i : Fin N) : findFirst h (f i) = some none :=
  findLoop_mono _ _ _ n _ _ (hr.findFirst_loop i) (card_le_of_injective hr.1)

/-- On a ring `findLast` returns `nullptr`. -/
theorem IsRing.findLast_none {n N : Nat} {h : Heap n} {f : Fin N → Fin n} (hr : IsRing h f)
    (i : Fin N) : findLast h (f i) = some none :=
  findLoop_mono _ _ _ n _ _ (hr.findLast_loop i) (card_le_of_injective hr.1)

/-- C7 (cycle safety): on every ring of `N >= 1` fragments, `findFirst` and
`findLast` called on any member return no result, and the loop of each has
stopped after at most `N` iterations, that is `N` link traversals. -/
theorem find_on_ring {n N : Nat} (h : Heap n) (f : Fin N → Fin n) (hr : IsRing h f)
    (i : Fin N) :
    findLoop (fun k => (h k).prev) (f i) N (f i) = some none
      ∧ findLoop (fun k => (h k).next) (f i) N (f i) = some none
      ∧ findFirst h (f i) = some none ∧ findLast h (f i) = some none :=
  ⟨hr.findFirst_loop i, hr.findLast_loop i, hr.findFirst_none i, hr.findLast_none i⟩

/-- Witness for C7: the three fragments forced into the cycle
0 -> 1 -> 2 -> 0, asked at fragment 1. -/
theorem find_on_ring_witness :
    IsRing ring3 id
      ∧ (findLoop (fun k => (ring3 k).prev) 1 3 1 = some none
        ∧ findLoop (fun k => (ring3 k).next) 1 3 1 = some none
        ∧ findFirst ring3 1 = some none ∧ findLast ring3 1 = some none) :=
  ⟨by decide, find_on_ring ring3 id (by decide) 1⟩

/-- C9 (chain ends): on every linear chain `f 0 .. f (N-1)`, `findFirst`
called on any member returns `f 0` and `findLast` returns `f (N-1)`; in
particular a fragment with no links is its own first and last. -/
theorem chain_ends {n : Nat} (h : Heap n) :
    (∀ (N : Nat) (f : Fin N → Fin n), IsChain h f → ∀ i : Fin N,
        findFirst h (f i) = some (some (f ⟨0, i.pos⟩))
          ∧ findLast h (f i) = some (some (f ⟨N - 1, Nat.sub_one_lt_of_lt i.isLt⟩)))
      ∧ (∀ x : Fin n, (h x).prev = none → (h x).next = none →
        findFirst h x = some (some x) ∧ findLast h x = some (some x)) := by
  refine ⟨fun N f hc i => ⟨hc.findFirst_eq i, hc.findLast_eq i⟩, ?_⟩
  intro x hp hn
  have hc : IsChain h (fun _ : Fin 1 => x) :=
    ⟨fun i j hij => by omega, fun _ _ => hp, fun _ _ => hn⟩
  exact ⟨hc.findFirst_eq 0, hc.findLast_eq 0⟩

/-- Witness for C9: the linked two-fragment chain, asked at its tail, and an
unlinked fragment. -/
theorem chain_ends_witness :
    (IsChain pairLinked id
      ∧ findFirst pairLinked 1 = some (some 0) ∧ findLast pairLinked 1 = some (some 1))
    ∧ ((pair 0).prev = none ∧ (pair 0).next = none
      ∧ findFirst pair 0 = some (some 0) ∧ findLast pair 0 = some (some 0)) :=
  ⟨⟨by decide, (chain_ends pairLinked).1 2 id (by decide) 1⟩,
    by decide, by decide, (chain_ends pair).2 0 (by decide) (by decide)⟩

/-- When both walks stop, `finished` is the conjunction of the two tests. -/
theorem finished_of_ends {n : Nat} (h : Heap n) (x a b : Fin n)
    (hf : findFirst h x = some (some a)) (hl : findLast h x = some (some b)) :
    finished h x = some (!(h a).hasPrevious && !(h b).hasNext) := by
  unfold finished finishedLeft finishedRight
  rw [hf, hl]
  cases hp : (h a).hasPrevious <;> simp [hp]

/-- C10 (characterisation of `finished`): `x.finished()` is true iff
`findFirst(x)` yields a fragment that declares no previous and `findLast(x)`
yields a fragment that declares no next. Hence on a linear chain it has the
same value on every member, `!f(0).hasPrevious && !f(N-1).hasNext`, and on a
ring `finished()` is false and `start()` and `end()` return no fragment. -/
theorem finished_iff {n : Nat} (h : Heap n) :
    (∀ x : Fin n, finished h x = some true ↔
        (∃ a, findFirst h x = some (some a) ∧ (h a).hasPrevious = false)
          ∧ (∃ b, findLast h x = some (some b) ∧ (h b).hasNext = false))
      ∧ (∀ (N : Nat) (f : Fin N → Fin n), IsChain h f → ∀ i : Fin N,
        finished h (f i) = some (!(h (f ⟨0, i.pos⟩)).hasPrevious
          && !(h (f ⟨N - 1, Nat.sub_one_lt_of_lt i.isLt⟩)).hasNext))
      ∧ (∀ (N : Nat) (f : Fin N → Fin n), IsRing h f → ∀ i : Fin N,
        finished h (f i) = some false ∧ start h (f i) = some none
          ∧ «end» h (f i) = some none) := by
  refine ⟨?_, ?_, ?_⟩
  · intro x
    unfold finished finishedLeft finishedRight
    rcases hf : findFirst h x with _ | _ | a
    · simp
    · simp
    · rcases hl : findLast h x with _ | _ | b
      · cases hp : (h a).hasPrevious <;> simp [hp]
      · cases hp : (h a).hasPrevious <;> simp [hp]
      · cases hp : (h a).hasPrevious <;> cases hn : (h b).hasNext <;> simp [hp, hn]
  · intro N f hc i
    exact finished_of_ends h (f i) _ _ (hc.findFirst_eq i) (hc.findLast_eq i)
  · intro N f hr i
    refine ⟨?_, ?_, ?_⟩
    · unfold finished finishedLeft
      rw [hr.findFirst_none i]
      rfl
    · unfold start
      rw [hr.findFirst_none i]
      rfl
    · unfold «end»
      rw [hr.findLast_none i]
      rfl

/-- Witness for C10: the linked two-fragment chain is finished at both
members, and the forced three-fragment ring is finished nowhere. -/
theorem finished_iff_witness :
    (IsChain pairLinked id ∧ finished pairLinked 0 = some true
        ∧ finished pairLinked 1 = some true)
      ∧ (IsRing ring3 id ∧ finished ring3 0 = some false ∧ start ring3 0 = some none
        ∧ «end» ring3 0 = some none) :=
  ⟨⟨by decide, (finished_iff pairLinked).2.1 2 id (by decide) 0,
      (finished_iff pairLinked).2.1 2 id (by decide) 1⟩,
    by decide, (finished_iff ring3).2.2 3 id (by decide) 0⟩

/-! ## States reached by `connect` calls -/

theorem setPrev_prev {n : Nat} (h : Heap n) (i x : Fin n) (v : Option (Fin n)) :
    (setPrev h i v x).prev = if x = i then v else (h x).prev := by
  by_cases e : x = i
  · subst e; simp [setPrev_same]
  · simp [setPrev_other _ _ _ _ e, e]

theorem setPrev_next {n : Nat} (h : Heap n) (i x : Fin n) (v : Option (Fin n)) :
    (setPrev h i v x).next = (h x).next := by
  by_cases e : x = i
  · subst e; simp [setPrev_same]
  · simp [setPrev_other _ _ _ _ e]

theorem setNext_next {n : Nat} (h : Heap n) (i x : Fin n) (v : Option (Fin n)) :
    (setNext h i v x).next = if x = i then v else (h x).next := by
  by_cases e : x = i
  · subst e; simp [setNext_same]
  · simp [setNext_other _ _ _ _ e, e]

theorem setNext_prev {n : Nat} (h : Heap n) (i x : Fin n) (v : Option (Fin n)) :
    (setNext h i v x).prev = (h x).prev := by
  by_cases e : x = i
  · subst e; simp [setNext_same]
  · simp [setNext_other _ _ _ _ e]

/-- Assigning a prev link keeps every record equal to the old one up to
its link slots. -/
theorem setPrev_static {n : Nat} (h : Heap n) (i x : Fin n) (v : Option (Fin n)) :
    setPrev h i v x = { h x with prev := (setPrev h i v x).prev, next := (h x).next } := by
  by_cases e : x = i
  · subst e; simp [setPrev_same]
  · simp [setPrev_other _ _ _ _ e]

/-- Assigning a next link keeps every record equal to the old one up to
its link slots. -/
theorem setNext_static {n : Nat} (h : Heap n) (i x : Fin n) (v : Option (Fin n)) :
    setNext h i v x = { h x with prev := (h x).prev, next := (setNext h i v x).next } := by
  by_cases e : x = i
  · subst e; simp [setNext_same]
  · simp [setNext_other _ _ _ _ e]

/-- The effect of `connect` on the link slots, and on nothing else. -/
theorem connect_effect {n : Nat} (h : Heap n) (a b : Fin n) :
    (connect h a (some b) = (false, h))
    ∨ (a ≠ b ∧ (h a).type = (h b).type ∧ (h a).score = (h b).score ∧ connectsAsPrev h a b
        ∧ (connect h a (some b)).1 = true
        ∧ (∀ x, ((connect h a (some b)).2 x).prev = if x = a then some b else (h x).prev)
        ∧ (∀ x, ((connect h a (some b)).2 x).next = if x = b then some a else (h x).next)
        ∧ (∀ x, (connect h a (some b)).2 x = { h x with
            prev := ((connect h a (some b)).2 x).prev,
            next := ((connect h a (some b)).2 x).next }))
    ∨ (a ≠ b ∧ (h a).type = (h b).type ∧ (h a).score = (h b).score ∧ connectsAsNext h a b
        ∧ (connect h a (some b)).1 = true
        ∧ (∀ x, ((connect h a (some b)).2 x).prev = if x = b then some a else (h x).prev)
        ∧ (∀ x, ((connect h a (some b)).2 x).next = if x = a then some b else (h x).next)
        ∧ (∀ x, (connect h a (some b)).2 x = { h x with
            prev := ((connect h a (some b)).2 x).prev,
            next := ((connect h a (some b)).2 x).next })) := by
  rcases connect_cases h a b with ⟨e, _⟩ | ⟨hab, ht, hs, h1, e⟩ | ⟨hab, ht, hs, _, h2, e⟩
  · exact Or.inl e
  · refine Or.inr (Or.inl ⟨hab, ht, hs, h1, by rw [e], ?_, ?_, ?_⟩)
    · intro x; rw [e]; simp only [setNext_prev, setPrev_prev]
    · intro x; rw [e]; simp only [setNext_next, setPrev_next]
    · intro x; rw [e]
      simp only
      rw [setNext_static, setPrev_static]
  · refine Or.inr (Or.inr ⟨hab, ht, hs, h2, by rw [e], ?_, ?_, ?_⟩)
    · intro x; rw [e]; simp only [setPrev_prev, setNext_prev]
    · intro x; rw [e]; simp only [setPrev_next, setNext_next]
    · intro x; rw [e]
      simp only
      rw [setPrev_static, setNext_static]

/-- Changing the link slots twice is changing them once. -/
theorem static_trans {n : Nat} (r0 r1 r2 : ConnectorInfo n) (p1 n1 p2 n2 : Option (Fin n))
    (e1 : r1 = { r0 with prev := p1, next := n1 })
    (e2 : r2 = { r1 with prev := p2, next := n2 }) :
    r2 = { r0 with prev := p2, next := n2 } := by
  subst e1; subst e2; rfl

/-- Records equal up to link slots have the same declarations. -/
theorem static_fields {n : Nat} (r0 r : ConnectorInfo n) (p q : Option (Fin n))
    (e : r = { r0 with prev := p, next := q }) :
    r.type = r0.type ∧ r.score = r0.score ∧ r.currentLoc = r0.currentLoc
      ∧ r.prevLoc = r0.prevLoc ∧ r.nextLoc = r0.nextLoc
      ∧ r.hasPrevious = r0.hasPrevious ∧ r.hasNext = r0.hasNext := by
  subst e; exact ⟨rfl, rfl, rfl, rfl, rfl, rfl, rfl⟩

/-- A pair that passes the second branch of `connect` has matching
declarations, `a` before `b`. -/
theorem declaredPair_of_asNext {n : Nat} {h0 h : Heap n}
    (hst : ∀ i, h i = { h0 i with prev := (h i).prev, next := (h i).next })
    {a b : Fin n} (hab : a ≠ b) (ht : (h a).type = (h b).type)
    (hs : (h a).score = (h b).score) (hc : connectsAsNext h a b) : declaredPair h0 a b := by
  obtain ⟨ta, sa, ca, pa, na, hpa, hna⟩ := static_fields _ _ _ _ (hst a)
  obtain ⟨tb, sb, cb, pb, nb, hpb, hnb⟩ := static_fields _ _ _ _ (hst b)
  obtain ⟨⟨c1, _, c2, _⟩, c3, c4⟩ := hc
  refine ⟨hab, ?_, ?_, ?_, ?_, ?_, ?_⟩
  · rw [← ta, ← tb]; exact ht
  · rw [← sa, ← sb]; exact hs
  · rw [← hna]; exact c1
  · rw [← hpb]; exact c2
  · rw [← na, ← cb]; exact c3
  · rw [← ca, ← pb]; exact c4

/-- A pair that passes the first branch of `connect` has matching
declarations, `b` before `a`. -/
theorem declaredPair_of_asPrev {n : Nat} {h0 h : Heap n}
    (hst : ∀ i, h i = { h0 i with prev := (h i).prev, next := (h i).next })
    {a b : Fin n} (hab : a ≠ b) (ht : (h a).type = (h b).type)
    (hs : (h a).score = (h b).score) (hc : connectsAsPrev h a b) : declaredPair h0 b a := by
  obtain ⟨ta, sa, ca, pa, na, hpa, hna⟩ := static_fields _ _ _ _ (hst a)
  obtain ⟨tb, sb, cb, pb, nb, hpb, hnb⟩ := static_fields _ _ _ _ (hst b)
  obtain ⟨⟨c1, _, c2, _⟩, c3, c4⟩ := hc
  refine ⟨fun e => hab e.symm, ?_, ?_, ?_, ?_, ?_, ?_⟩
  · rw [← ta, ← tb]; exact ht.symm
  · rw [← sa, ← sb]; exact hs.symm
  · rw [← hnb]; exact c2
  · rw [← hpa]; exact c1
  · rw [← nb, ← ca]; exact c4.symm
  · rw [← cb, ← pa]; exact c3.symm

/-- A state without links satisfies the invariant. -/
theorem LinkInv.init {n : Nat} {h0 : Heap n} (hu : Unlinked h0) : LinkInv h0 h0 where
  static := fun _ => rfl
  next_decl := by
    intro x y e
    rw [(hu x).2] at e
    exact absurd e (by simp)
  prev_decl := by
    intro x y e
    rw [(hu x).1] at e
    exact absurd e (by simp)
  inverse := by
    intro x y
    rw [(hu x).2, (hu y).1]
    simp

/-- One `connect` call preserves the invariant. -/
theorem LinkInv.step {n : Nat} {h0 h : Heap n} (inv : LinkInv h0 h) (a b : Fin n) :
    LinkInv h0 (connect h a (some b)).2 := by
  rcases connect_effect h a b with e | ⟨hab, ht, hs, hc, _, P, Nx, S⟩ | ⟨hab, ht, hs, hc, _, P, Nx, S⟩
  · rw [e]; exact inv
  · have hd := declaredPair_of_asPrev inv.static hab ht hs hc
    have hap : (h a).prev = none := hc.1.2.1
    have hbn : (h b).next = none := hc.1.2.2.2
    refine ⟨fun x => static_trans _ _ _ _ _ _ _ (inv.static x) (S x), ?_, ?_, ?_⟩
    · intro x y e
      rw [Nx] at e
      by_cases hx : x = b
      · simp only [hx, if_true] at e
        rw [hx, ← Option.some.inj e]; exact hd
      · simp only [hx, if_false] at e
        exact inv.next_decl x y e
    · intro x y e
      rw [P] at e
      by_cases hx : x = a
      · simp only [hx, if_true] at e
        rw [hx, ← Option.some.inj e]; exact hd
      · simp only [hx, if_false] at e
        exact inv.prev_decl x y e
    · intro x y
      rw [Nx, P]
      by_cases hx : x = b <;> by_cases hy : y = a
      · simp [hx, hy]
      · subst hx
        simp only [if_true, hy, if_false]
        constructor
        · intro e; exact absurd (Option.some.inj e).symm hy
        · intro e
          have := (inv.inverse x y).2 e
          rw [hbn] at this
          exact absurd this (by simp)
      · subst hy
        simp only [if_true, hx, if_false]
        constructor
        · intro e
          have := (inv.inverse x y).1 e
          rw [hap] at this
          exact absurd this (by simp)
        · intro e; exact absurd (Option.some.inj e).symm hx
      · simp only [hx, hy, if_false]
        exact inv.inverse x y
  · have hd := declaredPair_of_asNext inv.static hab ht hs hc
    have han : (h a).next = none := hc.1.2.1
    have hbp : (h b).prev = none := hc.1.2.2.2
    refine ⟨fun x => static_trans _ _ _ _ _ _ _ (inv.static x) (S x), ?_, ?_, ?_⟩
    · intro x y e
      rw [Nx] at e
      by_cases hx : x = a
      · simp only [hx, if_true] at e
        rw [hx, ← Option.some.inj e]; exact hd
      · simp only [hx, if_false] at e
        exact inv.next_decl x y e
    · intro x y e
      rw [P] at e
      by_cases hx : x = b
      · simp only [hx, if_true] at e
        rw [hx, ← Option.some.inj e]; exact hd
      · simp only [hx, if_false] at e
        exact inv.prev_decl x y e
    · intro x y
      rw [Nx, P]
      by_cases hx : x = a <;> by_cases hy : y = b
      · simp [hx, hy]
      · subst hx
        simp only [if_true, hy, if_false]
        constructor
        · intro e; exact absurd (Option.some.inj e).symm hy
        · intro e
          have := (inv.inverse x y).2 e
          rw [han] at this
          exact absurd this (by simp)
      · subst hy
        simp only [if_true, hx, if_false]
        constructor
        · intro e
          have := (inv.inverse x y).1 e
          rw [hbp] at this
          exact absurd this (by simp)
        · intro e; exact absurd (Option.some.inj e).symm hx
      · simp only [hx, hy, if_false]
        exact inv.inverse x y

/-- Any sequence of `connect` calls preserves the invariant. -/
theorem LinkInv.all {n : Nat} {h0 : Heap n} (calls : List (Fin n × Fin n)) :
    ∀ h : Heap n, LinkInv h0 h → LinkInv h0 (connectAll h calls) := by
  induction calls with
  | nil => intro h inv; exact inv
  | cons c cs ih =>
    intro h inv
    exact ih _ (inv.step c.1 c.2)

/-- A `connect` call never overwrites an installed next link. -/
theorem connect_keeps_next {n : Nat} (h : Heap n) (a b x y : Fin n)
    (e : (h x).next = some y) : ((connect h a (some b)).2 x).next = some y := by
  rcases connect_effect h a b with e0 | ⟨_, _, _, hc, _, _, Nx, _⟩ | ⟨_, _, _, hc, _, _, Nx, _⟩
  · rw [e0]; exact e
  · rw [Nx]
    by_cases hx : x = b
    · subst hx
      rw [hc.1.2.2.2] at e
      exact absurd e (by simp)
    · simp only [hx, if_false]; exact e
  · rw [Nx]
    by_cases hx : x = a
    · subst hx
      rw [hc.1.2.1] at e
      exact absurd e (by simp)
    · simp only [hx, if_false]; exact e

/-- No sequence of `connect` calls overwrites an installed next link. -/
theorem connectAll_keeps_next {n : Nat} (calls : List (Fin n × Fin n)) :
    ∀ (h : Heap n) (x y : Fin n), (h x).next = some y →
      (connectAll h calls x).next = some y := by
  induction calls with
  | nil => intro h x y e; exact e
  | cons c cs ih =>
    intro h x y e
    exact ih _ x y (connect_keeps_next h c.1 c.2 x y e)

/-- Under the invariant, when only chain neighbours match, a next link
leads to the following position. -/
theorem LinkInv.next_val {N : Nat} {h0 h : Heap N} (inv : LinkInv h0 h)
    (hm : OnlyNeighboursMatch h0) (x y : Fin N) (e : (h x).next = some y) :
    y.val = x.val + 1 := by
  obtain ⟨hne, _, _, ho⟩ := inv.next_decl x y e
  exact hm x y hne ho

/-- Consecutive fragments of a declared chain have matching declarations. -/
theorem DeclaredChain.pair {N : Nat} {h0 : Heap N} (hd : DeclaredChain h0) (i j : Fin N)
    (hij : j.val = i.val + 1) : declaredPair h0 i j := by
  obtain ⟨hk, hp, hn, hl⟩ := hd
  refine ⟨fun e => by rw [e] at hij; omega, (hk i j).1, (hk i j).2, ?_, ?_, (hl i j hij).1,
    (hl i j hij).2.symm⟩
  · exact (hn i).2 (by have := j.isLt; omega)
  · exact (hp j).2 (by omega)

/-- Attempting `connect` on two chain neighbours, in either argument order,
leaves them linked. -/
theorem connect_neighbours {N : Nat} {h0 h : Heap N} (inv : LinkInv h0 h)
    (hd : DeclaredChain h0) (hm : OnlyNeighboursMatch h0) (i j : Fin N)
    (hij : j.val = i.val + 1) :
    ((connect h i (some j)).2 i).next = some j
      ∧ ((connect h j (some i)).2 i).next = some j := by
  have hne : i ≠ j := fun e => by rw [e] at hij; omega
  have hne2 : j ≠ i := fun e => hne e.symm
  obtain ⟨_, dt, ds, d1, d2, d3, d4⟩ := hd.pair i j hij
  obtain ⟨ti, si, ci, pi, ni, hpi, hni⟩ := static_fields _ _ _ _ (inv.static i)
  obtain ⟨tj, sj, cj, pj, nj, hpj, hnj⟩ := static_fields _ _ _ _ (inv.static j)
  have ht : (h i).type = (h j).type := by rw [ti, tj]; exact dt
  have hs : (h i).score = (h j).score := by rw [si, sj]; exact ds
  -- an occupied slot already holds the wanted link
  by_cases hin : ∃ y, (h i).next = some y
  · obtain ⟨y, hy⟩ := hin
    have : y = j := Fin.ext (by rw [inv.next_val hm i y hy, hij])
    subst this
    exact ⟨connect_keeps_next h i y i y hy, connect_keeps_next h y i i y hy⟩
  by_cases hjp : ∃ y, (h j).prev = some y
  · obtain ⟨y, hy⟩ := hjp
    have hy2 := (inv.inverse y j).2 hy
    have : y = i := Fin.ext (by have := inv.next_val hm y j hy2; omega)
    subst this
    exact ⟨connect_keeps_next h y j y j hy2, connect_keeps_next h j y y j hy2⟩
  have hin0 : (h i).next = none := by
    cases e : (h i).next with
    | none => rfl
    | some y => exact absurd ⟨y, e⟩ hin
  have hjp0 : (h j).prev = none := by
    cases e : (h j).prev with
    | none => rfl
    | some y => exact absurd ⟨y, e⟩ hjp
  have cn : connectsAsNext h i j := by
    refine ⟨⟨?_, hin0, ?_, hjp0⟩, ?_, ?_⟩
    · rw [hni]; exact d1
    · rw [hpj]; exact d2
    · rw [ni, cj]; exact d3
    · rw [ci, pj]; exact d4
  have cp : connectsAsPrev h j i := by
    refine ⟨⟨?_, hjp0, ?_, hin0⟩, ?_, ?_⟩
    · rw [hpj]; exact d2
    · rw [hni]; exact d1
    · rw [pj, ci]; exact d4.symm
    · rw [cj, ni]; exact d3.symm
  have ncp : ¬ connectsAsPrev h i j := by
    intro c
    obtain ⟨_, _, _, ho⟩ := declaredPair_of_asPrev inv.static hne ht hs c
    have := hm j i hne2 ho
    omega
  constructor
  · have e : connect h i (some j) = (true, setPrev (setNext h i (some j)) j (some i)) := by
      unfold connect; simp [hne, ht, hs, ncp, cn]
    rw [e]
    simp [setPrev_next, setNext_next]
  · have e : connect h j (some i) = (true, setNext (setPrev h j (some i)) i (some j)) := by
      unfold connect; simp [hne2, ht.symm, hs.symm, cp]
    rw [e]
    simp [setNext_next]

/-- A link between chain neighbours that is installed or will be attempted
is there at the end. -/
theorem connectAll_neighbours {N : Nat} {h0 : Heap N} (hd : DeclaredChain h0)
    (hm : OnlyNeighboursMatch h0) (i j : Fin N) (hij : j.val = i.val + 1)
    (calls : List (Fin N × Fin N)) :
    ∀ h : Heap N, LinkInv h0 h →
      ((h i).next = some j ∨ (i, j) ∈ calls ∨ (j, i) ∈ calls) →
      (connectAll h calls i).next = some j := by
  induction calls with
  | nil =>
    intro h _ hor
    rcases hor with e | e | e
    · exact e
    · simp at e
    · simp at e
  | cons c cs ih =>
    intro h inv hor
    have inv2 := inv.step c.1 c.2
    have kn := connect_neighbours inv hd hm i j hij
    show (connectAll (connect h c.1 (some c.2)).2 cs i).next = some j
    rcases hor with e | e | e
    · exact ih _ inv2 (Or.inl (connect_keeps_next h c.1 c.2 i j e))
    · rcases List.mem_cons.1 e with e1 | e1
      · refine ih _ inv2 (Or.inl ?_)
        rw [← e1]; exact kn.1
      · exact ih _ inv2 (Or.inr (Or.inl e1))
    · rcases List.mem_cons.1 e with e1 | e1
      · refine ih _ inv2 (Or.inl ?_)
        rw [← e1]; exact kn.2
      · exact ih _ inv2 (Or.inr (Or.inr e1))

/-- Fragments linked in order form a linear chain. -/
theorem LinkedInOrder.isChain {N : Nat} {h : Heap N} (hl : LinkedInOrder h) : IsChain h id := by
  refine ⟨?_, ?_, ?_⟩
  · intro i j hij
    have hi : i.val + 1 < N := by have := j.isLt; omega
    have hj : 0 < j.val := by omega
    constructor
    · show (h i).next = some j
      rw [(hl i).1, dif_pos hi]
      exact congrArg some (Fin.ext hij.symm)
    · show (h j).prev = some i
      rw [(hl j).2, if_pos hj]
      exact congrArg some (Fin.ext (by simp; omega))
  · intro i hi
    show (h i).prev = none
    rw [(hl i).2, if_neg (by omega)]
  · intro i hi
    show (h i).next = none
    rw [(hl i).1, dif_neg (by omega)]

/-- The links at the end of a call sequence that attempts every pair. -/
theorem connectAll_linkedInOrder {N : Nat} {h0 : Heap N} (hu : Unlinked h0)
    (hd : DeclaredChain h0) (hm : OnlyNeighboursMatch h0) (calls : List (Fin N × Fin N))
    (hc : CoversAllPairs calls) : LinkedInOrder (connectAll h0 calls) := by
  have inv0 : LinkInv h0 h0 := LinkInv.init hu
  have inv : LinkInv h0 (connectAll h0 calls) := LinkInv.all calls h0 inv0
  have link : ∀ i j : Fin N, j.val = i.val + 1 → (connectAll h0 calls i).next = some j := by
    intro i j hij
    have hne : i ≠ j := fun e => by rw [e] at hij; omega
    exact connectAll_neighbours hd hm i j hij calls h0 inv0 (Or.inr (hc i j hne))
  intro i
  constructor
  · by_cases hi : i.val + 1 < N
    · rw [dif_pos hi]
      exact link i ⟨i.val + 1, hi⟩ rfl
    · rw [dif_neg hi]
      cases e : (connectAll h0 calls i).next with
      | none => rfl
      | some y =>
        have := inv.next_val hm i y e
        have := y.isLt
        omega
  · by_cases hi : 0 < i.val
    · rw [if_pos hi]
      exact (inv.inverse ⟨i.val - 1, by omega⟩ i).1
        (link ⟨i.val - 1, by omega⟩ i (by simp; omega))
    · rw [if_neg hi]
      cases e : (connectAll h0 calls i).prev with
      | none => rfl
      | some y =>
        have := inv.next_val hm y i ((inv.inverse y i).2 e)
        omega

/-- C1, counterexample: three unlinked ties at one location whose
declarations describe the chain 0 -> 1 -> 2. The calls `f0.connect(f2)`,
`f0.connect(f1)`, `f1.connect(f2)` attempt every pair, yet the first one
links 0 to 2: the links are not those of the chain and `finished()` is
false on fragment 1. -/
theorem round_trip_counterexample :
    Unlinked sameSpot ∧ DeclaredChain sameSpot
      ∧ CoversAllPairs [((0 : Fin 3), (2 : Fin 3)), (0, 1), (1, 2)]
      ∧ ¬ LinkedInOrder (connectAll sameSpot [(0, 2), (0, 1), (1, 2)])
      ∧ ((connectAll sameSpot [(0, 2), (0, 1), (1, 2)]) 0).next = some 2
      ∧ finished (connectAll sameSpot [(0, 2), (0, 1), (1, 2)]) 1 = some false := by
  decide

/-- C1, amended: for every `N` (in particular 1, 2, 3) and every `N`
unlinked fragments of one kind and one score whose declarations describe a
linear chain and in which only chain neighbours have matching declarations,
after `connect` has been attempted on every pair, in any order, the links
are exactly `0 -> 1 -> ... -> N-1` and `finished()` is true on each
fragment. -/
theorem round_trip {N : Nat} (h0 : Heap N) (calls : List (Fin N × Fin N))
    (hu : Unlinked h0) (hd : DeclaredChain h0) (hm : OnlyNeighboursMatch h0)
    (hc : CoversAllPairs calls) :
    LinkedInOrder (connectAll h0 calls)
      ∧ ∀ i : Fin N, finished (connectAll h0 calls) i = some true := by
  have hl := connectAll_linkedInOrder hu hd hm calls hc
  refine ⟨hl, ?_⟩
  intro i
  have inv : LinkInv h0 (connectAll h0 calls) := LinkInv.all calls h0 (LinkInv.init hu)
  have hch := hl.isChain
  have e := finished_of_ends _ _ _ _ (hch.findFirst_eq i) (hch.findLast_eq i)
  have hp : ((connectAll h0 calls) (id ⟨0, i.pos⟩)).hasPrevious = false := by
    rw [(static_fields _ _ _ _ (inv.static _)).2.2.2.2.2.1]
    cases hb : (h0 (id ⟨0, i.pos⟩)).hasPrevious with
    | false => rfl
    | true => exact absurd ((hd.2.1 _).1 hb) (by simp)
  have hn : ((connectAll h0 calls) (id ⟨N - 1, Nat.sub_one_lt_of_lt i.isLt⟩)).hasNext
      = false := by
    rw [(static_fields _ _ _ _ (inv.static _)).2.2.2.2.2.2]
    cases hb : (h0 (id ⟨N - 1, Nat.sub_one_lt_of_lt i.isLt⟩)).hasNext with
    | false => rfl
    | true =>
      have h1 := (hd.2.2.1 _).1 hb
      have h2 := i.isLt
      simp only [id] at h1
      omega
  rw [hp, hn] at e
  exact e

/-- Witness for C1 (amended): three ties in measures 1, 2, 3, the pair of
head and tail being attempted first. -/
theorem round_trip_witness :
    (Unlinked triple ∧ DeclaredChain triple ∧ OnlyNeighboursMatch triple
        ∧ CoversAllPairs [((0 : Fin 3), (2 : Fin 3)), (0, 1), (1, 2)])
      ∧ (LinkedInOrder (connectAll triple [(0, 2), (0, 1), (1, 2)])
        ∧ ∀ i : Fin 3, finished (connectAll triple [(0, 2), (0, 1), (1, 2)]) i = some true) :=
  ⟨by decide,
    round_trip triple [(0, 2), (0, 1), (1, 2)] (by decide) (by decide) (by decide) (by decide)⟩

/-- Along next links the rank grows by at least one per link. -/
theorem nextIter_rank {n : Nat} {h0 h : Heap n} (inv : LinkInv h0 h) (r : Fin n → Nat)
    (hr : ∀ x y, declaredPair h0 x y → r x < r y) :
    ∀ (k : Nat) (x y : Fin n), nextIter h k x = some y → r x + k ≤ r y := by
  intro k
  induction k with
  | zero =>
    intro x y e
    simp only [nextIter, Option.some.injEq] at e
    rw [e]; omega
  | succ k ih =>
    intro x y e
    unfold nextIter at e
    cases hx : (h x).next with
    | none => simp [hx] at e
    | some z =>
      simp only [hx] at e
      have h1 := hr x z (inv.next_decl x z hx)
      have h2 := ih z y e
      omega

/-- Along prev links the rank falls by at least one per link. -/
theorem prevIter_rank {n : Nat} {h0 h : Heap n} (inv : LinkInv h0 h) (r : Fin n → Nat)
    (hr : ∀ x y, declaredPair h0 x y → r x < r y) :
    ∀ (k : Nat) (x y : Fin n), prevIter h k x = some y → r y + k ≤ r x := by
  intro k
  induction k with
  | zero =>
    intro x y e
    simp only [prevIter, Option.some.injEq] at e
    rw [e]; omega
  | succ k ih =>
    intro x y e
    unfold prevIter at e
    cases hx : (h x).prev with
    | none => simp [hx] at e
    | some z =>
      simp only [hx] at e
      have h1 := hr z x (inv.prev_decl x z hx)
      have h2 := ih z y e
      omega

/-- C6, counterexample: three unlinked ties whose declarations go round
(0 before 1, 1 before 2, 2 before 0). After `f0.connect(f1)`,
`f1.connect(f2)`, `f2.connect(f0)`, all of which succeed, fragment 0
reaches itself by following three next links. -/
theorem connect_cycle_counterexample :
    Unlinked declaredRing
      ∧ (connect declaredRing 0 (some 1)).1 = true
      ∧ (connect (connectAll declaredRing [(0, 1)]) 1 (some 2)).1 = true
      ∧ (connect (connectAll declaredRing [(0, 1), (1, 2)]) 2 (some 0)).1 = true
      ∧ nextIter (connectAll declaredRing [(0, 1), (1, 2), (2, 0)]) 3 0 = some 0
      ∧ prevIter (connectAll declaredRing [(0, 1), (1, 2), (2, 0)]) 3 0 = some 0 := by
  decide

/-- C6, amended: in every state reached from unlinked fragments by
`connect` calls, next and prev are mutually inverse and every next link
joins a pair with matching declarations; so when the declarations contain
no cycle of matching pairs (some ranking of the fragments increases along
every matching pair), no fragment reaches itself by following one or more
next links, or prev links. -/
theorem connect_acyclic {n : Nat} (h0 : Heap n) (calls : List (Fin n × Fin n))
    (hu : Unlinked h0) (r : Fin n → Nat)
    (hr : ∀ x y, declaredPair h0 x y → r x < r y) :
    (∀ x y, ((connectAll h0 calls) x).next = some y ↔ ((connectAll h0 calls) y).prev = some x)
      ∧ (∀ x y, ((connectAll h0 calls) x).next = some y → declaredPair h0 x y)
      ∧ (∀ (x : Fin n) (k : Nat), 0 < k →
        nextIter (connectAll h0 calls) k x ≠ some x
          ∧ prevIter (connectAll h0 calls) k x ≠ some x) := by
  have inv : LinkInv h0 (connectAll h0 calls) := LinkInv.all calls h0 (LinkInv.init hu)
  refine ⟨inv.inverse, inv.next_decl, ?_⟩
  intro x k hk
  constructor
  · intro e
    have := nextIter_rank inv r hr k x x e
    omega
  · intro e
    have := prevIter_rank inv r hr k x x e
    omega

/-- Witness for C6 (amended): three ties in measures 1, 2, 3 ranked by
their position. -/
theorem connect_acyclic_witness :
    (Unlinked triple ∧ ∀ x y : Fin 3, declaredPair triple x y → x.val < y.val)
      ∧ (∀ (x : Fin 3) (k : Nat), 0 < k →
        nextIter (connectAll triple [(0, 2), (0, 1), (1, 2)]) k x ≠ some x
          ∧ prevIter (connectAll triple [(0, 2), (0, 1), (1, 2)]) k x ≠ some x) :=
  ⟨by decide,
    (connect_acyclic triple [(0, 2), (0, 1), (1, 2)] (by decide) (fun x => x.val)
      (by decide)).2.2⟩

/-! ## The fuel of `findFirst` and `findLast` is enough -/

theorem mem_stopsWithin {n : Nat} (link : Fin n → Option (Fin n)) (t : Fin n) (k : Nat)
    (x : Fin n) : x ∈ stopsWithin link t k ↔ (findLoop link t k x).isSome = true := by
  simp [stopsWithin]

theorem stopsWithin_subset {n : Nat} (link : Fin n → Option (Fin n)) (t : Fin n) (k : Nat) :
    stopsWithin link t k ⊆ stopsWithin link t (k + 1) := by
  intro x hx
  rw [mem_stopsWithin] at hx ⊢
  obtain ⟨r, hr⟩ := Option.isSome_iff_exists.1 hx
  rw [findLoop_mono link t k (k + 1) x r hr (by omega)]
  rfl

theorem stopsWithin_stable {n : Nat} (link : Fin n → Option (Fin n)) (t : Fin n) (k : Nat)
    (e : stopsWithin link t k = stopsWithin link t (k + 1)) :
    stopsWithin link t (k + 1) = stopsWithin link t (k + 2) := by
  ext x
  rw [mem_stopsWithin, mem_stopsWithin]
  have hp : ∀ p, (findLoop link t k p).isSome = (findLoop link t (k + 1) p).isSome := by
    intro p
    have hd := congrArg (fun s => decide (p ∈ s)) e
    simp only [mem_stopsWithin] at hd
    cases h1 : (findLoop link t k p).isSome <;>
      cases h2 : (findLoop link t (k + 1) p).isSome <;> simp_all
  show (findLoop link t (k + 1) x).isSome = true ↔ (findLoop link t (k + 1 + 1) x).isSome = true
  rw [findLoop, findLoop]
  cases hl : link x with
  | none => simp
  | some p =>
    simp only
    by_cases hpt : p = t
    · simp [hpt]
    · simp only [hpt, if_false]
      rw [hp p]

theorem stopsWithin_growth {n : Nat} (link : Fin n → Option (Fin n)) (t : Fin n) :
    ∀ k, stopsWithin link t k = stopsWithin link t (k + 1)
      ∨ k + 1 ≤ (stopsWithin link t (k + 1)).card := by
  intro k
  induction k with
  | zero =>
    by_cases e : stopsWithin link t 0 = stopsWithin link t 1
    · exact Or.inl e
    · right
      have hss := Finset.ssubset_iff_subset_ne.2 ⟨stopsWithin_subset link t 0, e⟩
      have := Finset.card_lt_card hss
      omega
  | succ k ih =>
    rcases ih with e | hc
    · exact Or.inl (stopsWithin_stable link t k e)
    · by_cases e : stopsWithin link t (k + 1) = stopsWithin link t (k + 2)
      · exact Or.inl e
      · right
        have hss := Finset.ssubset_iff_subset_ne.2 ⟨stopsWithin_subset link t (k + 1), e⟩
        have := Finset.card_lt_card hss
        omega

theorem stopsWithin_eq {n : Nat} (link : Fin n → Option (Fin n)) (t : Fin n) :
    ∀ d, stopsWithin link t (n + d) = stopsWithin link t n := by
  have hn : stopsWithin link t n = stopsWithin link t (n + 1) := by
    rcases stopsWithin_growth link t n with e | hc
    · exact e
    · have := Finset.card_le_univ (stopsWithin link t (n + 1))
      simp at this
      omega
  have hstep : ∀ d, stopsWithin link t (n + d) = stopsWithin link t (n + d + 1) := by
    intro d
    induction d with
    | zero => exact hn
    | succ d ih => exact stopsWithin_stable link t (n + d) ih
  intro d
  induction d with
  | zero => rfl
  | succ d ih => rw [← ih]; exact (hstep d).symm

/-- As many iterations as there are fragments are enough: a loop that
returns at all returns within `n` iterations. -/
theorem findLoop_fuel_enough {n : Nat} (link : Fin n → Option (Fin n)) (t x : Fin n)
    (m : Nat) (r : Option (Fin n)) (hm : findLoop link t m x = some r) :
    findLoop link t n x = some r := by
  by_cases hmn : m ≤ n
  · exact findLoop_mono link t m n x r hm hmn
  · have hx : x ∈ stopsWithin link t (n + (m - n)) := by
      rw [mem_stopsWithin]
      have : n + (m - n) = m := by omega
      rw [this, hm]; rfl
    rw [stopsWithin_eq, mem_stopsWithin] at hx
    obtain ⟨r2, hr2⟩ := Option.isSome_iff_exists.1 hx
    have := findLoop_mono link t n m x r2 hr2 (by omega)
    rw [hm] at this
    rw [hr2, Option.some.inj this]

/-- Whenever the loop of `findFirst` returns at all, `findFirst` has that
result. -/
theorem findFirst_of_loop {n : Nat} (h : Heap n) (x : Fin n) (m : Nat) (r : Option (Fin n))
    (hm : findLoop (fun i => (h i).prev) x m x = some r) : findFirst h x = some r :=
  findLoop_fuel_enough _ x x m r hm

/-- Whenever the loop of `findLast` returns at all, `findLast` has that
result. -/
theorem findLast_of_loop {n : Nat} (h : Heap n) (x : Fin n) (m : Nat) (r : Option (Fin n))
    (hm : findLoop (fun i => (h i).next) x m x = some r) : findLast h x = some r :=
  findLoop_fuel_enough _ x x m r hm

/-! ## The distance metric and `connectionDistance` -/

theorem wrap32_of_range (x : Int) (h1 : -2147483648 ≤ x) (h2 : x ≤ 2147483647) :
    wrap32 x = x := by
  unfold wrap32; omega

theorem wrap32_range (x : Int) : -2147483648 ≤ wrap32 x ∧ wrap32 x ≤ 2147483647 := by
  unfold wrap32; omega

/-- Within the `int` range (its least value apart) the difference and its
`qAbs` are exact. -/
theorem qAbs_wrap32 (x : Int) (h1 : -2147483647 ≤ x) (h2 : x ≤ 2147483647) :
    qAbs (wrap32 x) = |x| := by
  rw [wrap32_of_range x (by omega) h2]
  unfold qAbs
  by_cases hx : 0 ≤ x
  · rw [if_pos hx, abs_of_nonneg hx]
  · rw [if_neg hx, abs_of_neg (by omega), wrap32_of_range _ (by omega) (by omega)]

/-- The truncated quotient `numerator * 1000 / denominator` of a
non-negative fraction is the floor of 1000 times its value. -/
theorem tdiv_num_den (q : ℚ) (hq : 0 ≤ q) :
    (q.num * 1000).tdiv q.den = ⌊(1000 : ℚ) * q⌋ := by
  have hn : 0 ≤ q.num := Rat.num_nonneg.2 hq
  rw [Int.tdiv_eq_ediv (by positivity) (by positivity)]
  rw [← Rat.floor_intCast_div_natCast]
  congr 1
  push_cast
  rw [mul_comm, mul_div_assoc, Rat.num_div_den]

/-- Without overflow `distance` computes the formula of the spec. -/
theorem distance_eq_formula (l1 l2 : Location)
    (hnum : |l2.frac - l1.frac|.num * 1000 ≤ INT_MAX)
    (hfit : distanceFormula l1 l2 ≤ INT_MAX) :
    distance l1 l2 = distanceFormula l1 l2 := by
  have hq : (0 : ℚ) ≤ |l2.frac - l1.frac| := abs_nonneg _
  have hn : 0 ≤ |l2.frac - l1.frac|.num := Rat.num_nonneg.2 hq
  have hF : 0 ≤ ⌊(1000 : ℚ) * |l2.frac - l1.frac|⌋ := Int.floor_nonneg.2 (by positivity)
  have hM := abs_nonneg (l2.measure - l1.measure)
  have hT := abs_nonneg (l2.track - l1.track)
  have hN := abs_nonneg (l2.note - l1.note)
  have hG := abs_nonneg (l2.graceIndex - l1.graceIndex)
  have hM2 := neg_abs_le (l2.measure - l1.measure)
  have hT2 := neg_abs_le (l2.track - l1.track)
  have hN2 := neg_abs_le (l2.note - l1.note)
  have hG2 := neg_abs_le (l2.graceIndex - l1.graceIndex)
  have hM3 := le_abs_self (l2.measure - l1.measure)
  have hT3 := le_abs_self (l2.track - l1.track)
  have hN3 := le_abs_self (l2.note - l1.note)
  have hG3 := le_abs_self (l2.graceIndex - l1.graceIndex)
  unfold distanceFormula posTerm INT_MAX at hfit
  unfold INT_MAX at hnum
  unfold distance distanceFormula posTerm
  simp only
  rw [wrap32_of_range (|l2.frac - l1.frac|.num * 1000) (by omega) hnum,
    tdiv_num_den _ hq,
    qAbs_wrap32 (l2.measure - l1.measure) (by omega) (by omega),
    qAbs_wrap32 (l2.track - l1.track) (by omega) (by omega),
    qAbs_wrap32 (l2.note - l1.note) (by omega) (by omega),
    qAbs_wrap32 (l2.graceIndex - l1.graceIndex) (by omega) (by omega)]
  generalize ⌊(1000 : ℚ) * |l2.frac - l1.frac|⌋ = F at hF hfit ⊢
  generalize |l2.measure - l1.measure| = M at hM hfit ⊢
  generalize |l2.track - l1.track| = T at hT hfit ⊢
  generalize |l2.note - l1.note| = Nn at hN hfit ⊢
  generalize |l2.graceIndex - l1.graceIndex| = G at hG hfit ⊢
  rw [wrap32_of_range (10000 * M) (by omega) (by omega),
    wrap32_of_range (F + 10000 * M) (by omega) (by omega),
    wrap32_of_range (1000 * (F + 10000 * M)) (by omega) (by omega),
    wrap32_of_range (100 * T) (by omega) (by omega),
    wrap32_of_range (10 * Nn) (by omega) (by omega),
    wrap32_of_range (1000 * (F + 10000 * M) + 100 * T) (by omega) (by omega),
    wrap32_of_range (1000 * (F + 10000 * M) + 100 * T + 10 * Nn) (by omega) (by omega),
    wrap32_of_range (1000 * (F + 10000 * M) + 100 * T + 10 * Nn + G) (by omega) (by omega)]

/-- The distance between two locations that differ in measure and track
only. -/
theorem distance_locTrack (m1 t1 m2 t2 : Int)
    (hfit : 10000000 * |m2 - m1| + 100 * |t2 - t1| ≤ 2147483647) :
    distance (locTrack m1 t1) (locTrack m2 t2) = 10000000 * |m2 - m1| + 100 * |t2 - t1| := by
  have e : distanceFormula (locTrack m1 t1) (locTrack m2 t2)
      = 10000000 * |m2 - m1| + 100 * |t2 - t1| := by
    simp only [distanceFormula, posTerm, locTrack, sub_self, abs_zero, mul_zero, Int.floor_zero]
    ring
  rw [distance_eq_formula _ _ (by simp [locTrack, INT_MAX]) (by rw [e]; exact hfit), e]

/-- `connectionDistance` in terms of the scores of the two orderings. -/
theorem connectionDistance_eq {n : Nat} (h : Heap n) (a b : Fin n) :
    connectionDistance h a b =
      if (h a).type ≠ (h b).type ∨ (h a).score ≠ (h b).score then INT_MAX
      else if matchedDistance h b a < matchedDistance h a b then
        wrap32 (-matchedDistance h b a)
      else matchedDistance h a b := by
  have e1 : (if (h a).hasNext = true ∧ (h a).next = none
        ∧ (h b).hasPrevious = true ∧ (h b).prev = none then
      orderedConnectionDistance (h a) (h b) else INT_MAX) = matchedDistance h a b := by
    unfold matchedDistance orderMatched slotsOpen offsetsAgree orderedConnectionDistance
    by_cases g : (h a).hasNext = true ∧ (h a).next = none
        ∧ (h b).hasPrevious = true ∧ (h b).prev = none
    · by_cases o : (h a).nextLoc.toRelative (h a).currentLoc
          = (h b).currentLoc.toRelative (h b).prevLoc
      · simp only [g, o, and_self, if_true]
      · simp only [g, o, and_false, and_true, if_true, if_false]
    · simp only [g, false_and, if_false]
  have e2 : (if (h a).hasPrevious = true ∧ (h a).prev = none
        ∧ (h b).hasNext = true ∧ (h b).next = none then
      orderedConnectionDistance (h b) (h a) else INT_MAX) = matchedDistance h b a := by
    unfold matchedDistance orderMatched slotsOpen offsetsAgree orderedConnectionDistance
    by_cases g : (h b).hasNext = true ∧ (h b).next = none
        ∧ (h a).hasPrevious = true ∧ (h a).prev = none
    · have g2 : (h a).hasPrevious = true ∧ (h a).prev = none
          ∧ (h b).hasNext = true ∧ (h b).next = none := ⟨g.2.2.1, g.2.2.2, g.1, g.2.1⟩
      by_cases o : (h b).nextLoc.toRelative (h b).currentLoc
          = (h a).currentLoc.toRelative (h a).prevLoc
      · simp only [g, g2, o, and_self, if_true]
      · simp only [g, g2, o, and_false, and_true, and_self, if_true, if_false]
    · have g2 : ¬ ((h a).hasPrevious = true ∧ (h a).prev = none
          ∧ (h b).hasNext = true ∧ (h b).next = none) :=
        fun x => g ⟨x.2.2.1, x.2.2.2, x.1, x.2.1⟩
      simp only [g, g2, false_and, if_false]
  unfold connectionDistance
  simp only [e1, e2]

/-- The `int` result of `distance` lies in the `int` range. -/
theorem distance_le (l1 l2 : Location) : distance l1 l2 ≤ INT_MAX := by
  unfold distance INT_MAX
  exact (wrap32_range _).2

/-- The score of an ordering is at most `INT_MAX`. -/
theorem matchedDistance_le {n : Nat} (h : Heap n) (a b : Fin n) :
    matchedDistance h a b ≤ INT_MAX := by
  unfold matchedDistance
  split
  · exact distance_le _ _
  · exact le_refl _

/-- A score other than `INT_MAX` belongs to a matched ordering. -/
theorem matched_of_ne {n : Nat} (h : Heap n) (a b : Fin n)
    (hne : matchedDistance h a b ≠ INT_MAX) :
    orderMatched h a b ∧ matchedDistance h a b = distance (h a).nextLoc (h b).currentLoc := by
  unfold matchedDistance at hne ⊢
  by_cases m : orderMatched h a b
  · simp only [m, if_true, and_self]
  · simp only [m, if_false, ne_eq, not_true_eq_false] at hne

/-- One measure-and-tick location relative to another. -/
theorem toRelative_locAt (a b : Int) :
    (locAt a).toRelative (locAt b)
      = { measure := a - b, frac := 0, track := 0, note := 0, graceIndex := 0,
          mode := .relative } := by
  simp [Location.toRelative, locAt]

/-- In `shifted` the ordering "0 before 1" is matched. -/
theorem orderMatched_shifted : orderMatched shifted 0 1 := by
  refine ⟨by decide, ?_⟩
  show (locAt 2).toRelative (locAt 1) = (locAt 4).toRelative (locAt 3)
  rw [toRelative_locAt, toRelative_locAt]
  norm_num

/-- In `pair` the ordering "0 before 1" is matched. -/
theorem orderMatched_pair : orderMatched pair 0 1 := by
  refine ⟨by decide, ?_⟩
  show (locAt 2).toRelative (locAt 1) = (locAt 2).toRelative (locAt 1)
  rfl

/-- The scores of the two orderings of `shifted`. -/
theorem matchedDistance_shifted :
    matchedDistance shifted 0 1 = 20000000 ∧ matchedDistance shifted 1 0 = INT_MAX := by
  constructor
  · have m : orderMatched shifted 0 1 := orderMatched_shifted
    have d := distance_locTrack 2 0 4 0 (by norm_num)
    norm_num at d
    unfold matchedDistance
    rw [if_pos m]
    exact d
  · have m : ¬ orderMatched shifted 1 0 := by decide
    unfold matchedDistance
    rw [if_neg m]

/-- The values of `connectionDistance` on `shifted`, in both argument
orders. -/
theorem connectionDistance_shifted :
    connectionDistance shifted 0 1 = 20000000 ∧ connectionDistance shifted 1 0 = -20000000 := by
  have ht : ¬ ((shifted 0).type ≠ (shifted 1).type ∨ (shifted 0).score ≠ (shifted 1).score) := by
    decide
  have ht2 : ¬ ((shifted 1).type ≠ (shifted 0).type ∨ (shifted 1).score ≠ (shifted 0).score) := by
    decide
  constructor
  · rw [connectionDistance_eq, if_neg ht, matchedDistance_shifted.1, matchedDistance_shifted.2]
    norm_num [INT_MAX]
  · rw [connectionDistance_eq, if_neg ht2, matchedDistance_shifted.1, matchedDistance_shifted.2]
    norm_num [INT_MAX, wrap32]

/-- Called on the tail of `pair` with its head, `connectionDistance` is 0. -/
theorem connectionDistance_pair_tail : connectionDistance pair 1 0 = 0 := by
  have ht : ¬ ((pair 1).type ≠ (pair 0).type ∨ (pair 1).score ≠ (pair 0).score) := by decide
  have m1 : orderMatched pair 0 1 := orderMatched_pair
  have m2 : ¬ orderMatched pair 1 0 := by decide
  have d := distance_locTrack 2 0 2 0 (by norm_num)
  norm_num at d
  have e1 : matchedDistance pair 0 1 = 0 := by
    unfold matchedDistance
    rw [if_pos m1]
    exact d
  have e2 : matchedDistance pair 1 0 = INT_MAX := by
    unfold matchedDistance
    rw [if_neg m2]
  rw [connectionDistance_eq, if_neg ht, e1, e2]
  norm_num [INT_MAX, wrap32]

/-- C12, counterexample: two ties of one score with free declared slots
(the first declares a next, the second a previous) whose relative offsets
disagree: `connectionDistance` returns the sentinel `INT_MAX`. -/
theorem connectionDistance_possible_counterexample :
    (apart 0).type = (apart 1).type ∧ (apart 0).score = (apart 1).score
      ∧ slotsOpen apart 0 1 ∧ connectionDistance apart 0 1 = INT_MAX := by
  decide

/-- C12, amended: for `a`, `b` of the same kind and score, if an ordering is
matched (slots declared and free, and the relative offsets agree), in one
direction or the other, and the Distance Metric score of each matched
ordering lies from 0 to `INT_MAX - 1`, then `a.connectionDistance(b)` is not
the sentinel and its absolute value is the score
`distance(x.nextLoc, y.currentLoc)` of a matched ordered pair `(x, y)`. -/
theorem connectionDistance_possible {n : Nat} (h : Heap n) (a b : Fin n)
    (hk : (h a).type = (h b).type) (hs : (h a).score = (h b).score)
    (hm : orderMatched h a b ∨ orderMatched h b a)
    (hab : orderMatched h a b →
      0 ≤ distance (h a).nextLoc (h b).currentLoc
        ∧ distance (h a).nextLoc (h b).currentLoc < INT_MAX)
    (hba : orderMatched h b a →
      0 ≤ distance (h b).nextLoc (h a).currentLoc
        ∧ distance (h b).nextLoc (h a).currentLoc < INT_MAX) :
    connectionDistance h a b ≠ INT_MAX
      ∧ ((orderMatched h a b
          ∧ |connectionDistance h a b| = distance (h a).nextLoc (h b).currentLoc)
        ∨ (orderMatched h b a
          ∧ |connectionDistance h a b| = distance (h b).nextLoc (h a).currentLoc)) := by
  have ht : ¬ ((h a).type ≠ (h b).type ∨ (h a).score ≠ (h b).score) := by
    simp [hk, hs]
  rw [connectionDistance_eq, if_neg ht]
  have l1 := matchedDistance_le h a b
  by_cases c : matchedDistance h b a < matchedDistance h a b
  · rw [if_pos c]
    obtain ⟨m2, e2⟩ := matched_of_ne h b a (by omega)
    obtain ⟨p1, p2⟩ := hba m2
    rw [← e2] at p1 p2 ⊢
    unfold INT_MAX at p2 l1 ⊢
    rw [wrap32_of_range _ (by omega) (by omega)]
    refine ⟨by omega, Or.inr ⟨m2, ?_⟩⟩
    rw [abs_neg, abs_of_nonneg p1]
  · rw [if_neg c]
    by_cases m1 : orderMatched h a b
    · obtain ⟨p1, p2⟩ := hab m1
      have e1 : matchedDistance h a b = distance (h a).nextLoc (h b).currentLoc := by
        unfold matchedDistance; rw [if_pos m1]
      rw [← e1] at p1 p2 ⊢
      exact ⟨by omega, Or.inl ⟨m1, abs_of_nonneg p1⟩⟩
    · have m2 : orderMatched h b a := hm.resolve_left m1
      obtain ⟨_, p2⟩ := hba m2
      have e1 : matchedDistance h a b = INT_MAX := by
        unfold matchedDistance; rw [if_neg m1]
      have e2 : matchedDistance h b a = distance (h b).nextLoc (h a).currentLoc := by
        unfold matchedDistance; rw [if_pos m2]
      rw [e1, e2] at c
      exact absurd p2 c

/-- Witness for C12 (amended): the tie in measure 1 and the tie in measure 4
of `shifted`, whose offsets agree; the score is that of two measures. -/
theorem connectionDistance_possible_witness :
    ((shifted 0).type = (shifted 1).type ∧ (shifted 0).score = (shifted 1).score
        ∧ orderMatched shifted 0 1)
      ∧ (connectionDistance shifted 0 1 ≠ INT_MAX
        ∧ ((orderMatched shifted 0 1
            ∧ |connectionDistance shifted 0 1|
              = distance (shifted 0).nextLoc (shifted 1).currentLoc)
          ∨ (orderMatched shifted 1 0
            ∧ |connectionDistance shifted 0 1|
              = distance (shifted 1).nextLoc (shifted 0).currentLoc))) :=
  ⟨⟨by decide, by decide, orderMatched_shifted⟩,
    connectionDistance_possible shifted 0 1 (by decide) (by decide)
      (Or.inl orderMatched_shifted)
      (fun _ => by
        have d := distance_locTrack 2 0 4 0 (by norm_num)
        norm_num at d
        have e : distance (shifted 0).nextLoc (shifted 1).currentLoc = 20000000 := d
        rw [e]
        norm_num [INT_MAX])
      (fun m => absurd m (by decide))⟩

/-- C13 (impossible pairs are rejected): `a.connectionDistance(b)` returns
`INT_MAX` whenever the kinds differ, or the scores differ, or in each of the
two orderings a required slot is undeclared or occupied. So a pair with
another result has the same kind and score and the declared, free slots of
one ordering. -/
theorem connectionDistance_rejects {n : Nat} (h : Heap n) (a b : Fin n) :
    (((h a).type ≠ (h b).type ∨ (h a).score ≠ (h b).score
        ∨ (¬ slotsOpen h a b ∧ ¬ slotsOpen h b a)) →
      connectionDistance h a b = INT_MAX)
    ∧ (connectionDistance h a b ≠ INT_MAX →
      (h a).type = (h b).type ∧ (h a).score = (h b).score
        ∧ (slotsOpen h a b ∨ slotsOpen h b a)) := by
  have key : ((h a).type ≠ (h b).type ∨ (h a).score ≠ (h b).score
      ∨ (¬ slotsOpen h a b ∧ ¬ slotsOpen h b a)) → connectionDistance h a b = INT_MAX := by
    intro hyp
    rw [connectionDistance_eq]
    by_cases ht : (h a).type ≠ (h b).type ∨ (h a).score ≠ (h b).score
    · rw [if_pos ht]
    · rw [if_neg ht]
      rcases hyp with x | x | ⟨n1, n2⟩
      · exact absurd (Or.inl x) ht
      · exact absurd (Or.inr x) ht
      · have e1 : matchedDistance h a b = INT_MAX := by
          unfold matchedDistance orderMatched
          rw [if_neg (fun m => n1 m.1)]
        have e2 : matchedDistance h b a = INT_MAX := by
          unfold matchedDistance orderMatched
          rw [if_neg (fun m => n2 m.1)]
        rw [e1, e2, if_neg (lt_irrefl _)]
  refine ⟨key, ?_⟩
  intro hne
  by_contra hc
  apply hne
  apply key
  by_cases t : (h a).type = (h b).type
  · by_cases s : (h a).score = (h b).score
    · right; right
      constructor
      · intro o; exact hc ⟨t, s, Or.inl o⟩
      · intro o; exact hc ⟨t, s, Or.inr o⟩
    · exact Or.inr (Or.inl s)
  · exact Or.inl t

/-- Witness for C13: a tie and a slur with matching declarations get
`INT_MAX`; the two ties of `shifted` get another value and have the same
kind, the same score and the free slots of an ordering. -/
theorem connectionDistance_rejects_witness :
    ((kindClash 0).type ≠ (kindClash 1).type ∧ connectionDistance kindClash 0 1 = INT_MAX)
      ∧ (connectionDistance shifted 0 1 ≠ INT_MAX
        ∧ ((shifted 0).type = (shifted 1).type ∧ (shifted 0).score = (shifted 1).score
          ∧ (slotsOpen shifted 0 1 ∨ slotsOpen shifted 1 0))) :=
  have w : connectionDistance shifted 0 1 ≠ INT_MAX := by
    rw [connectionDistance_shifted.1]; norm_num [INT_MAX]
  ⟨⟨by decide, (connectionDistance_rejects kindClash 0 1).1 (Or.inl (by decide))⟩,
    w, (connectionDistance_rejects shifted 0 1).2 w⟩

/-- C14, counterexample: called on the tail of a declared two-fragment
chain with its head, `connectionDistance` returns 0, which is non-negative
and not the sentinel, although the ordering "tail before head" is not
matched (the matched one is "head before tail"). -/
theorem connectionDistance_sign_counterexample :
    connectionDistance pair 1 0 ≠ INT_MAX ∧ 0 ≤ connectionDistance pair 1 0
      ∧ ¬ orderMatched pair 1 0 ∧ orderMatched pair 0 1 := by
  refine ⟨?_, ?_, by decide, orderMatched_pair⟩
  · rw [connectionDistance_pair_tail]; norm_num [INT_MAX]
  · rw [connectionDistance_pair_tail]

/-- C14, amended: let `r = a.connectionDistance(b)` be other than the
sentinel, the scores of the matched orderings being non-negative (no
overflow). If `r < 0` the ordering "`b` before `a`" is matched; if `r > 0`
the ordering "`a` before `b`" is matched; if `r = 0` one of the two is
matched. -/
theorem connectionDistance_sign {n : Nat} (h : Heap n) (a b : Fin n)
    (hne : connectionDistance h a b ≠ INT_MAX)
    (hab : orderMatched h a b → 0 ≤ distance (h a).nextLoc (h b).currentLoc)
    (hba : orderMatched h b a → 0 ≤ distance (h b).nextLoc (h a).currentLoc) :
    (connectionDistance h a b < 0 → orderMatched h b a)
      ∧ (0 < connectionDistance h a b → orderMatched h a b)
      ∧ (connectionDistance h a b = 0 → orderMatched h a b ∨ orderMatched h b a) := by
  rw [connectionDistance_eq] at hne ⊢
  by_cases ht : (h a).type ≠ (h b).type ∨ (h a).score ≠ (h b).score
  · rw [if_pos ht] at hne
    exact absurd rfl hne
  rw [if_neg ht] at hne ⊢
  have l1 := matchedDistance_le h a b
  by_cases c : matchedDistance h b a < matchedDistance h a b
  · rw [if_pos c] at hne ⊢
    obtain ⟨m2, e2⟩ := matched_of_ne h b a (by omega)
    have p := hba m2
    rw [← e2] at p
    unfold INT_MAX at l1
    rw [wrap32_of_range _ (by omega) (by omega)]
    exact ⟨fun _ => m2, fun x => by omega, fun _ => Or.inr m2⟩
  · rw [if_neg c] at hne ⊢
    obtain ⟨m1, e1⟩ := matched_of_ne h a b hne
    have p := hab m1
    rw [← e1] at p
    exact ⟨fun x => by omega, fun _ => m1, fun _ => Or.inl m1⟩

/-- Witness for C14 (amended): on `shifted`, the result is negative when
asked at the later tie and positive when asked at the earlier one; the
matched ordering is "0 before 1" both times. -/
theorem connectionDistance_sign_witness :
    (connectionDistance shifted 1 0 ≠ INT_MAX ∧ connectionDistance shifted 1 0 < 0
        ∧ connectionDistance shifted 0 1 ≠ INT_MAX ∧ 0 < connectionDistance shifted 0 1)
      ∧ orderMatched shifted 0 1 ∧ orderMatched shifted 0 1 :=
  have d : distance (shifted 0).nextLoc (shifted 1).currentLoc = 20000000 := by
    have d := distance_locTrack 2 0 4 0 (by norm_num)
    norm_num at d
    exact d
  have n1 : connectionDistance shifted 1 0 ≠ INT_MAX := by
    rw [connectionDistance_shifted.2]; norm_num [INT_MAX]
  have n2 : connectionDistance shifted 0 1 ≠ INT_MAX := by
    rw [connectionDistance_shifted.1]; norm_num [INT_MAX]
  have s1 : connectionDistance shifted 1 0 < 0 := by
    rw [connectionDistance_shifted.2]; norm_num
  have s2 : 0 < connectionDistance shifted 0 1 := by
    rw [connectionDistance_shifted.1]; norm_num
  ⟨⟨n1, s1, n2, s2⟩,
    (connectionDistance_sign shifted 1 0 n1 (fun m => absurd m (by decide))
      (fun _ => by rw [d]; norm_num)).1 s1,
    (connectionDistance_sign shifted 0 1 n2 (fun _ => by rw [d]; norm_num)
      (fun m => absurd m (by decide))).2.1 s2⟩

/-- C15 (distance formula): when no `int` overflow occurs, that is when
`numerator * 1000` and the value of the formula fit into an `int`,
`distance(l1, l2)` is `1000*posTerm + 100*|track delta| + 10*|note delta|
+ |grace delta|` with `posTerm = floor(1000*|frac delta|) + 10000*|measure
delta|`. -/
theorem distance_formula (l1 l2 : Location)
    (hnum : |l2.frac - l1.frac|.num * 1000 ≤ INT_MAX)
    (hfit : distanceFormula l1 l2 ≤ INT_MAX) :
    distance l1 l2
      = 1000 * (⌊(1000 : ℚ) * |l2.frac - l1.frac|⌋ + 10000 * |l2.measure - l1.measure|)
        + 100 * |l2.track - l1.track| + 10 * |l2.note - l1.note|
        + |l2.graceIndex - l1.graceIndex| :=
  distance_eq_formula l1 l2 hnum hfit

/-- The numerator and the formula at the locations of the witness for C15. -/
theorem locFine_values :
    |locFine.frac - (locAt 1).frac|.num = 3 ∧ distanceFormula (locAt 1) locFine = 20750210 := by
  have e : |locFine.frac - (locAt 1).frac| = 3 / 4 := by
    norm_num [locFine, locAt, abs_of_nonneg]
  constructor
  · rw [e]; norm_num
  · unfold distanceFormula posTerm
    rw [e]
    norm_num [locFine, locAt]

/-- Witness for C15: from measure 1, tick 0, track 0 to measure 3, three
quarters in, track 2, note 1: the distance is 20750210. -/
theorem distance_formula_witness :
    (|locFine.frac - (locAt 1).frac|.num * 1000 ≤ INT_MAX
        ∧ distanceFormula (locAt 1) locFine ≤ INT_MAX)
      ∧ distance (locAt 1) locFine
        = 1000 * (⌊(1000 : ℚ) * |locFine.frac - (locAt 1).frac|⌋
            + 10000 * |locFine.measure - (locAt 1).measure|)
          + 100 * |locFine.track - (locAt 1).track| + 10 * |locFine.note - (locAt 1).note|
          + |locFine.graceIndex - (locAt 1).graceIndex| :=
  have h1 : |locFine.frac - (locAt 1).frac|.num * 1000 ≤ INT_MAX := by
    rw [locFine_values.1]; norm_num [INT_MAX]
  have h2 : distanceFormula (locAt 1) locFine ≤ INT_MAX := by
    rw [locFine_values.2]; norm_num [INT_MAX]
  ⟨⟨h1, h2⟩, distance_formula (locAt 1) locFine h1 h2⟩

/-- C16, counterexample: from measure 0, track 0, the location in measure 1
on track 100001 is closer in measure index than the location in measure 2
on track 0 (same tick, same grace index), yet its distance, 20000100, is
not less than 20000000. -/
theorem distance_monotone_counterexample :
    |(locTrack 1 100001).measure - (locTrack 0 0).measure|
        < |(locTrack 2 0).measure - (locTrack 0 0).measure|
      ∧ (locTrack 1 100001).frac = (locTrack 2 0).frac
      ∧ (locTrack 1 100001).graceIndex = (locTrack 2 0).graceIndex
      ∧ distance (locTrack 0 0) (locTrack 1 100001) = 20000100
      ∧ distance (locTrack 0 0) (locTrack 2 0) = 20000000
      ∧ ¬ distance (locTrack 0 0) (locTrack 1 100001) < distance (locTrack 0 0) (locTrack 2 0) := by
  have d1 := distance_locTrack 0 0 1 100001 (by norm_num)
  have d2 := distance_locTrack 0 0 2 0 (by norm_num)
  norm_num at d1 d2
  refine ⟨by norm_num [locTrack], rfl, rfl, d1, d2, ?_⟩
  rw [d1, d2]
  norm_num

/-- C16, amended: for locations `a`, `b`, `c` with `b` strictly closer to `a`
in measure index than `c`, `b` and `c` at the same tick and grace index,
`100*|track delta| + 10*|note delta|` of `b` below 10000000 (one measure),
and no `int` overflow in `distance(a, c)`: `distance(a, b) < distance(a, c)`,
whatever the track and note index of `c`. -/
theorem distance_monotone (a b c : Location)
    (hm : |b.measure - a.measure| < |c.measure - a.measure|)
    (hf : b.frac = c.frac) (hg : b.graceIndex = c.graceIndex)
    (hsmall : 100 * |b.track - a.track| + 10 * |b.note - a.note| < 10000000)
    (hnum : |c.frac - a.frac|.num * 1000 ≤ INT_MAX)
    (hfit : distanceFormula a c ≤ INT_MAX) :
    distance a b < distance a c := by
  have key : distanceFormula a b < distanceFormula a c := by
    have hF : 0 ≤ ⌊(1000 : ℚ) * |c.frac - a.frac|⌋ := Int.floor_nonneg.2 (by positivity)
    have hT := abs_nonneg (c.track - a.track)
    have hN := abs_nonneg (c.note - a.note)
    have hTb := abs_nonneg (b.track - a.track)
    have hNb := abs_nonneg (b.note - a.note)
    unfold distanceFormula posTerm
    rw [hf, hg]
    omega
  rw [distance_eq_formula a b (by rw [hf]; exact hnum) (by omega),
    distance_eq_formula a c hnum hfit]
  exact key

/-- Witness for C16 (amended): from measure 0, the location in measure 1 on
track 7 against the location in measure 2 on track 0. -/
theorem distance_monotone_witness :
    (|(locTrack 1 7).measure - (locTrack 0 0).measure|
          < |(locTrack 2 0).measure - (locTrack 0 0).measure|
        ∧ 100 * |(locTrack 1 7).track - (locTrack 0 0).track|
            + 10 * |(locTrack 1 7).note - (locTrack 0 0).note| < 10000000)
      ∧ distance (locTrack 0 0) (locTrack 1 7) < distance (locTrack 0 0) (locTrack 2 0) :=
  have h1 : |(locTrack 1 7).measure - (locTrack 0 0).measure|
      < |(locTrack 2 0).measure - (locTrack 0 0).measure| := by norm_num [locTrack]
  have h2 : 100 * |(locTrack 1 7).track - (locTrack 0 0).track|
      + 10 * |(locTrack 1 7).note - (locTrack 0 0).note| < 10000000 := by norm_num [locTrack]
  ⟨⟨h1, h2⟩,
    distance_monotone (locTrack 0 0) (locTrack 1 7) (locTrack 2 0) h1 rfl rfl h2
      (by norm_num [locTrack, INT_MAX])
      (by norm_num [distanceFormula, posTerm, locTrack, INT_MAX])⟩

/-! ## `forceConnect` -/

/-- C17 (`forceConnect` installs the link unconditionally): for distinct
`a`, `b`, whatever their kinds, scores, locations, declarations and links,
after `a.forceConnect(b)` we have `a.next = b` and `b.prev = a`; the records
of `a` and `b` are otherwise as before (so `a.prev` and `b.next` are kept)
and every other fragment is unchanged. When `b` is null or `a` itself,
nothing changes. -/
theorem forceConnect_installs {n : Nat} (h : Heap n) (a : Fin n) :
    (∀ b : Fin n, a ≠ b →
        (forceConnect h a (some b) a).next = some b
          ∧ (forceConnect h a (some b) b).prev = some a
          ∧ forceConnect h a (some b) a = { h a with next := some b }
          ∧ forceConnect h a (some b) b = { h b with prev := some a }
          ∧ ∀ c, c ≠ a → c ≠ b → forceConnect h a (some b) c = h c)
      ∧ forceConnect h a none = h ∧ forceConnect h a (some a) = h := by
  refine ⟨?_, rfl, by simp [forceConnect]⟩
  intro b hab
  have hba : b ≠ a := fun e => hab e.symm
  have e : forceConnect h a (some b) = setPrev (setNext h a (some b)) b (some a) := by
    simp [forceConnect, hab]
  have ea : forceConnect h a (some b) a = { h a with next := some b } := by
    rw [e, setPrev_other _ _ _ _ hab, setNext_same]
  have eb : forceConnect h a (some b) b = { h b with prev := some a } := by
    rw [e, setPrev_same, setNext_other _ _ _ _ hba]
  refine ⟨by rw [ea], by rw [eb], ea, eb, ?_⟩
  intro c hca hcb
  rw [e, setPrev_other _ _ _ _ hcb, setNext_other _ _ _ _ hca]

/-- Witness for C17: a tie and a slur, the slur already being the next of
nothing and the tie the previous of nothing; the link is installed all the
same. -/
theorem forceConnect_installs_witness :
    ((0 : Fin 2) ≠ 1 ∧ (kindClash 0).type ≠ (kindClash 1).type)
      ∧ ((forceConnect kindClash 0 (some 1) 0).next = some 1
        ∧ (forceConnect kindClash 0 (some 1) 1).prev = some 0
        ∧ forceConnect kindClash 0 (some 1) 0 = { kindClash 0 with next := some 1 }
        ∧ forceConnect kindClash 0 (some 1) 1 = { kindClash 1 with prev := some 0 }
        ∧ ∀ c, c ≠ 0 → c ≠ 1 → forceConnect kindClash 0 (some 1) c = kindClash c) :=
  ⟨by decide, (forceConnect_installs kindClash 0).1 1 (by decide)⟩

/-! ## Delivery: `addToScore` -/

/-- On a linear chain the first loop of `addToScore`, started at `f i`, ends
at `f 0` within `i + 1` iterations. -/
theorem IsChain.rewind_eq {n N : Nat} {h : Heap n} {f : Fin N → Fin n} (hc : IsChain h f) :
    ∀ (k : Nat) (i : Fin N), i.val = k → ∀ fuel : Nat, k + 1 ≤ fuel →
      rewind h fuel (f i) = some (f ⟨0, i.pos⟩) := by
  intro k
  induction k with
  | zero =>
    intro i hi fuel hf
    obtain ⟨m, rfl⟩ : ∃ m, fuel = m + 1 := ⟨fuel - 1, by omega⟩
    unfold rewind
    rw [hc.2.1 i hi]
    exact congrArg some (congrArg f (Fin.ext hi))
  | succ k ih =>
    intro i hi fuel hf
    obtain ⟨m, rfl⟩ : ∃ m, fuel = m + 1 := ⟨fuel - 1, by omega⟩
    unfold rewind
    rw [(hc.1 ⟨k, by omega⟩ i (by simp; omega)).2]
    exact ih ⟨k, by omega⟩ rfl m (by omega)

/-- On a linear chain the second loop of `addToScore`, entered at position
`i` (with the null pointer when `i = N`), makes the calls for positions
`i, ..., N-1` in this order. -/
theorem IsChain.deliver_eq {n N : Nat} {h : Heap n} {f : Fin N → Fin n} (hc : IsChain h f)
    (pm : Bool) :
    ∀ (r i : Nat), i + r = N → ∀ fuel : Nat, r + 1 ≤ fuel →
      deliver h pm fuel (if hi : i < N then some (f ⟨i, hi⟩) else none)
        = some (((List.finRange N).drop i).map fun k => deliveryOf h pm (f k)) := by
  intro r
  induction r with
  | zero =>
    intro i hi fuel hf
    obtain ⟨m, rfl⟩ : ∃ m, fuel = m + 1 := ⟨fuel - 1, by omega⟩
    rw [dif_neg (by omega), List.drop_of_length_le (by simp; omega)]
    rfl
  | succ r ih =>
    intro i hi fuel hf
    obtain ⟨m, rfl⟩ : ∃ m, fuel = m + 1 := ⟨fuel - 1, by omega⟩
    have hiN : i < N := by omega
    have hlen : i < (List.finRange N).length := by rw [List.length_finRange]; exact hiN
    have hd : (List.finRange N).drop i = ⟨i, hiN⟩ :: (List.finRange N).drop (i + 1) := by
      rw [List.drop_eq_getElem_cons hlen, List.getElem_finRange]
      rfl
    have hnext : (h (f ⟨i, hiN⟩)).next
        = (if hi : i + 1 < N then some (f ⟨i + 1, hi⟩) else none) := by
      by_cases h1 : i + 1 < N
      · rw [dif_pos h1]
        exact (hc.1 ⟨i, hiN⟩ ⟨i + 1, h1⟩ rfl).1
      · rw [dif_neg h1]
        exact hc.2.2 ⟨i, hiN⟩ (by simp; omega)
    rw [dif_pos hiN, hd]
    unfold deliver
    rw [hnext, ih (i + 1) (by omega) m (by omega)]
    rfl

/-- C11 (delivery order): on every linear chain `f 0 .. f (N-1)`,
`addToScore` called on any member, given fuel for `N + 1` evaluations of
each loop condition, calls `readAddConnector` exactly `N` times: the `k`-th
call is for fragment `f k` on that fragment's own receiver. No fragment is
delivered twice. -/
theorem addToScore_order {n N : Nat} (h : Heap n) (f : Fin N → Fin n) (hc : IsChain h f)
    (i : Fin N) (pm : Bool) (fuel : Nat) (hfuel : N + 1 ≤ fuel) :
    addToScore fuel h (f i) pm = some (List.ofFn fun k => deliveryOf h pm (f k))
      ∧ (∀ k, (deliveryOf h pm (f k)).fragment = f k
        ∧ (deliveryOf h pm (f k)).receiver = (h (f k)).connectorReceiver)
      ∧ ((List.ofFn fun k => deliveryOf h pm (f k)).map fun d => d.fragment).Nodup
      ∧ (List.ofFn fun k => deliveryOf h pm (f k)).length = N := by
  have hN : 0 < N := i.pos
  refine ⟨?_, fun k => ⟨rfl, rfl⟩, ?_, List.length_ofFn _⟩
  · unfold addToScore
    rw [hc.rewind_eq i.val i rfl fuel (by have := i.isLt; omega)]
    have d := hc.deliver_eq pm N 0 (by omega) fuel hfuel
    rw [dif_pos hN] at d
    simp only [Option.some_bind]
    rw [d, List.drop_zero, List.ofFn_eq_map]
  · rw [List.map_ofFn, List.nodup_ofFn]
    exact hc.injective

/-- Witness for C11: the chain 0 -> 1 -> 2 linked by `connect`, asked at
its middle fragment. -/
theorem addToScore_order_witness :
    IsChain (connectAll triple [(0, 1), (1, 2)]) id
      ∧ addToScore 4 (connectAll triple [(0, 1), (1, 2)]) 1 true
        = some [{ receiver := 0, fragment := 0, pasteMode := true },
            { receiver := 0, fragment := 1, pasteMode := true },
            { receiver := 0, fragment := 2, pasteMode := true }] :=
  ⟨by decide,
    (addToScore_order (connectAll triple [(0, 1), (1, 2)]) id (by decide) 1 true 4
      (by decide)).1⟩

/-! ## Release of the payload: `connector`, `releaseConnector` -/

theorem setConnector_prev {n : Nat} (h : Heap n) (i x : Fin n) (v : Option EngravingItem) :
    (setConnector h i v x).prev = (h x).prev := by
  by_cases e : x = i
  · subst e; simp [setConnector]
  · simp [setConnector, Function.update_noteq e]

theorem setConnector_next {n : Nat} (h : Heap n) (i x : Fin n) (v : Option EngravingItem) :
    (setConnector h i v x).next = (h x).next := by
  by_cases e : x = i
  · subst e; simp [setConnector]
  · simp [setConnector, Function.update_noteq e]

theorem setConnector_connector {n : Nat} (h : Heap n) (i x : Fin n)
    (v : Option EngravingItem) :
    (setConnector h i v x).connector = if x = i then v else (h x).connector := by
  by_cases e : x = i
  · subst e; simp [setConnector]
  · simp [setConnector, Function.update_noteq e, e]

/-- A state with the same links has the same chains. -/
theorem IsChain.of_links {n N : Nat} {h h2 : Heap n} {f : Fin N → Fin n} (hc : IsChain h f)
    (hp : ∀ x, (h2 x).prev = (h x).prev) (hn : ∀ x, (h2 x).next = (h x).next) :
    IsChain h2 f := by
  refine ⟨?_, ?_, ?_⟩
  · intro i j hij
    rw [hp, hn]
    exact hc.1 i j hij
  · intro i hi
    rw [hp]
    exact hc.2.1 i hi
  · intro i hi
    rw [hn]
    exact hc.2.2 i hi

/-- More fuel does not change a result of the release loop. -/
theorem releaseLoop_mono {n : Nat} (t : Fin n) :
    ∀ (k m : Nat) (h : Heap n) (x : Fin n) (c : Option EngravingItem)
      (r : Option EngravingItem × Heap n),
      releaseLoop t k h x c = some r → k ≤ m → releaseLoop t m h x c = some r := by
  intro k
  induction k with
  | zero => intro m h x c r hk; simp [releaseLoop] at hk
  | succ k ih =>
    intro m h x c r hk hm
    obtain ⟨m, rfl⟩ : ∃ m2, m = m2 + 1 := ⟨m - 1, by omega⟩
    unfold releaseLoop at hk ⊢
    cases hl : (h x).prev with
    | none => simpa [hl] using hk
    | some p =>
      simp only [hl] at hk ⊢
      by_cases hp : p = t
      · simpa [hp] using hk
      · simp only [hp, if_false] at hk ⊢
        exact ih m _ p _ r hk (by omega)

/-- The release loop returns exactly when the loop of `findFirst` does:
both walk the same prev links and stop on the same conditions. -/
theorem releaseLoop_isSome {n : Nat} (h0 : Heap n) (t : Fin n) :
    ∀ (fuel : Nat) (h : Heap n) (x : Fin n) (c : Option EngravingItem),
      (∀ y, (h y).prev = (h0 y).prev) →
      (releaseLoop t fuel h x c).isSome = (findLoop (fun y => (h0 y).prev) t fuel x).isSome := by
  intro fuel
  induction fuel with
  | zero => intro h x c _; rfl
  | succ k ih =>
    intro h x c hp
    unfold releaseLoop findLoop
    rw [hp x]
    cases hl : (h0 x).prev with
    | none => rfl
    | some p =>
      simp only
      by_cases hpt : p = t
      · simp [hpt]
      · simp only [hpt, if_false]
        apply ih
        intro y
        split
        · rw [setConnector_prev]; exact hp y
        · exact hp y

/-- `releaseConnector` returns whenever `findFirst` does. -/
theorem releaseConnector_eq_none {n : Nat} (h : Heap n) (x : Fin n) :
    releaseConnector h x = none ↔ findFirst h x = none := by
  unfold releaseConnector
  rcases hf : findFirst h x with _ | _ | a
  · simp
  · simp only [reduceCtorEq, iff_false]
    have e := releaseLoop_isSome h x n h x none (fun _ => rfl)
    unfold findFirst at hf
    rw [hf] at e
    intro hnone
    rw [hnone] at e
    simp at e
  · simp

/-- The release loop along a walk `g k, ..., g m` of prev links that is back
at `this` at step `m` and not before: it returns after exactly `m - k`
iterations, every fragment of the walk is left without payload, no
fragment gains one, and the returned payload is the incoming one or was
held by a fragment of the walk; it is not null when there was any. -/
theorem releaseLoop_walk {n : Nat} (t : Fin n) (g : Nat → Fin n) (m : Nat)
    (hne : ∀ j, 0 < j → j < m → g j ≠ t) (hend : g m = t) :
    ∀ (r k : Nat) (h : Heap n) (c : Option EngravingItem), k + r = m → 1 ≤ r →
      (∀ j, k ≤ j → j < m → (h (g j)).prev = some (g (j + 1))) →
      ∃ c2 h2, releaseLoop t r h (g k) c = some (c2, h2)
        ∧ (∀ j, k ≤ j → j < m → (h2 (g j)).connector = none)
        ∧ (∀ x, (h x).connector = none → (h2 x).connector = none)
        ∧ ((c ≠ none ∨ ∃ j, k ≤ j ∧ j < m ∧ (h (g j)).connector ≠ none) → c2 ≠ none)
        ∧ (c2 ≠ none → c2 = c ∨ ∃ j, k ≤ j ∧ j < m ∧ (h (g j)).connector = c2)
        ∧ (∀ fuel, fuel < r → releaseLoop t fuel h (g k) c = none) := by
  intro r
  induction r with
  | zero => intro k h c _ h1; omega
  | succ r ih =>
    intro k h c hk _ hprev
    have hstep := hprev k (le_refl k) (by omega)
    -- the state and the payload after the body of the loop
    have hc1 : ∀ x, ((if (h (g k)).connector ≠ none then setConnector h (g k) none else h) x).connector
        = if x = g k then none else (h x).connector := by
      intro x
      by_cases hcn : (h (g k)).connector = none
      · simp only [hcn, ne_eq, not_true_eq_false, if_false]
        by_cases hx : x = g k
        · rw [if_pos hx, hx, hcn]
        · rw [if_neg hx]
      · simp only [ne_eq, hcn, not_false_eq_true, if_true]
        exact setConnector_connector h (g k) x none
    have hp1 : ∀ x, ((if (h (g k)).connector ≠ none then setConnector h (g k) none else h) x).prev
        = (h x).prev := by
      intro x
      split
      · exact setConnector_prev h (g k) x none
      · rfl
    by_cases hr : r = 0
    · -- last iteration: the prev of `g k` is `this`
      subst hr
      have hkm : k + 1 = m := by omega
      have hp : g (k + 1) = t := by rw [hkm]; exact hend
      refine ⟨if (h (g k)).connector ≠ none then (h (g k)).connector else c,
        if (h (g k)).connector ≠ none then setConnector h (g k) none else h,
        ?_, ?_, ?_, ?_, ?_, ?_⟩
      · unfold releaseLoop
        simp only [hstep, hp, if_true]
      · intro j hj1 hj2
        have : j = k := by omega
        subst this
        rw [hc1, if_pos rfl]
      · intro x hx
        rw [hc1]
        split
        · rfl
        · exact hx
      · rintro (hc | ⟨j, hj1, hj2, hj3⟩)
        · by_cases hcn : (h (g k)).connector = none
          · simp only [hcn, ne_eq, not_true_eq_false, if_false]; exact hc
          · simp only [ne_eq, hcn, not_false_eq_true, if_true]
        · have : j = k := by omega
          subst this
          simp only [ne_eq, hj3, not_false_eq_true, if_true]
      · intro _
        by_cases hcn : (h (g k)).connector = none
        · left; simp only [hcn, ne_eq, not_true_eq_false, if_false]
        · right
          refine ⟨k, le_refl k, by omega, ?_⟩
          simp only [ne_eq, hcn, not_false_eq_true, if_true]
      · intro fuel hf
        have : fuel = 0 := by omega
        subst this
        rfl
    · -- the walk goes on
      have hp : g (k + 1) ≠ t := hne (k + 1) (by omega) (by omega)
      obtain ⟨c2, h2, e, q1, q2, q3, q4, q5⟩ :=
        ih (k + 1) (if (h (g k)).connector ≠ none then setConnector h (g k) none else h)
          (if (h (g k)).connector ≠ none then (h (g k)).connector else c) (by omega) (by omega)
          (by
            intro j hj1 hj2
            rw [hp1]
            exact hprev j (by omega) hj2)
      refine ⟨c2, h2, ?_, ?_, ?_, ?_, ?_, ?_⟩
      · unfold releaseLoop
        simp only [hstep, hp, if_false]
        exact e
      · intro j hj1 hj2
        by_cases hjk : j = k
        · subst hjk
          apply q2
          rw [hc1, if_pos rfl]
        · exact q1 j (by omega) hj2
      · intro x hx
        apply q2
        rw [hc1]
        split
        · rfl
        · exact hx
      · rintro (hc | ⟨j, hj1, hj2, hj3⟩)
        · apply q3
          left
          by_cases hcn : (h (g k)).connector = none
          · simp only [hcn, ne_eq, not_true_eq_false, if_false]; exact hc
          · simp only [ne_eq, hcn, not_false_eq_true, if_true]
        · apply q3
          by_cases hgk : (h (g k)).connector = none
          · right
            refine ⟨j, ?_, hj2, ?_⟩
            · by_contra hlt
              have : j = k := by omega
              subst this
              exact hj3 hgk
            · rw [hc1]
              by_cases hx : g j = g k
              · rw [hx] at hj3; exact absurd hgk hj3
              · rw [if_neg hx]; exact hj3
          · left
            simp only [ne_eq, hgk, not_false_eq_true, if_true]
      · intro hc2
        rcases q4 hc2 with e1 | ⟨j, hj1, hj2, hj3⟩
        · by_cases hcn : (h (g k)).connector = none
          · left
            simpa only [hcn, ne_eq, not_true_eq_false, if_false] using e1
          · right
            refine ⟨k, le_refl k, by omega, ?_⟩
            simpa only [ne_eq, hcn, not_false_eq_true, if_true] using e1.symm
        · right
          refine ⟨j, by omega, hj2, ?_⟩
          rw [hc1] at hj3
          by_cases hx : g j = g k
          · rw [if_pos hx] at hj3
            exact absurd hj3.symm hc2
          · rw [if_neg hx] at hj3
            exact hj3
      · intro fuel hf
        cases fuel with
        | zero => rfl
        | succ f2 =>
          unfold releaseLoop
          simp only [hstep, hp, if_false]
          exact q5 f2 (by omega)

/-- Reduction modulo `N` of a number below `2 * N`. -/
theorem mod_cases (a N : Nat) (ha : a < 2 * N) :
    a % N = if a < N then a else a - N := by
  split
  · rename_i hlt
    exact Nat.mod_eq_of_lt hlt
  · rename_i hge
    rw [Nat.mod_eq_sub_mod (by omega), Nat.mod_eq_of_lt (by omega)]

/-- On a ring of `N` fragments the release loop started at any member
returns after exactly `N` iterations; afterwards no member holds a payload,
no fragment has gained one, and the returned payload was held by a member;
it is not null when a member held one. -/
theorem IsRing.releaseLoop_eq {n N : Nat} {h : Heap n} {f : Fin N → Fin n} (hr : IsRing h f)
    (i : Fin N) :
    ∃ c2 h2, releaseLoop (f i) N h (f i) none = some (c2, h2)
      ∧ (∀ k : Fin N, (h2 (f k)).connector = none)
      ∧ (∀ x, (h x).connector = none → (h2 x).connector = none)
      ∧ ((∃ k : Fin N, (h (f k)).connector ≠ none) → c2 ≠ none)
      ∧ (c2 ≠ none → ∃ k : Fin N, (h (f k)).connector = c2)
      ∧ (∀ fuel, fuel < N → releaseLoop (f i) fuel h (f i) none = none) := by
  have hN : 0 < N := i.pos
  have hi := i.isLt
  -- the walk along the prev links: position `i - k` modulo `N` at step `k`
  have e0 : (⟨(i.val + (N - 0)) % N, Nat.mod_lt _ hN⟩ : Fin N) = i := by
    apply Fin.ext
    show (i.val + (N - 0)) % N = i.val
    rw [mod_cases _ _ (by omega)]
    split <;> omega
  have eN : (⟨(i.val + (N - N)) % N, Nat.mod_lt _ hN⟩ : Fin N) = i := by
    apply Fin.ext
    show (i.val + (N - N)) % N = i.val
    rw [mod_cases _ _ (by omega)]
    split <;> omega
  have key := releaseLoop_walk (f i)
    (fun k => f ⟨(i.val + (N - k)) % N, Nat.mod_lt _ hN⟩) N
    (by
      intro j hj1 hj2 e
      have := congrArg Fin.val (hr.1 e)
      simp only at this
      rw [mod_cases _ _ (by omega)] at this
      split at this <;> omega)
    (by simp only [eN])
    N 0 h none (by omega) hN
    (by
      intro j _ hj
      refine (hr.2 ⟨(i.val + (N - (j + 1))) % N, Nat.mod_lt _ hN⟩
        ⟨(i.val + (N - j)) % N, Nat.mod_lt _ hN⟩ ?_).2
      show (i.val + (N - j)) % N = ((i.val + (N - (j + 1))) % N + 1) % N
      rw [Nat.mod_add_mod]
      congr 1
      omega)
  simp only [e0] at key
  obtain ⟨c2, h2, q0, q1, q2, q3, q4, q5⟩ := key
  have hsurj : ∀ k : Fin N, ∃ j, j < N
      ∧ (⟨(i.val + (N - j)) % N, Nat.mod_lt _ hN⟩ : Fin N) = k := by
    intro k
    have hk := k.isLt
    by_cases hki : k.val ≤ i.val
    · refine ⟨i.val - k.val, by omega, Fin.ext ?_⟩
      show (i.val + (N - (i.val - k.val))) % N = k.val
      rw [mod_cases _ _ (by omega)]
      split <;> omega
    · refine ⟨i.val + N - k.val, by omega, Fin.ext ?_⟩
      show (i.val + (N - (i.val + N - k.val))) % N = k.val
      rw [mod_cases _ _ (by omega)]
      split <;> omega
  refine ⟨c2, h2, q0, ?_, q2, ?_, ?_, q5⟩
  · intro k
    obtain ⟨j, hj, e⟩ := hsurj k
    have := q1 j (Nat.zero_le j) hj
    rw [e] at this
    exact this
  · rintro ⟨k, hk⟩
    apply q3
    right
    obtain ⟨j, hj, e⟩ := hsurj k
    exact ⟨j, Nat.zero_le j, hj, by rw [e]; exact hk⟩
  · intro hc2
    rcases q4 hc2 with e | ⟨j, _, hj, e⟩
    · exact absurd e hc2
    · exact ⟨_, e⟩

/-- C18 (payload released at most once): on a linear chain,
`releaseConnector` called on any member returns the payload held by the
first fragment (null if it holds none) and clears it there; afterwards
`releaseConnector` and `connector` called on any member return null. -/
theorem releaseConnector_once {n N : Nat} (h : Heap n) (f : Fin N → Fin n) (hc : IsChain h f)
    (i j : Fin N) :
    releaseConnector h (f i)
        = some ((h (f ⟨0, i.pos⟩)).connector, setConnector h (f ⟨0, i.pos⟩) none)
      ∧ ((setConnector h (f ⟨0, i.pos⟩) none) (f ⟨0, i.pos⟩)).connector = none
      ∧ (releaseConnector (setConnector h (f ⟨0, i.pos⟩) none) (f j)).map Prod.fst = some none
      ∧ connector (setConnector h (f ⟨0, i.pos⟩) none) (f j) = some none := by
  have hc2 : IsChain (setConnector h (f ⟨0, i.pos⟩) none) f :=
    hc.of_links (fun x => setConnector_prev _ _ _ _) (fun x => setConnector_next _ _ _ _)
  have e0 : ((setConnector h (f ⟨0, i.pos⟩) none) (f ⟨0, i.pos⟩)).connector = none := by
    rw [setConnector_connector, if_pos rfl]
  refine ⟨?_, e0, ?_, ?_⟩
  · unfold releaseConnector
    rw [hc.findFirst_eq i]
  · unfold releaseConnector
    rw [hc2.findFirst_eq j]
    show some ((setConnector h (f ⟨0, i.pos⟩) none (f ⟨0, j.pos⟩)).connector) = some none
    rw [e0]
  · unfold connector
    rw [hc2.findFirst_eq j]
    show some ((setConnector h (f ⟨0, i.pos⟩) none (f ⟨0, j.pos⟩)).connector) = some none
    rw [e0]

/-- Witness for C18: the linked two-fragment chain whose head holds
payload 7; asked at the tail, payload 7 is returned, and a second request
at either member returns null. -/
theorem releaseConnector_once_witness :
    IsChain pairLoaded id
      ∧ (releaseConnector pairLoaded 1 = some (some 7, setConnector pairLoaded 0 none)
        ∧ ((setConnector pairLoaded 0 none) 0).connector = none
        ∧ (releaseConnector (setConnector pairLoaded 0 none) 0).map Prod.fst = some none
        ∧ connector (setConnector pairLoaded 0 none) 0 = some none) :=
  ⟨by decide, releaseConnector_once pairLoaded id (by decide) 1 0⟩

/-- C19, the code at the failing input: on the forced ring of two fragments
that hold the payloads 10 and 20, `releaseConnector` called on fragment 0
returns payload 20 and leaves both fragments without payload: payload 10 has
been detached from fragment 0 and is not returned. -/
theorem releaseConnector_drops :
    IsRing ringLoaded id
      ∧ (ringLoaded 0).connector = some 10 ∧ (ringLoaded 1).connector = some 20
      ∧ (releaseConnector ringLoaded 0).map Prod.fst = some (some 20)
      ∧ (releaseConnector ringLoaded 0).map (fun r => (r.2 0).connector) = some none
      ∧ (releaseConnector ringLoaded 0).map (fun r => (r.2 1).connector) = some none := by
  decide

/-- C20 (salvage from a ring): on every ring of `N` fragments of which at
least one holds a payload, `releaseConnector` called on any member returns
a payload that a member held; its loop returns after exactly `N`
iterations (with fuel `N`, with no less), one for each fragment of the
ring, and leaves no member with a payload. -/
theorem releaseConnector_ring {n N : Nat} (h : Heap n) (f : Fin N → Fin n) (hr : IsRing h f)
    (hpay : ∃ k : Fin N, (h (f k)).connector ≠ none) (i : Fin N) :
    ∃ c h2, releaseConnector h (f i) = some (some c, h2)
      ∧ releaseLoop (f i) N h (f i) none = some (some c, h2)
      ∧ (∀ fuel, fuel < N → releaseLoop (f i) fuel h (f i) none = none)
      ∧ (∃ k : Fin N, (h (f k)).connector = some c)
      ∧ (∀ k : Fin N, (h2 (f k)).connector = none) := by
  obtain ⟨c2, h2, q0, q1, _, q3, q4, q5⟩ := hr.releaseLoop_eq i
  have hc2 : c2 ≠ none := q3 hpay
  obtain ⟨c, rfl⟩ : ∃ c, c2 = some c := by
    cases c2 with
    | none => exact absurd rfl hc2
    | some c => exact ⟨c, rfl⟩
  refine ⟨c, h2, ?_, q0, q5, q4 hc2, q1⟩
  unfold releaseConnector
  rw [hr.findFirst_none i]
  exact releaseLoop_mono (f i) N n h (f i) none _ q0 (card_le_of_injective hr.1)

/-- Witness for C20: the forced three-fragment ring in which fragment 1
holds payload 5, asked at fragment 0. -/
theorem releaseConnector_ring_witness :
    (IsRing ring3Loaded id ∧ (ring3Loaded 1).connector ≠ none)
      ∧ ∃ c h2, releaseConnector ring3Loaded 0 = some (some c, h2)
        ∧ releaseLoop 0 3 ring3Loaded 0 none = some (some c, h2)
        ∧ (∀ fuel, fuel < 3 → releaseLoop 0 fuel ring3Loaded 0 none = none)
        ∧ (∃ k : Fin 3, (ring3Loaded k).connector = some c)
        ∧ (∀ k : Fin 3, (h2 k).connector = none) :=
  ⟨⟨by decide, by decide⟩,
    releaseConnector_ring ring3Loaded id (by decide) ⟨1, by decide⟩ 0⟩

/-! ## Further properties of chains and of `connect` -/

/-- C24 (degenerate chain): an unlinked fragment that declares neither a
previous nor a next is a complete chain of length 1: `findFirst` and
`findLast` return the fragment itself, `start()` and `end()` return it, and
`finished()` is true. -/
theorem degenerate_chain {n : Nat} (h : Heap n) (x : Fin n)
    (hp : (h x).prev = none) (hn : (h x).next = none)
    (hdp : (h x).hasPrevious = false) (hdn : (h x).hasNext = false) :
    findFirst h x = some (some x) ∧ findLast h x = some (some x)
      ∧ start h x = some (some x) ∧ «end» h x = some (some x)
      ∧ finished h x = some true := by
  have hc : IsChain h (fun _ : Fin 1 => x) :=
    ⟨fun i j hij => by omega, fun _ _ => hp, fun _ _ => hn⟩
  have e1 : findFirst h x = some (some x) := hc.findFirst_eq 0
  have e2 : findLast h x = some (some x) := hc.findLast_eq 0
  refine ⟨e1, e2, ?_, ?_, ?_⟩
  · unfold start
    rw [e1]
    simp [hdp]
  · unfold «end»
    rw [e2]
    simp [hdn]
  · rw [finished_of_ends h x x x e1 e2, hdp, hdn]
    rfl

/-- Witness for C24: the single tie of `solo`. -/
theorem degenerate_chain_witness :
    ((solo 0).prev = none ∧ (solo 0).next = none
        ∧ (solo 0).hasPrevious = false ∧ (solo 0).hasNext = false)
      ∧ (findFirst solo 0 = some (some 0) ∧ findLast solo 0 = some (some 0)
        ∧ start solo 0 = some (some 0) ∧ «end» solo 0 = some (some 0)
        ∧ finished solo 0 = some true) :=
  ⟨by decide, degenerate_chain solo 0 (by decide) (by decide) (by decide) (by decide)⟩

/-- C26 (doubly-linked consistency under `connect`): in every state reached
from unlinked fragments by `connect` calls only, `x.next = y` iff
`y.prev = x`, for all fragments `x`, `y`. -/
theorem connect_doubly_linked {n : Nat} (h0 : Heap n) (calls : List (Fin n × Fin n))
    (hu : Unlinked h0) (x y : Fin n) :
    ((connectAll h0 calls) x).next = some y ↔ ((connectAll h0 calls) y).prev = some x :=
  (LinkInv.all calls h0 (LinkInv.init hu)).inverse x y

/-- Witness for C26: the three ties of `triple` after three `connect`
calls; fragment 1 is the next of 0 and 0 is the prev of 1. -/
theorem connect_doubly_linked_witness :
    Unlinked triple
      ∧ (((connectAll triple [(0, 2), (1, 0), (1, 2)]) 0).next = some 1
        ↔ ((connectAll triple [(0, 2), (1, 0), (1, 2)]) 1).prev = some 0)
      ∧ ((connectAll triple [(0, 2), (1, 0), (1, 2)]) 0).next = some 1 :=
  ⟨by decide, connect_doubly_linked triple [(0, 2), (1, 0), (1, 2)] (by decide) 0 1,
    by decide⟩

/-- C27 (links made by `connect` respect the declarations): in every state
reached from unlinked fragments by `connect` calls only, whenever
`x.next = y` then `x` declares a next, `y` declares a previous, they have
the same kind and the same score, `x.nextLoc == y.currentLoc` and
`y.prevLoc == x.currentLoc`. -/
theorem connect_links_declared {n : Nat} (h0 : Heap n) (calls : List (Fin n × Fin n))
    (hu : Unlinked h0) (x y : Fin n)
    (hxy : ((connectAll h0 calls) x).next = some y) :
    ((connectAll h0 calls) x).hasNext = true ∧ ((connectAll h0 calls) y).hasPrevious = true
      ∧ ((connectAll h0 calls) x).type = ((connectAll h0 calls) y).type
      ∧ ((connectAll h0 calls) x).score = ((connectAll h0 calls) y).score
      ∧ ((connectAll h0 calls) x).nextLoc = ((connectAll h0 calls) y).currentLoc
      ∧ ((connectAll h0 calls) y).prevLoc = ((connectAll h0 calls) x).currentLoc := by
  have inv : LinkInv h0 (connectAll h0 calls) := LinkInv.all calls h0 (LinkInv.init hu)
  obtain ⟨_, dt, ds, d1, d2, d3, d4⟩ := inv.next_decl x y hxy
  obtain ⟨tx, sx, cx, px, nx, hpx, hnx⟩ := static_fields _ _ _ _ (inv.static x)
  obtain ⟨ty, sy, cy, py, ny, hpy, hny⟩ := static_fields _ _ _ _ (inv.static y)
  refine ⟨?_, ?_, ?_, ?_, ?_, ?_⟩
  · rw [hnx]; exact d1
  · rw [hpy]; exact d2
  · rw [tx, ty]; exact dt
  · rw [sx, sy]; exact ds
  · rw [nx, cy]; exact d3
  · rw [py, cx]; exact d4.symm

/-- Witness for C27: in `triple` after three `connect` calls fragment 2 is
the next of fragment 1. -/
theorem connect_links_declared_witness :
    (Unlinked triple ∧ ((connectAll triple [(0, 2), (1, 0), (1, 2)]) 1).next = some 2)
      ∧ (((connectAll triple [(0, 2), (1, 0), (1, 2)]) 1).hasNext = true
        ∧ ((connectAll triple [(0, 2), (1, 0), (1, 2)]) 2).hasPrevious = true
        ∧ ((connectAll triple [(0, 2), (1, 0), (1, 2)]) 1).type
          = ((connectAll triple [(0, 2), (1, 0), (1, 2)]) 2).type
        ∧ ((connectAll triple [(0, 2), (1, 0), (1, 2)]) 1).score
          = ((connectAll triple [(0, 2), (1, 0), (1, 2)]) 2).score
        ∧ ((connectAll triple [(0, 2), (1, 0), (1, 2)]) 1).nextLoc
          = ((connectAll triple [(0, 2), (1, 0), (1, 2)]) 2).currentLoc
        ∧ ((connectAll triple [(0, 2), (1, 0), (1, 2)]) 2).prevLoc
          = ((connectAll triple [(0, 2), (1, 0), (1, 2)]) 1).currentLoc) :=
  ⟨by decide,
    connect_links_declared triple [(0, 2), (1, 0), (1, 2)] (by decide) 1 2 (by decide)⟩

/-- The first branch of `connect` for `(a, b)` is the second for `(b, a)`. -/
theorem connectsAsPrev_iff {n : Nat} (h : Heap n) (a b : Fin n) :
    connectsAsPrev h a b ↔ connectsAsNext h b a := by
  unfold connectsAsPrev connectsAsNext
  constructor
  · rintro ⟨⟨c1, c2, c3, c4⟩, c5, c6⟩
    exact ⟨⟨c3, c4, c1, c2⟩, c6.symm, c5.symm⟩
  · rintro ⟨⟨c1, c2, c3, c4⟩, c5, c6⟩
    exact ⟨⟨c3, c4, c1, c2⟩, c6.symm, c5.symm⟩

/-- Installing the link "`b` before `a`" from either side gives the same
state. -/
theorem install_comm {n : Nat} (h : Heap n) (a b : Fin n) (hab : a ≠ b) :
    setNext (setPrev h a (some b)) b (some a) = setPrev (setNext h b (some a)) a (some b) := by
  have hba : b ≠ a := fun e => hab e.symm
  funext x
  by_cases hxa : x = a
  · subst hxa
    rw [setNext_other _ _ _ _ hab, setPrev_same, setPrev_same, setNext_other _ _ _ _ hab]
  · by_cases hxb : x = b
    · subst hxb
      rw [setNext_same, setPrev_other _ _ _ _ hxa, setPrev_other _ _ _ _ hxa, setNext_same]
    · rw [setNext_other _ _ _ _ hxb, setPrev_other _ _ _ _ hxa, setPrev_other _ _ _ _ hxa,
        setNext_other _ _ _ _ hxb]

/-- The flag of `connect` does not depend on the argument order, and
unless both branches apply to `(a, b)` neither does the state afterwards. -/
theorem connect_swap {n : Nat} (h : Heap n) (a b : Fin n) :
    (connect h a (some b)).1 = (connect h b (some a)).1
      ∧ (¬ (connectsAsPrev h a b ∧ connectsAsNext h a b) →
        (connect h a (some b)).2 = (connect h b (some a)).2) := by
  by_cases hab : a = b
  · subst hab
    exact ⟨rfl, fun _ => rfl⟩
  have hba : b ≠ a := fun e => hab e.symm
  by_cases ht : (h a).type = (h b).type
  swap
  · have e1 : connect h a (some b) = (false, h) := by unfold connect; simp [hab, ht]
    have ht2 : ¬ (h b).type = (h a).type := fun e => ht e.symm
    have e2 : connect h b (some a) = (false, h) := by
      unfold connect; simp [hba, ht2]
    rw [e1, e2]
    exact ⟨rfl, fun _ => rfl⟩
  by_cases hs : (h a).score = (h b).score
  swap
  · have e1 : connect h a (some b) = (false, h) := by unfold connect; simp [hab, hs]
    have hs2 : ¬ (h b).score = (h a).score := fun e => hs e.symm
    have e2 : connect h b (some a) = (false, h) := by
      unfold connect; simp [hba, hs2]
    rw [e1, e2]
    exact ⟨rfl, fun _ => rfl⟩
  by_cases p : connectsAsPrev h a b <;> by_cases q : connectsAsNext h a b
  · -- both branches apply
    have e1 : connect h a (some b) = (true, setNext (setPrev h a (some b)) b (some a)) := by
      unfold connect; simp [hab, ht, hs, p]
    have e2 : connect h b (some a) = (true, setNext (setPrev h b (some a)) a (some b)) := by
      unfold connect; simp [hba, ht.symm, hs.symm, (connectsAsPrev_iff h b a).2 q]
    rw [e1, e2]
    exact ⟨rfl, fun hn => absurd ⟨p, q⟩ hn⟩
  · have q2 : ¬ connectsAsPrev h b a := fun x => q ((connectsAsPrev_iff h b a).1 x)
    have e1 : connect h a (some b) = (true, setNext (setPrev h a (some b)) b (some a)) := by
      unfold connect; simp [hab, ht, hs, p]
    have e2 : connect h b (some a) = (true, setPrev (setNext h b (some a)) a (some b)) := by
      unfold connect; simp [hba, ht.symm, hs.symm, q2, (connectsAsPrev_iff h a b).1 p]
    rw [e1, e2]
    exact ⟨rfl, fun _ => install_comm h a b hab⟩
  · have p2 : ¬ connectsAsNext h b a := fun x => p ((connectsAsPrev_iff h a b).2 x)
    have e1 : connect h a (some b) = (true, setPrev (setNext h a (some b)) b (some a)) := by
      unfold connect; simp [hab, ht, hs, p, q]
    have e2 : connect h b (some a) = (true, setNext (setPrev h b (some a)) a (some b)) := by
      unfold connect; simp [hba, ht.symm, hs.symm, (connectsAsPrev_iff h b a).2 q]
    rw [e1, e2]
    exact ⟨rfl, fun _ => (install_comm h b a hba).symm⟩
  · have p2 : ¬ connectsAsNext h b a := fun x => p ((connectsAsPrev_iff h a b).2 x)
    have q2 : ¬ connectsAsPrev h b a := fun x => q ((connectsAsPrev_iff h b a).1 x)
    have e1 : connect h a (some b) = (false, h) := by
      unfold connect; simp [hab, ht, hs, p, q]
    have e2 : connect h b (some a) = (false, h) := by
      unfold connect; simp [hba, ht.symm, hs.symm, p2, q2]
    rw [e1, e2]
    exact ⟨rfl, fun _ => rfl⟩

/-- C30 (success of `connect` does not depend on the argument order):
`a.connect(b)` returns true iff `b.connect(a)`, run from the same state,
returns true; and when exactly one of the two orderings matches, both calls
lead to the same state, so they install the same pair of links. -/
theorem connect_symmetric {n : Nat} (h : Heap n) (a b : Fin n) :
    ((connect h a (some b)).1 = true ↔ (connect h b (some a)).1 = true)
      ∧ (Xor' (orderingPrev h a b) (orderingNext h a b) →
        (connect h a (some b)).2 = (connect h b (some a)).2) := by
  obtain ⟨e, k⟩ := connect_swap h a b
  refine ⟨by rw [e], ?_⟩
  intro hx
  apply k
  rintro ⟨p, q⟩
  have op : orderingPrev h a b := ⟨p.1.1, p.1.2.2.1, p.2.1, p.2.2⟩
  have oq : orderingNext h a b := ⟨q.1.1, q.1.2.2.1, q.2.1, q.2.2⟩
  rcases hx with ⟨_, nq⟩ | ⟨_, np⟩
  · exact nq oq
  · exact np op

/-- Witness for C30: the declared two-fragment chain; only the ordering
"head before tail" matches, and both argument orders link head to tail. -/
theorem connect_symmetric_witness :
    Xor' (orderingPrev pair 0 1) (orderingNext pair 0 1)
      ∧ ((connect pair 0 (some 1)).1 = true ↔ (connect pair 1 (some 0)).1 = true)
      ∧ (connect pair 0 (some 1)).2 = (connect pair 1 (some 0)).2
      ∧ ((connect pair 1 (some 0)).2 0).next = some 1 :=
  ⟨by decide, (connect_symmetric pair 0 1).1, (connect_symmetric pair 0 1).2 (by decide),
    by decide⟩

/-! ## The `int` range of the distance -/

/-- When the differences themselves fit into an `int`, `distance` is the
formula of the spec reduced modulo 2^32. -/
theorem distance_wraps (l1 l2 : Location)
    (hnum : |l2.frac - l1.frac|.num * 1000 ≤ INT_MAX)
    (hm : |l2.measure - l1.measure| ≤ INT_MAX) (ht : |l2.track - l1.track| ≤ INT_MAX)
    (hn : |l2.note - l1.note| ≤ INT_MAX) (hg : |l2.graceIndex - l1.graceIndex| ≤ INT_MAX) :
    distance l1 l2 = wrap32 (distanceFormula l1 l2) := by
  have hq : (0 : ℚ) ≤ |l2.frac - l1.frac| := abs_nonneg _
  have hnn : 0 ≤ |l2.frac - l1.frac|.num := Rat.num_nonneg.2 hq
  have hM2 := neg_abs_le (l2.measure - l1.measure)
  have hT2 := neg_abs_le (l2.track - l1.track)
  have hN2 := neg_abs_le (l2.note - l1.note)
  have hG2 := neg_abs_le (l2.graceIndex - l1.graceIndex)
  have hM3 := le_abs_self (l2.measure - l1.measure)
  have hT3 := le_abs_self (l2.track - l1.track)
  have hN3 := le_abs_self (l2.note - l1.note)
  have hG3 := le_abs_self (l2.graceIndex - l1.graceIndex)
  unfold INT_MAX at hnum hm ht hn hg
  unfold distance distanceFormula posTerm
  simp only
  rw [wrap32_of_range (|l2.frac - l1.frac|.num * 1000) (by omega) hnum,
    tdiv_num_den _ hq,
    qAbs_wrap32 (l2.measure - l1.measure) (by omega) (by omega),
    qAbs_wrap32 (l2.track - l1.track) (by omega) (by omega),
    qAbs_wrap32 (l2.note - l1.note) (by omega) (by omega),
    qAbs_wrap32 (l2.graceIndex - l1.graceIndex) (by omega) (by omega)]
  generalize ⌊(1000 : ℚ) * |l2.frac - l1.frac|⌋ = F
  generalize |l2.measure - l1.measure| = M
  generalize |l2.track - l1.track| = T
  generalize |l2.note - l1.note| = Nn
  generalize |l2.graceIndex - l1.graceIndex| = G
  unfold wrap32
  omega

/-- The distance of a location from itself is 0. -/
theorem distance_self (l : Location) : distance l l = 0 := by
  have e : distanceFormula l l = 0 := by
    simp [distanceFormula, posTerm]
  rw [distance_eq_formula l l (by simp [INT_MAX]) (by rw [e]; decide), e]

/-- The distance between two locations that differ in measure only, for
every difference that fits into an `int`. -/
theorem distance_locAt (m1 m2 : Int) (hm : |m2 - m1| ≤ 2147483647) :
    distance (locAt m1) (locAt m2) = wrap32 (10000000 * |m2 - m1|) := by
  have e : distanceFormula (locAt m1) (locAt m2) = 10000000 * |m2 - m1| := by
    simp only [distanceFormula, posTerm, locAt, sub_self, abs_zero, mul_zero, Int.floor_zero]
    ring
  rw [distance_wraps _ _ (by simp [locAt, INT_MAX]) (by simpa [locAt, INT_MAX] using hm)
    (by simp [locAt, INT_MAX]) (by simp [locAt, INT_MAX]) (by simp [locAt, INT_MAX]), e]

/-- C29 (32-bit range of the distance): for every pair of locations 215 or
more measures apart the exact value of the formula exceeds `INT_MAX`, so the
`int` result differs from it; it is the exact value reduced modulo 2^32
when the differences themselves fit. For locations at most 214 measures
apart with all other deltas zero the result is 10000000 per measure, exact,
and lies from 0 to `INT_MAX - 1`. -/
theorem distance_range :
    (∀ l1 l2 : Location, 215 ≤ |l2.measure - l1.measure| →
        INT_MAX < distanceFormula l1 l2 ∧ distance l1 l2 ≠ distanceFormula l1 l2)
      ∧ (∀ l1 l2 : Location, 215 ≤ |l2.measure - l1.measure| →
        |l2.frac - l1.frac|.num * 1000 ≤ INT_MAX → |l2.measure - l1.measure| ≤ INT_MAX →
        |l2.track - l1.track| ≤ INT_MAX → |l2.note - l1.note| ≤ INT_MAX →
        |l2.graceIndex - l1.graceIndex| ≤ INT_MAX →
        distance l1 l2 = wrap32 (distanceFormula l1 l2))
      ∧ (∀ l1 l2 : Location, |l2.measure - l1.measure| ≤ 214 → l2.frac = l1.frac →
        l2.track = l1.track → l2.note = l1.note → l2.graceIndex = l1.graceIndex →
        distance l1 l2 = 10000000 * |l2.measure - l1.measure|
          ∧ 0 ≤ distance l1 l2 ∧ distance l1 l2 < INT_MAX) := by
  refine ⟨?_, ?_, ?_⟩
  · intro l1 l2 hm
    have hF : 0 ≤ ⌊(1000 : ℚ) * |l2.frac - l1.frac|⌋ := Int.floor_nonneg.2 (by positivity)
    have hT := abs_nonneg (l2.track - l1.track)
    have hN := abs_nonneg (l2.note - l1.note)
    have hG := abs_nonneg (l2.graceIndex - l1.graceIndex)
    have big : INT_MAX < distanceFormula l1 l2 := by
      unfold distanceFormula posTerm INT_MAX
      omega
    refine ⟨big, ?_⟩
    intro e
    have := distance_le l1 l2
    omega
  · intro l1 l2 _ hnum hm ht hn hg
    exact distance_wraps l1 l2 hnum hm ht hn hg
  · intro l1 l2 hm hf ht hn hg
    have hM := abs_nonneg (l2.measure - l1.measure)
    have e : distanceFormula l1 l2 = 10000000 * |l2.measure - l1.measure| := by
      simp only [distanceFormula, posTerm, hf, ht, hn, hg, sub_self, abs_zero, mul_zero,
        Int.floor_zero]
      ring
    have d : distance l1 l2 = 10000000 * |l2.measure - l1.measure| := by
      rw [distance_eq_formula l1 l2 (by simp [hf, INT_MAX]) (by rw [e]; unfold INT_MAX; omega), e]
    rw [d]
    unfold INT_MAX
    exact ⟨rfl, by omega, by omega⟩

/-- Witness for C29: 215 measures apart the result is -2144967296, which
is 2150000000 reduced modulo 2^32; 214 measures apart it is 2140000000. -/
theorem distance_range_witness :
    (215 ≤ |(locAt 215).measure - (locAt 0).measure|
        ∧ |(locAt 214).measure - (locAt 0).measure| ≤ 214)
      ∧ (INT_MAX < distanceFormula (locAt 0) (locAt 215)
        ∧ distance (locAt 0) (locAt 215) ≠ distanceFormula (locAt 0) (locAt 215))
      ∧ distance (locAt 0) (locAt 215) = wrap32 (distanceFormula (locAt 0) (locAt 215))
      ∧ (distance (locAt 0) (locAt 214) = 10000000 * |(locAt 214).measure - (locAt 0).measure|
        ∧ 0 ≤ distance (locAt 0) (locAt 214) ∧ distance (locAt 0) (locAt 214) < INT_MAX) :=
  have h1 : 215 ≤ |(locAt 215).measure - (locAt 0).measure| := by norm_num [locAt]
  have h2 : |(locAt 214).measure - (locAt 0).measure| ≤ 214 := by norm_num [locAt]
  ⟨⟨h1, h2⟩, distance_range.1 (locAt 0) (locAt 215) h1,
    distance_range.2.1 (locAt 0) (locAt 215) h1 (by simp [locAt, INT_MAX])
      (by norm_num [locAt, INT_MAX]) (by simp [locAt, INT_MAX]) (by simp [locAt, INT_MAX])
      (by simp [locAt, INT_MAX]),
    distance_range.2.2 (locAt 0) (locAt 214) h2 rfl rfl rfl rfl⟩

/-! ## `connectionDistance` against `connect`, and its symmetry -/

/-- A pair that passes the second branch of `connect` is a matched
ordering whose score is the distance of a location from itself. -/
theorem matched_of_asNext {n : Nat} (h : Heap n) (a b : Fin n) (c : connectsAsNext h a b) :
    orderMatched h a b ∧ distance (h a).nextLoc (h b).currentLoc = 0 := by
  obtain ⟨⟨c1, c2, c3, c4⟩, c5, c6⟩ := c
  refine ⟨⟨⟨c1, c2, c3, c4⟩, ?_⟩, ?_⟩
  · unfold offsetsAgree
    rw [c5, c6]
  · rw [c5]
    exact distance_self _

/-- Without overflow (non-negative scores of the matched orderings),
`connectionDistance` is 0 whenever `connect` would succeed. -/
theorem connectionDistance_of_connect {n : Nat} (h : Heap n) (a b : Fin n)
    (hc : (connect h a (some b)).1 = true)
    (hab : orderMatched h a b → 0 ≤ distance (h a).nextLoc (h b).currentLoc)
    (hba : orderMatched h b a → 0 ≤ distance (h b).nextLoc (h a).currentLoc) :
    connectionDistance h a b = 0 := by
  have nn1 : 0 ≤ matchedDistance h a b := by
    unfold matchedDistance
    split
    · rename_i m; exact hab m
    · decide
  have nn2 : 0 ≤ matchedDistance h b a := by
    unfold matchedDistance
    split
    · rename_i m; exact hba m
    · decide
  rcases connect_cases h a b with ⟨e, _⟩ | ⟨_, ht, hs, p, _⟩ | ⟨_, ht, hs, _, q, _⟩
  · rw [e] at hc; simp at hc
  · have hts : ¬ ((h a).type ≠ (h b).type ∨ (h a).score ≠ (h b).score) := by simp [ht, hs]
    obtain ⟨m, d⟩ := matched_of_asNext h b a ((connectsAsPrev_iff h a b).1 p)
    have e2 : matchedDistance h b a = 0 := by
      unfold matchedDistance; rw [if_pos m, d]
    rw [connectionDistance_eq, if_neg hts, e2]
    split
    · rfl
    · omega
  · have hts : ¬ ((h a).type ≠ (h b).type ∨ (h a).score ≠ (h b).score) := by simp [ht, hs]
    obtain ⟨m, d⟩ := matched_of_asNext h a b q
    have e1 : matchedDistance h a b = 0 := by
      unfold matchedDistance; rw [if_pos m, d]
    rw [connectionDistance_eq, if_neg hts, e1]
    split
    · omega
    · rfl

/-- Without overflow (non-negative scores), for fragments of one kind and
score, `connectionDistance` is antisymmetric up to ties. -/
theorem connectionDistance_antisymm {n : Nat} (h : Heap n) (a b : Fin n)
    (hk : (h a).type = (h b).type) (hs : (h a).score = (h b).score)
    (h1 : 0 ≤ matchedDistance h a b) (h2 : 0 ≤ matchedDistance h b a) :
    |connectionDistance h a b| = min (matchedDistance h a b) (matchedDistance h b a)
      ∧ |connectionDistance h b a| = min (matchedDistance h a b) (matchedDistance h b a)
      ∧ (matchedDistance h a b ≠ matchedDistance h b a →
        connectionDistance h a b = -connectionDistance h b a)
      ∧ (matchedDistance h a b = matchedDistance h b a →
        connectionDistance h a b = connectionDistance h b a ∧ 0 ≤ connectionDistance h a b) := by
  have hts : ¬ ((h a).type ≠ (h b).type ∨ (h a).score ≠ (h b).score) := by simp [hk, hs]
  have hts2 : ¬ ((h b).type ≠ (h a).type ∨ (h b).score ≠ (h a).score) := by simp [hk, hs]
  have l1 := matchedDistance_le h a b
  have l2 := matchedDistance_le h b a
  unfold INT_MAX at l1 l2
  rw [connectionDistance_eq h a b, connectionDistance_eq h b a, if_neg hts, if_neg hts2]
  generalize matchedDistance h a b = d1 at h1 l1 ⊢
  generalize matchedDistance h b a = d2 at h2 l2 ⊢
  have w1 : wrap32 (-d1) = -d1 := wrap32_of_range _ (by omega) (by omega)
  have w2 : wrap32 (-d2) = -d2 := wrap32_of_range _ (by omega) (by omega)
  rw [w1, w2]
  rcases lt_trichotomy d1 d2 with c | c | c
  · rw [if_neg (by omega), if_pos c, abs_neg, abs_of_nonneg h1, min_eq_left (by omega)]
    exact ⟨rfl, rfl, fun _ => by omega, fun e => by omega⟩
  · subst c
    rw [if_neg (by omega), abs_of_nonneg h1, min_self]
    exact ⟨rfl, rfl, fun e => absurd rfl e, fun _ => ⟨rfl, h1⟩⟩
  · rw [if_pos c, if_neg (by omega), abs_neg, abs_of_nonneg h2, min_eq_right (by omega)]
    exact ⟨rfl, rfl, fun _ => by omega, fun e => by omega⟩

/-- The scores of the two orderings of `zeroAndFar`. -/
theorem matchedDistance_zeroAndFar :
    matchedDistance zeroAndFar 0 1 = -2144967296 ∧ matchedDistance zeroAndFar 1 0 = 0 := by
  constructor
  · have m : orderMatched zeroAndFar 0 1 := by
      refine ⟨by decide, ?_⟩
      show (locAt 515).toRelative (locAt 300) = (locAt 300).toRelative (locAt 85)
      rw [toRelative_locAt, toRelative_locAt]
      norm_num
    have d : distance (locAt 515) (locAt 300) = -2144967296 := by
      rw [distance_locAt 515 300 (by norm_num)]
      norm_num [wrap32]
    unfold matchedDistance
    rw [if_pos m]
    exact d
  · have m : orderMatched zeroAndFar 1 0 := by
      refine ⟨by decide, ?_⟩
      show (locAt 300).toRelative (locAt 300) = (locAt 300).toRelative (locAt 300)
      rfl
    unfold matchedDistance
    rw [if_pos m]
    exact distance_self _

/-- C25, the code at the failing input: two ties in measure 300 of which
fragment 0 declares its previous where fragment 1 is and fragment 1 declares
its next where fragment 0 is, so `f0.connect(f1)` returns true; the other
ordering matches as well, 215 measures apart, its distance overflows to
-2144967296, and that is what `f0.connectionDistance(f1)` returns, not 0. -/
theorem connectionDistance_not_zero :
    (connect zeroAndFar 0 (some 1)).1 = true
      ∧ connectionDistance zeroAndFar 0 1 = -2144967296 := by
  refine ⟨by decide, ?_⟩
  have ht : ¬ ((zeroAndFar 0).type ≠ (zeroAndFar 1).type
      ∨ (zeroAndFar 0).score ≠ (zeroAndFar 1).score) := by decide
  rw [connectionDistance_eq, if_neg ht, matchedDistance_zeroAndFar.1,
    matchedDistance_zeroAndFar.2]
  norm_num

/-- The scores of the two orderings of `farApart`. -/
theorem matchedDistance_farApart :
    matchedDistance farApart 0 1 = -2144967296 ∧ matchedDistance farApart 1 0 = INT_MAX := by
  constructor
  · have m : orderMatched farApart 0 1 := by
      refine ⟨by decide, ?_⟩
      show (locAt 2).toRelative (locAt 1) = (locAt 217).toRelative (locAt 216)
      rw [toRelative_locAt, toRelative_locAt]
      norm_num
    have d : distance (locAt 2) (locAt 217) = -2144967296 := by
      rw [distance_locAt 2 217 (by norm_num)]
      norm_num [wrap32]
    unfold matchedDistance
    rw [if_pos m]
    exact d
  · have m : ¬ orderMatched farApart 1 0 := by decide
    unfold matchedDistance
    rw [if_neg m]

/-- C28, the code at the failing input: two ties of one score whose offsets
agree, the declared next of the first 215 measures before the second. The
ordered distance "0 before 1" overflows to -2144967296, the other is
`INT_MAX`; `f0.connectionDistance(f1)` is -2144967296 and
`f1.connectionDistance(f0)` is 2144967296: their absolute value is not the
minimum of the two ordered distances, and the result at fragment 0 is
negative although the matched ordering is "0 before 1". -/
theorem connectionDistance_not_min :
    matchedDistance farApart 0 1 = -2144967296 ∧ matchedDistance farApart 1 0 = INT_MAX
      ∧ connectionDistance farApart 0 1 = -2144967296
      ∧ connectionDistance farApart 1 0 = 2144967296
      ∧ |connectionDistance farApart 0 1|
        ≠ min (matchedDistance farApart 0 1) (matchedDistance farApart 1 0) := by
  have ht : ¬ ((farApart 0).type ≠ (farApart 1).type
      ∨ (farApart 0).score ≠ (farApart 1).score) := by decide
  have ht2 : ¬ ((farApart 1).type ≠ (farApart 0).type
      ∨ (farApart 1).score ≠ (farApart 0).score) := by decide
  have c1 : connectionDistance farApart 0 1 = -2144967296 := by
    rw [connectionDistance_eq, if_neg ht, matchedDistance_farApart.1, matchedDistance_farApart.2]
    norm_num [INT_MAX]
  have c2 : connectionDistance farApart 1 0 = 2144967296 := by
    rw [connectionDistance_eq, if_neg ht2, matchedDistance_farApart.1,
      matchedDistance_farApart.2]
    norm_num [INT_MAX, wrap32]
  refine ⟨matchedDistance_farApart.1, matchedDistance_farApart.2, c1, c2, ?_⟩
  rw [c1, matchedDistance_farApart.1, matchedDistance_farApart.2]
  norm_num [INT_MAX]

/-! ## Writing a fragment and the round trip of locations -/

/-- C22 (writer asymmetry): for a fragment that the write context allows to
be written, `write` emits the payload element iff the fragment declares no
previous (a self-contained fragment included), a `prev` location block iff
it declares a previous and a `next` block iff it declares a next, in the
order payload, prev, next. -/
theorem write_asymmetry {n : Nat} (canWrite : EngravingItem → Bool) (c : EngravingItem)
    (r : ConnectorInfo n) (hw : canWrite c = true) :
    (write canWrite c r).1
        = [XmlToken.startConnector r.type]
          ++ (if r.hasPrevious = false then [XmlToken.payload c] else [])
          ++ (if r.hasPrevious = true then
              [XmlToken.startObject "prev", XmlToken.location (r.prevLoc.toRelative r.currentLoc),
                XmlToken.endObject]
            else [])
          ++ (if r.hasNext = true then
              [XmlToken.startObject "next", XmlToken.location (r.nextLoc.toRelative r.currentLoc),
                XmlToken.endObject]
            else [])
          ++ [XmlToken.endObject]
      ∧ (XmlToken.payload c ∈ (write canWrite c r).1 ↔ r.hasPrevious = false)
      ∧ (XmlToken.startObject "prev" ∈ (write canWrite c r).1 ↔ r.hasPrevious = true)
      ∧ (XmlToken.startObject "next" ∈ (write canWrite c r).1 ↔ r.hasNext = true) := by
  cases hp : r.hasPrevious <;> cases hn : r.hasNext <;>
    simp [write, isStart, hw, hp, hn]

/-- Witness for C22: the self-contained tie of `solo`, written with payload
7: the payload is emitted, no `prev` and no `next` block. -/
theorem write_asymmetry_witness :
    (solo 0).hasPrevious = false ∧ (solo 0).hasNext = false
      ∧ (write (fun _ => true) 7 (solo 0)).1
        = [XmlToken.startConnector 1, XmlToken.payload 7, XmlToken.endObject]
      ∧ (XmlToken.payload 7 ∈ (write (fun _ => true) 7 (solo 0)).1
        ↔ (solo 0).hasPrevious = false) :=
  ⟨by decide, by decide, (write_asymmetry (fun _ => true) 7 (solo 0) rfl).1,
    (write_asymmetry (fun _ => true) 7 (solo 0) rfl).2.1⟩

/-- Making a relative location absolute and relative again, against the
same absolute reference, gives it back. -/
theorem toRelative_toAbsolute (ref loc : Location) (hr : ref.mode = .absolute)
    (hl : loc.mode = .relative) : (loc.toAbsolute ref).toRelative ref = loc := by
  obtain ⟨m, f, t, nt, g, md⟩ := loc
  simp only at hl
  subst hl
  simp [Location.toAbsolute, Location.toRelative, hr]

/-- Making an absolute location relative and absolute again, against the
same absolute reference, gives it back. -/
theorem toAbsolute_toRelative (ref loc : Location) (hr : ref.mode = .absolute)
    (hl : loc.mode = .absolute) : (loc.toRelative ref).toAbsolute ref = loc := by
  obtain ⟨m, f, t, nt, g, md⟩ := loc
  simp only at hl
  subst hl
  simp [Location.toAbsolute, Location.toRelative, hr]

/-- What `update` does to the declarations: the flags stay, and a declared
previous or next location is made absolute against the current location
that `update` leaves. -/
theorem update_fields {n : Nat} (env : ReaderEnv) (pm : Bool) (r : ConnectorInfo n) :
    (update env pm r).hasPrevious = r.hasPrevious ∧ (update env pm r).hasNext = r.hasNext
      ∧ (update env pm r).prevLoc
        = (if r.hasPrevious = true then r.prevLoc.toAbsolute (update env pm r).currentLoc
          else r.prevLoc)
      ∧ (update env pm r).nextLoc
        = (if r.hasNext = true then r.nextLoc.toAbsolute (update env pm r).currentLoc
          else r.nextLoc) := by
  cases hp : r.hasPrevious <;> cases hn : r.hasNext <;> cases hu : r.currentUpdated <;>
    cases hc : r.current <;>
    simp [update, updateCurrentInfo, hp, hn, hu, hc]

/-- C23 (location round trip): for every absolute reference `ref`,
`loc.toAbsolute(ref).toRelative(ref) == loc` for every relative `loc`, and
`loc.toRelative(ref).toAbsolute(ref) == loc` for every absolute `loc`.
Consequently a declared relative prev/next location that `update` has made
absolute against an absolute `currentLoc` is written by `write` as the
same relative location. -/
theorem location_round_trip :
    (∀ ref loc : Location, ref.mode = .absolute → loc.mode = .relative →
        (loc.toAbsolute ref).toRelative ref = loc)
      ∧ (∀ ref loc : Location, ref.mode = .absolute → loc.mode = .absolute →
        (loc.toRelative ref).toAbsolute ref = loc)
      ∧ (∀ (n : Nat) (env : ReaderEnv) (pm : Bool) (canWrite : EngravingItem → Bool)
          (c : EngravingItem) (r : ConnectorInfo n),
        canWrite c = true → (update env pm r).currentLoc.mode = .absolute →
        (r.hasPrevious = true → r.prevLoc.mode = .relative →
            (write canWrite c (update env pm r)).2.prevLoc = r.prevLoc
              ∧ XmlToken.location r.prevLoc ∈ (write canWrite c (update env pm r)).1)
          ∧ (r.hasNext = true → r.nextLoc.mode = .relative →
            (write canWrite c (update env pm r)).2.nextLoc = r.nextLoc
              ∧ XmlToken.location r.nextLoc ∈ (write canWrite c (update env pm r)).1)) := by
  refine ⟨toRelative_toAbsolute, toAbsolute_toRelative, ?_⟩
  intro n env pm canWrite c r hw hcl
  obtain ⟨e1, e2, e3, e4⟩ := update_fields env pm r
  have w := (write_asymmetry canWrite c (update env pm r) hw).1
  constructor
  · intro hp hl
    rw [hp] at e1
    rw [if_pos hp] at e3
    have back : (update env pm r).prevLoc.toRelative (update env pm r).currentLoc = r.prevLoc := by
      rw [e3]; exact toRelative_toAbsolute _ _ hcl hl
    constructor
    · cases hn : (update env pm r).hasNext <;> simp [write, hw, e1, hn, back]
    · rw [w, e1, back]
      simp
  · intro hn hl
    rw [hn] at e2
    rw [if_pos hn] at e4
    have back : (update env pm r).nextLoc.toRelative (update env pm r).currentLoc = r.nextLoc := by
      rw [e4]; exact toRelative_toAbsolute _ _ hcl hl
    constructor
    · cases hp : (update env pm r).hasPrevious <;> simp [write, hw, e2, hp, back]
    · rw [w, e2, back]
      simp

/-- Witness for C23: a relative location against the absolute reference in
measure 3, and the fragment `asRead` updated and written. -/
theorem location_round_trip_witness :
    ((locAt 3).mode = .absolute ∧ (relLoc 1).mode = .relative
        ∧ ((relLoc 1).toAbsolute (locAt 3)).toRelative (locAt 3) = relLoc 1)
      ∧ ((update tieEnv false asRead).currentLoc.mode = .absolute
        ∧ asRead.hasPrevious = true ∧ asRead.prevLoc.mode = .relative
        ∧ (write (fun _ => true) 7 (update tieEnv false asRead)).2.prevLoc = asRead.prevLoc
        ∧ XmlToken.location asRead.prevLoc
          ∈ (write (fun _ => true) 7 (update tieEnv false asRead)).1) :=
  have hc : (update tieEnv false asRead).currentLoc.mode = .absolute := by decide
  have w := (location_round_trip.2.2 1 tieEnv false (fun _ => true) 7 asRead rfl hc).1
    (by decide) (by decide)
  ⟨⟨by decide, by decide, location_round_trip.1 (locAt 3) (relLoc 1) (by decide) (by decide)⟩,
    hc, by decide, by decide, w.1, w.2⟩

/-! ## Submission of a fragment: `read`, `readConnector` -/

/-- Once the payload exists and the type name can be created, the loop of
`read` does not fail any more. -/
theorem readChildren_ok {n : Nat} (env : ReaderEnv) (name : String)
    (hcreate : env.createItemByName name ≠ none) :
    ∀ (cs : List XmlChild) (r : ConnectorInfo n), r.connector ≠ none →
      (readChildren env name cs r).1 = true := by
  intro cs
  induction cs with
  | nil => intro r _; rfl
  | cons c cs ih =>
    intro r hr
    unfold readChildren
    by_cases h1 : c.tag = "prev"
    · rw [if_pos h1]
      exact ih _ hr
    rw [if_neg h1]
    by_cases h2 : c.tag = "next"
    · rw [if_pos h2]
      exact ih _ hr
    rw [if_neg h2]
    by_cases h3 : c.tag = name
    · have hc : env.createItemByName c.tag ≠ none := by rw [h3]; exact hcreate
      simp only [h3, if_true]
      rw [h3] at hc
      simp only [hc, if_false]
      exact ih _ hc
    · simp only [h3, if_false, hr]
      exact ih _ hr

/-- The loop of `read`, entered without payload, fails exactly when the
first child element other than `prev` and `next` is not named like the
connector type or cannot be created. -/
theorem readChildren_fails {n : Nat} (env : ReaderEnv) (name : String) :
    ∀ (cs : List XmlChild) (r : ConnectorInfo n), r.connector = none →
      ((readChildren env name cs r).1 = false ↔
        ∃ pre c post, cs = pre ++ c :: post
          ∧ (∀ p ∈ pre, p.tag = "prev" ∨ p.tag = "next")
          ∧ c.tag ≠ "prev" ∧ c.tag ≠ "next"
          ∧ (c.tag ≠ name ∨ env.createItemByName c.tag = none)) := by
  intro cs
  induction cs with
  | nil =>
    intro r _
    simp [readChildren]
  | cons c cs ih =>
    intro r hr
    -- a decomposition of the tail gives one of the whole list, and back
    have skip : (c.tag = "prev" ∨ c.tag = "next") →
        ((∃ pre c2 post, c :: cs = pre ++ c2 :: post
            ∧ (∀ p ∈ pre, p.tag = "prev" ∨ p.tag = "next")
            ∧ c2.tag ≠ "prev" ∧ c2.tag ≠ "next"
            ∧ (c2.tag ≠ name ∨ env.createItemByName c2.tag = none))
          ↔ ∃ pre c2 post, cs = pre ++ c2 :: post
            ∧ (∀ p ∈ pre, p.tag = "prev" ∨ p.tag = "next")
            ∧ c2.tag ≠ "prev" ∧ c2.tag ≠ "next"
            ∧ (c2.tag ≠ name ∨ env.createItemByName c2.tag = none)) := by
      intro hc
      constructor
      · rintro ⟨pre, c2, post, e, hpre, n1, n2, hbad⟩
        cases pre with
        | nil =>
          simp only [List.nil_append, List.cons.injEq] at e
          rw [← e.1] at n1 n2
          rcases hc with x | x
          · exact absurd x n1
          · exact absurd x n2
        | cons p pre =>
          simp only [List.cons_append, List.cons.injEq] at e
          exact ⟨pre, c2, post, e.2, fun q hq => hpre q (List.mem_cons_of_mem _ hq), n1, n2,
            hbad⟩
      · rintro ⟨pre, c2, post, e, hpre, n1, n2, hbad⟩
        refine ⟨c :: pre, c2, post, by rw [e]; rfl, ?_, n1, n2, hbad⟩
        intro q hq
        rcases List.mem_cons.1 hq with x | x
        · rw [x]; exact hc
        · exact hpre q x
    unfold readChildren
    by_cases h1 : c.tag = "prev"
    · rw [if_pos h1, skip (Or.inl h1)]
      exact ih _ hr
    rw [if_neg h1]
    by_cases h2 : c.tag = "next"
    · rw [if_pos h2, skip (Or.inr h2)]
      exact ih _ hr
    rw [if_neg h2]
    by_cases h3 : c.tag = name
    · by_cases h4 : env.createItemByName c.tag = none
      · simp only [h3, if_true]
        rw [h3] at h4
        simp only [h4, if_true, true_iff]
        exact ⟨[], c, cs, rfl, fun p hp => absurd hp (List.not_mem_nil p), h1, h2,
          Or.inr (by rw [h3]; exact h4)⟩
      · have hcreate : env.createItemByName name ≠ none := by rw [← h3]; exact h4
        simp only [h3, if_true]
        simp only [hcreate, if_false]
        rw [readChildren_ok env name hcreate cs _ hcreate]
        simp only [Bool.true_eq_false, false_iff]
        rintro ⟨pre, c2, post, e, hpre, n1, n2, hbad⟩
        cases pre with
        | nil =>
          simp only [List.nil_append, List.cons.injEq] at e
          rw [← e.1] at hbad
          rcases hbad with x | x
          · exact x h3
          · exact h4 x
        | cons p pre =>
          simp only [List.cons_append, List.cons.injEq] at e
          have := hpre p (List.mem_cons_self _ _)
          rw [← e.1] at this
          rcases this with x | x
          · exact h1 x
          · exact h2 x
    · simp only [h3, if_false, hr, if_true, true_iff]
      exact ⟨[], c, cs, rfl, fun p hp => absurd hp (List.not_mem_nil p), h1, h2, Or.inl h3⟩

/-- C21, counterexample: a connector element of type "Tie" whose payload
element is named "Slur": `read` returns false and `readConnector` leaves the
pending connectors as they were; the fragment is not enqueued. -/
theorem readConnector_counterexample :
    (read tieEnv mismatchedXml fresh).1 = false
      ∧ (readConnector tieEnv mismatchedXml fresh oneWaiting).pendingConnectors
        = oneWaiting.pendingConnectors
      ∧ (readConnector tieEnv mismatchedXml fresh oneWaiting).pendingConnectors.length = 1 := by
  have e : (read tieEnv mismatchedXml fresh).1 = false := by decide
  refine ⟨e, ?_, ?_⟩
  · unfold readConnector
    rw [if_pos e]
  · unfold readConnector
    rw [if_pos e]
    rfl

/-- C21, amended: `readConnector` appends the fragment, as `read` has filled
it, to the pending connectors after all earlier ones exactly when `read`
returns true. When `read` returns false the read context is left as it was
and the fragment is discarded; for a fragment without payload this happens
exactly when the first child element other than `prev` and `next` is not
named like the connector type or cannot be created. -/
theorem readConnector_pending {n : Nat} (env : ReaderEnv) (x : ConnectorXml)
    (info : ConnectorInfo n) (ctx : ReadContext n) :
    ((read env x info).1 = true →
        (readConnector env x info ctx).pendingConnectors
            = ctx.pendingConnectors ++ [(read env x info).2]
          ∧ (readConnector env x info ctx).connectors = ctx.connectors)
      ∧ ((read env x info).1 = false → readConnector env x info ctx = ctx)
      ∧ (info.connector = none →
        ((read env x info).1 = false ↔
          ∃ pre c post, x.children = pre ++ c :: post
            ∧ (∀ p ∈ pre, p.tag = "prev" ∨ p.tag = "next")
            ∧ c.tag ≠ "prev" ∧ c.tag ≠ "next"
            ∧ (c.tag ≠ x.typeName ∨ env.createItemByName c.tag = none))) := by
  refine ⟨?_, ?_, ?_⟩
  · intro h
    unfold readConnector
    rw [if_neg (by rw [h]; decide)]
    exact ⟨rfl, rfl⟩
  · intro h
    unfold readConnector
    rw [if_pos h]
  · intro hc
    unfold read
    exact readChildren_fails env x.typeName x.children _ hc

/-- Witness for C21 (amended): a well-formed "Tie" element is read and
appended behind the fragment already pending. -/
theorem readConnector_pending_witness :
    (read tieEnv tieXml fresh).1 = true
      ∧ ((readConnector tieEnv tieXml fresh oneWaiting).pendingConnectors
          = oneWaiting.pendingConnectors ++ [(read tieEnv tieXml fresh).2]
        ∧ (readConnector tieEnv tieXml fresh oneWaiting).connectors = oneWaiting.connectors)
      ∧ (read tieEnv tieXml fresh).2.connector = some 7 :=
  have e : (read tieEnv tieXml fresh).1 = true := by decide
  ⟨e, (readConnector_pending tieEnv tieXml fresh oneWaiting).1 e, by decide⟩

/-! ## Termination of `findFirst` and `findLast` -/

/-- Installing the link from `a` to `b` on open slots keeps next and prev
mutually inverse. -/
theorem LinksInverse.install {n : Nat} {h : Heap n} (inv : LinksInverse h) (a b : Fin n)
    (ha : (h a).next = none) (hb : (h b).prev = none) :
    LinksInverse (setPrev (setNext h a (some b)) b (some a)) := by
  intro x y
  rw [setPrev_next, setNext_next, setPrev_prev, setNext_prev]
  by_cases hx : x = a
  · by_cases hy : y = b
    · simp [hx, hy]
    · subst hx
      have hn : ¬ (h y).prev = some x := fun e => by
        rw [(inv x y).2 e] at ha; cases ha
      have hy2 : ¬ b = y := fun e => hy e.symm
      simp [hy, hn, hy2]
  · by_cases hy : y = b
    · subst hy
      have hn : ¬ (h x).next = some y := fun e => by
        rw [(inv x y).1 e] at hb; cases hb
      have hx2 : ¬ a = x := fun e => hx e.symm
      simp [hx, hn, hx2]
    · simp only [hx, hy, if_false]
      exact inv x y

/-- One linking call that writes open slots only keeps next and prev mutually
inverse. -/
theorem LinksInverse.linkStep_keeps {n : Nat} {h : Heap n} (inv : LinksInverse h) (c : LinkCall n)
    (ho : onOpenSlots h c) : LinksInverse (linkStep h c) := by
  cases c with
  | connect a b =>
    cases b with
    | none => exact inv
    | some b =>
      show LinksInverse (connect h a (some b)).2
      rcases connect_cases h a b with ⟨e, _⟩ | ⟨hab, _, _, h1, e⟩ | ⟨_, _, _, _, h2, e⟩
      · rw [e]; exact inv
      · rw [e, install_comm h a b hab]
        exact inv.install b a h1.1.2.2.2 h1.1.2.1
      · rw [e]
        exact inv.install a b h2.1.2.1 h2.1.2.2.2
  | forceConnect a b =>
    cases b with
    | none => exact inv
    | some b =>
      show LinksInverse (forceConnect h a (some b))
      unfold forceConnect
      by_cases hab : a = b
      · simpa [hab] using inv
      · simp only [hab, if_false]
        exact inv.install a b ho.1 ho.2

/-- Linking calls that write open slots only keep next and prev mutually
inverse. -/
theorem LinksInverse.linkAll_keeps {n : Nat} :
    ∀ (calls : List (LinkCall n)) (h : Heap n), LinksInverse h → ForcedOnOpenSlots h calls →
      LinksInverse (linkAll h calls) := by
  intro calls
  induction calls with
  | nil => intro h inv _; exact inv
  | cons c cs ih =>
    intro h inv ho
    exact ih (linkStep h c) (inv.linkStep_keeps c ho.1) ho.2

/-- Whatever the loop returns as a fragment has no link. -/
theorem findLoop_result {n : Nat} (link : Fin n → Option (Fin n)) (t : Fin n) :
    ∀ (k : Nat) (x a : Fin n), findLoop link t k x = some (some a) → link a = none := by
  intro k
  induction k with
  | zero => intro x a hk; simp [findLoop] at hk
  | succ k ih =>
    intro x a hk
    unfold findLoop at hk
    cases hl : link x with
    | none =>
      simp only [hl] at hk
      have e : x = a := Option.some.inj (Option.some.inj hk)
      rw [← e]; exact hl
    | some p =>
      simp only [hl] at hk
      by_cases hp : p = t
      · simp [hp] at hk
      · simp only [hp, if_false] at hk
        exact ih p a hk

/-- When no two fragments have the same link, the walk from `t` visits a
new fragment at every iteration until it returns: with the fragments of `S`
visited and `x` the last of them, the fuel left over by `S` is enough. -/
theorem findLoop_returns {n : Nat} (link : Fin n → Option (Fin n)) (t : Fin n)
    (hinj : ∀ x y p, link x = some p → link y = some p → x = y) :
    ∀ (k : Nat) (S : Finset (Fin n)) (x : Fin n), S.card + k = n + 1 → x ∈ S →
      (∀ y ∈ S, y ≠ t → ∃ z ∈ S, z ≠ x ∧ link z = some y) →
      (findLoop link t k x).isSome = true := by
  intro k
  induction k with
  | zero =>
    intro S x hc _ _
    have hle := Finset.card_le_univ S
    simp at hle
    omega
  | succ k ih =>
    intro S x hc hx hS
    unfold findLoop
    cases hl : link x with
    | none => rfl
    | some p =>
      simp only
      by_cases hp : p = t
      · simp [hp]
      · simp only [hp, if_false]
        have hpS : p ∉ S := by
          intro hin
          obtain ⟨z, _, hzx, hz⟩ := hS p hin hp
          exact hzx (hinj z x p hz hl)
        refine ih (insert p S) p ?_ (Finset.mem_insert_self p S) ?_
        · rw [Finset.card_insert_of_not_mem hpS]; omega
        · intro y hy hyt
          rcases Finset.mem_insert.1 hy with e | hyS
          · subst e
            exact ⟨x, Finset.mem_insert_of_mem hx, fun e => hpS (e ▸ hx), hl⟩
          · obtain ⟨z, hzS, _, hz⟩ := hS y hyS hyt
            exact ⟨z, Finset.mem_insert_of_mem hzS, fun e => hpS (e ▸ hzS), hz⟩

/-- When no two fragments have the same link, the loop started at `t`
returns within as many iterations as there are fragments. -/
theorem findLoop_total {n : Nat} (link : Fin n → Option (Fin n)) (t : Fin n)
    (hinj : ∀ x y p, link x = some p → link y = some p → x = y) :
    ∃ r, findLoop link t n t = some r := by
  apply Option.isSome_iff_exists.1
  refine findLoop_returns link t hinj n {t} t ?_ (Finset.mem_singleton_self t) ?_
  · simp; omega
  · intro y hy hyt
    exact absurd (Finset.mem_singleton.1 hy) hyt

/-- C8, counterexample to termination after arbitrary `forceConnect`
calls: the state `tailIntoCycle` is reached from three unlinked fragments by
the calls `f1.forceConnect(f0)`, `f2.forceConnect(f1)`,
`f1.forceConnect(f2)`, the third of which overwrites occupied slots; there
the loop of `findFirst` called on fragment 0 has not returned after any
number of iterations: it walks 1, 2, 1, 2, ... and never meets fragment 0 or
a fragment without prev link. -/
theorem findFirst_never_returns :
    Unlinked loose3
      ∧ linkAll loose3 forcedOver = tailIntoCycle
      ∧ ¬ ForcedOnOpenSlots loose3 forcedOver
      ∧ findFirst tailIntoCycle 0 = none
      ∧ ∀ fuel : Nat, findLoop (fun k => (tailIntoCycle k).prev) 0 fuel 0 = none := by
  refine ⟨by decide, rfl, by decide, by decide, ?_⟩
  have h0 : (tailIntoCycle 0).prev = some 1 := by decide
  have h1 : (tailIntoCycle 1).prev = some 2 := by decide
  have h2 : (tailIntoCycle 2).prev = some 1 := by decide
  have key : ∀ fuel : Nat,
      findLoop (fun k => (tailIntoCycle k).prev) 0 fuel 1 = none
        ∧ findLoop (fun k => (tailIntoCycle k).prev) 0 fuel 2 = none := by
    intro fuel
    induction fuel with
    | zero => exact ⟨rfl, rfl⟩
    | succ m ih =>
      constructor
      · unfold findLoop
        simp only [h1]
        simpa using ih.2
      · unfold findLoop
        simp only [h2]
        simpa using ih.1
  intro fuel
  cases fuel with
  | zero => rfl
  | succ m =>
    unfold findLoop
    simp only [h0]
    simpa using (key m).1

/-- C8 (termination of `findFirst` and `findLast`), as amended: in every
state reached from unlinked fragments by `connect` calls and by
`forceConnect` calls made on open slots, next and prev links are mutually
inverse, and `findFirst` and `findLast` called on any fragment return within
as many loop iterations as there are fragments, either a fragment without
prev link (resp. next link) or no result. -/
theorem find_terminates {n : Nat} (h0 : Heap n) (calls : List (LinkCall n))
    (hu : Unlinked h0) (ho : ForcedOnOpenSlots h0 calls) :
    LinksInverse (linkAll h0 calls)
      ∧ ∀ x : Fin n,
        (∃ r, findFirst (linkAll h0 calls) x = some r
            ∧ ∀ a, r = some a → ((linkAll h0 calls) a).prev = none)
          ∧ (∃ r, findLast (linkAll h0 calls) x = some r
            ∧ ∀ a, r = some a → ((linkAll h0 calls) a).next = none) := by
  have init : LinksInverse h0 := by
    intro x y
    rw [(hu x).2, (hu y).1]
    simp
  have inv := LinksInverse.linkAll_keeps calls h0 init ho
  refine ⟨inv, fun x => ⟨?_, ?_⟩⟩
  · obtain ⟨r, hr⟩ := findLoop_total (fun i => ((linkAll h0 calls) i).prev) x
      (fun a b p ha hb => by
        have e := (inv p a).2 ha
        rw [(inv p b).2 hb] at e
        exact (Option.some.inj e).symm)
    refine ⟨r, hr, fun a e => ?_⟩
    subst e
    exact findLoop_result _ x n x a hr
  · obtain ⟨r, hr⟩ := findLoop_total (fun i => ((linkAll h0 calls) i).next) x
      (fun a b p ha hb => by
        have e := (inv a p).1 ha
        rw [(inv b p).1 hb] at e
        exact (Option.some.inj e).symm)
    refine ⟨r, hr, fun a e => ?_⟩
    subst e
    exact findLoop_result _ x n x a hr

/-- Witness of C8: three forced links on open slots close a ring, a later
`connect` changes nothing, and `findFirst` and `findLast` on fragment 0
return. -/
theorem find_terminates_witness :
    (Unlinked loose3 ∧ ForcedOnOpenSlots loose3 forcedRing)
      ∧ (LinksInverse (linkAll loose3 forcedRing)
        ∧ ∀ x : Fin 3,
          (∃ r, findFirst (linkAll loose3 forcedRing) x = some r
              ∧ ∀ a, r = some a → ((linkAll loose3 forcedRing) a).prev = none)
            ∧ (∃ r, findLast (linkAll loose3 forcedRing) x = some r
              ∧ ∀ a, r = some a → ((linkAll loose3 forcedRing) a).next = none)) :=
  ⟨by decide, find_terminates loose3 forcedRing (by decide) (by decide)⟩

end Ms
